import Mathlib

/-!
Verification of the rsorth (Strange Forth) interpreter core against its
natural-language specification.

The definitions below are a shallow embedding of the Rust sources:

* `src/runtime/data_structures/value.rs`        — the `Value` enumeration,
  its coercing equality, conversions and `deep_clone`;
* `src/runtime/data_structures/value_vec.rs`, `value_hash.rs`,
  `data_object.rs`, `byte_buffer.rs`              — the reference-typed
  containers (modelled with an explicit arena heap, addresses standing in
  for `Rc<RefCell<...>>` pointers);
* `src/lang/tokenizing.rs`, `src/lang/source_buffer.rs` — the scanner;
* `src/runtime/built_ins/base_words/math_logic_and_bit_words.rs` — the
  arithmetic and comparison words;
* `src/runtime/data_structures/contextual_list.rs`, `dictionary.rs`,
  `src/runtime/interpreter/sorth_interpreter.rs`  — the contextual
  containers and the bytecode interpreter loop `execute_code`.

Modelling conventions:

* machine integers are `Int`/`Nat` with explicit wrapping or bound checks
  where the Rust code can wrap or panic;
* `f64` is modelled by `F64` (NaN, signed infinity, or an exact rational);
  the IEEE rounding of parsed/derived rationals is not modelled, and the
  decimal rendering of floats is abstracted by `f64Display` — none of the
  verified claims depend on either;
* Rust panics (index out of range, integer division by zero, releasing a
  root context) are modelled as `Option.none` or an explicit `panic`
  outcome constructor, kept distinct from catchable `ScriptError`s;
* run loops that can diverge take an explicit fuel parameter.
-/

namespace RSorth

/-! ## Model of Rust `f64` values -/

/-- Model of a Rust `f64`: NaN, a signed infinity, or an exact rational.
Finite values are carried exactly; IEEE rounding is not modelled. -/
inductive F64 where
  | nan
  | inf (neg : Bool)
  | num (q : ℚ)
deriving DecidableEq

/-- IEEE `==` on `f64`: NaN compares unequal to everything (itself
included); infinities compare by sign; finite values by numeric value. -/
def F64.feq : F64 → F64 → Bool
  | .nan, _ => false
  | _, .nan => false
  | .inf a, .inf b => a == b
  | .inf _, .num _ => false
  | .num _, .inf _ => false
  | .num a, .num b => a == b

/-- The `f64` value `0.0`. -/
def F64.zero : F64 := .num 0

/-- Rust `value != 0.0` on an `f64` (NaN and the infinities are nonzero). -/
def F64.neZero : F64 → Bool
  | .nan => true
  | .inf _ => true
  | .num q => q != 0

/-- Rust `f64 as i64`: truncation toward zero, saturating at the `i64`
range bounds, with NaN mapped to zero. -/
def f64ToI64 : F64 → Int
  | .nan => 0
  | .inf neg => if neg then -(2 ^ 63) else 2 ^ 63 - 1
  | .num q =>
    let t : Int := if 0 ≤ q then ⌊q⌋ else ⌈q⌉
    max (-(2 ^ 63)) (min (2 ^ 63 - 1) t)

/-- Decimal-ish rendering of an `F64`.  This abstracts Rust's shortest
round-trip `Display` for `f64`; no verified claim depends on the exact
text produced for floats. -/
def f64Display : F64 → String
  | .nan => "NaN"
  | .inf neg => if neg then "-inf" else "inf"
  | .num q => if q.den == 1 then toString q.num else toString q.num ++ "/" ++ toString q.den

/-! ## Source locations and tokens (`src/lang/source_buffer.rs`, `tokenizing.rs`) -/

/-- A location in the original source code: path, 1-based line, 1-based
column (struct `SourceLocation`). -/
structure SourceLocation where
  path : String
  line : Nat
  column : Nat
deriving DecidableEq

/-- A number token holds either an integer or a floating point literal
(enum `NumberType`). -/
inductive NumberType where
  | int (i : Int)
  | float (f : F64)
deriving DecidableEq

/-- A lexical token: a number, a string literal, or a word, each carrying
its source location (enum `Token`). -/
inductive Token where
  | number (loc : SourceLocation) (n : NumberType)
  | string (loc : SourceLocation) (s : String)
  | word (loc : SourceLocation) (s : String)
deriving DecidableEq

/-! ## The operation set (`src/lang/code.rs`) and the value model
(`src/runtime/data_structures/value.rs`)

`Value::Code` carries a block of instructions whose operands are
themselves `Value`s, so the value type nests through the operation shape.
Reference-typed variants (`Vec`, `HashMap`, `DataObject`, `ByteBuffer`)
carry an arena address standing in for the `Rc<RefCell<...>>` pointer;
the pointed-to contents live in an explicit `Heap` below. -/

/-- The operation shape of enum `Op`, parameterised by the operand value
type so that `HValue` can nest through it. -/
inductive OpShape (α : Type) where
  | defVariable (value : α)
  | defConstant (value : α)
  | readVariable
  | writeVariable
  | execute (value : α)
  | pushConstantValue (value : α)
  | markLoopExit (value : α)
  | unmarkLoopExit
  | markCatch (value : α)
  | unmarkCatch
  | markContext
  | releaseContext
  | jump (value : α)
  | jumpIfZero (value : α)
  | jumpIfNotZero (value : α)
  | jumpLoopStart
  | jumpLoopExit
  | jumpTarget (value : α)
deriving DecidableEq

/-- The `Value` enumeration.  Reference variants hold an arena address;
`code` holds a bytecode block (a list of located operations) by value,
exactly as `Value::Code(ByteCode)` does. -/
inductive HValue where
  | none
  | int (i : Int)
  | float (f : F64)
  | bool (b : Bool)
  | str (s : String)
  | vec (addr : Nat)
  | hashMap (addr : Nat)
  | dataObject (addr : Nat)
  | byteBuffer (addr : Nat)
  | token (t : Token)
  | code (c : List (Option SourceLocation × OpShape HValue))

/-- An operation with `Value` operands (enum `Op` after substitution). -/
abbrev Op := OpShape HValue

/-- A single instruction: optional source location plus operation
(struct `Instruction`). -/
abbrev Instr := Option SourceLocation × Op

/-- A block of bytecode (type `ByteCode`). -/
abbrev ByteCode := List Instr

/-! ## Word metadata enumerations (`src/runtime/data_structures/dictionary.rs`) -/

/-- When a word runs: at compile time or at run time (enum `WordRuntime`). -/
inductive WordRuntime where
  | immediate
  | normal
deriving DecidableEq

/-- Native or scripted word (enum `WordType`). -/
inductive WordType where
  | native
  | scripted
deriving DecidableEq

/-- Directory-listing visibility of a word (enum `WordVisibility`). -/
inductive WordVisibility where
  | visible
  | hidden
deriving DecidableEq

/-- Whether the interpreter or the word manages the word's context
(enum `WordContext`). -/
inductive WordContext where
  | managed
  | manual
deriving DecidableEq

/-! ## The arena heap backing the reference-typed values -/

/-- A structure definition (struct `DataObjectDefinition`): name, field
names, default field values, visibility. -/
structure DataObjectDefinition where
  name : String
  fieldNames : List String
  defaults : List HValue
  visibility : WordVisibility

/-- A structure instance (struct `DataObject`): an address of its
definition (for `definition_ptr`) and the positional field values. -/
structure DataObject where
  definitionPtr : Nat
  fields : List HValue

/-- A binary byte buffer with a read/write cursor
(struct `ByteBuffer`): the bytes (each `< 256`) and the cursor. -/
structure ByteBuffer where
  buffer : List Nat
  currentPosition : Nat
deriving DecidableEq

/-- The arena heap: one array per reference-counted cell type.  An
`HValue` reference variant's address indexes the matching arena, standing
in for the `Rc<RefCell<...>>` pointer graph of the Rust runtime. -/
structure Heap where
  vecs : List (List HValue)
  hashes : List (List (HValue × HValue))
  objs : List DataObject
  bufs : List ByteBuffer
  defs : List DataObjectDefinition

/-- The heap with no cells. -/
def Heap.empty : Heap := ⟨[], [], [], [], []⟩

/-! ## Variant checks and conversions (`value.rs`) -/

/-- Check for the `None` variant (`Value::is_none`). -/
def HValue.isNone : HValue → Bool
  | .none => true
  | _ => false

/-- Check for the `Int` variant (`Value::is_int`). -/
def HValue.isInt : HValue → Bool
  | .int _ => true
  | _ => false

/-- Check for the `Float` variant (`Value::is_float`). -/
def HValue.isFloat : HValue → Bool
  | .float _ => true
  | _ => false

/-- Check for the `Bool` variant (`Value::is_bool`). -/
def HValue.isBool : HValue → Bool
  | .bool _ => true
  | _ => false

/-- Check for the `String` variant (`Value::is_string`). -/
def HValue.isString : HValue → Bool
  | .str _ => true
  | _ => false

/-- Is the value any numeric variant: `None`, `Int`, `Float`, `Bool`, or
a number token (`Value::is_numeric`)? -/
def HValue.isNumeric : HValue → Bool
  | .none => true
  | .int _ => true
  | .float _ => true
  | .bool _ => true
  | .token (.number _ _) => true
  | _ => false

/-- Is the value simply stringable: `None`, `Int`, `Float`, `String`, or
a string/word token (`Value::is_stringable`)? -/
def HValue.isStringable : HValue → Bool
  | .none => true
  | .int _ => true
  | .float _ => true
  | .str _ => true
  | .token (.string _ _) => true
  | .token (.word _ _) => true
  | _ => false

/-- Convert to a string (`Value::get_string_val`); `Option.none` models
the panic on non-stringable values. -/
def HValue.getStringVal? : HValue → Option String
  | .none => some ""
  | .int i => some (toString i)
  | .float f => some (f64Display f)
  | .str s => some s
  | .token (.string _ s) => some s
  | .token (.word _ w) => some w
  | _ => Option.none

/-- Convert to a boolean (`Value::get_bool_val`); total in the source. -/
def HValue.getBoolVal : HValue → Bool
  | .none => false
  | .int i => i != 0
  | .float f => f.neZero
  | .bool b => b
  | .str s => !(s == "")
  | _ => true

/-- Convert to an integer (`Value::get_int_val`); `Option.none` models the
panic on non-numeric values. -/
def HValue.getIntVal? : HValue → Option Int
  | .none => some 0
  | .int i => some i
  | .float f => some (f64ToI64 f)
  | .bool b => some (if b then 1 else 0)
  | .token (.number _ (.int i)) => some i
  | .token (.number _ (.float f)) => some (f64ToI64 f)
  | _ => Option.none

/-- Convert to a float (`Value::get_float_val`); `Option.none` models the
panic on non-numeric values. -/
def HValue.getFloatVal? : HValue → Option F64
  | .none => some F64.zero
  | .int i => some (.num i)
  | .float f => some f
  | .bool b => some (.num (if b then 1 else 0))
  | .token (.number _ (.int i)) => some (.num i)
  | .token (.number _ (.float f)) => some f
  | _ => Option.none

/-! ## Value equality (`impl PartialEq for Value` and the container
`PartialEq` impls)

The equality can recurse through heap cells, and reference cycles would
make the Rust comparison diverge, so the model takes a fuel parameter;
`Option.none` stands for exhausted fuel (divergence) or a Rust panic
inside the comparison. -/

/-- The numeric-coercion arm of `Value::eq`: float, then int, then bool
coercion, in the source's order. -/
def numericValueEq (a b : HValue) : Option Bool :=
  if a.isFloat || b.isFloat then
    match a.getFloatVal?, b.getFloatVal? with
    | some x, some y => some (F64.feq x y)
    | _, _ => Option.none
  else if a.isInt || b.isInt then
    match a.getIntVal?, b.getIntVal? with
    | some x, some y => some (x == y)
    | _, _ => Option.none
  else if a.isBool || b.isBool then
    some (a.getBoolVal == b.getBoolVal)
  else
    some false

/-- Element-wise list equality given an element comparison, as derived for
`VecDeque<Value>` and `Vec<Value>` after the length check. -/
def listValueEqWith (eqv : HValue → HValue → Option Bool) :
    List HValue → List HValue → Option Bool
  | [], [] => some true
  | x :: xs, y :: ys =>
    match eqv x y with
    | Option.none => Option.none
    | some r => if r then listValueEqWith eqv xs ys else some false
  | _, _ => some false

/-- Key lookup in a hash cell's entry list using value equality, the model
of `HashMap::get` (assuming hashes consistent with the coercing equality,
the documented user-beware limitation of float and coercible keys). -/
def hashGetWith (eqv : HValue → HValue → Option Bool)
    (entries : List (HValue × HValue)) (key : HValue) : Option (Option HValue) :=
  match entries with
  | [] => some Option.none
  | (k, v) :: rest =>
    match eqv k key with
    | Option.none => Option.none
    | some r => if r then some (some v) else hashGetWith eqv rest key

/-- The body of `impl PartialEq for ValueHash`: for every entry of the
left table, the right table must contain the key and map it to an equal
value; entries of the right table are never examined on their own. -/
def hashSubsetEqWith (eqv : HValue → HValue → Option Bool)
    (xs ys : List (HValue × HValue)) : Option Bool :=
  match xs with
  | [] => some true
  | (k, v) :: rest =>
    match hashGetWith eqv ys k with
    | Option.none => Option.none
    | some Option.none => some false
    | some (some w) =>
      match eqv w v with
      | Option.none => Option.none
      | some r => if r then hashSubsetEqWith eqv rest ys else some false

/-- The field loop of `impl PartialEq for DataObject`: every index of the
left object's field list is compared; `Option.none` models the index
panic when the right object has fewer fields. -/
def dataFieldsEqWith (eqv : HValue → HValue → Option Bool) :
    List HValue → List HValue → Option Bool
  | [], _ => some true
  | x :: xs, y :: ys =>
    match eqv x y with
    | Option.none => Option.none
    | some r => if r then dataFieldsEqWith eqv xs ys else some false
  | _ :: _, [] => Option.none

/-- Equality on one operation, as derived for `Op`: same variant, and the
operand values compared with `Value::eq`. -/
def opEqWith (eqv : HValue → HValue → Option Bool) : Op → Op → Option Bool
  | .defVariable x, .defVariable y => eqv x y
  | .defConstant x, .defConstant y => eqv x y
  | .readVariable, .readVariable => some true
  | .writeVariable, .writeVariable => some true
  | .execute x, .execute y => eqv x y
  | .pushConstantValue x, .pushConstantValue y => eqv x y
  | .markLoopExit x, .markLoopExit y => eqv x y
  | .unmarkLoopExit, .unmarkLoopExit => some true
  | .markCatch x, .markCatch y => eqv x y
  | .unmarkCatch, .unmarkCatch => some true
  | .markContext, .markContext => some true
  | .releaseContext, .releaseContext => some true
  | .jump x, .jump y => eqv x y
  | .jumpIfZero x, .jumpIfZero y => eqv x y
  | .jumpIfNotZero x, .jumpIfNotZero y => eqv x y
  | .jumpLoopStart, .jumpLoopStart => some true
  | .jumpLoopExit, .jumpLoopExit => some true
  | .jumpTarget x, .jumpTarget y => eqv x y
  | _, _ => some false

/-- Equality on one instruction, as derived for `Instruction`: equal
locations and equal operations. -/
def instrEqWith (eqv : HValue → HValue → Option Bool) (i j : Instr) : Option Bool :=
  if i.1 = j.1 then opEqWith eqv i.2 j.2 else some false

/-- Element-wise instruction list equality (the `VecDeque<Instruction>`
derived equality after the length check). -/
def instrListEqWith (eqv : HValue → HValue → Option Bool) :
    List Instr → List Instr → Option Bool
  | [], [] => some true
  | i :: is, j :: js =>
    match instrEqWith eqv i j with
    | Option.none => Option.none
    | some r => if r then instrListEqWith eqv is js else some false
  | _, _ => some false

/-- The coercing equality of `impl PartialEq for Value`, relative to a
heap: both-`None`, then numeric coercion, then stringable coercion, then
per-variant structural comparison through the referenced cells. -/
def valueEq : Nat → Heap → HValue → HValue → Option Bool
  | 0, _, _, _ => Option.none
  | fuel + 1, H, a, b =>
    if a.isNone && b.isNone then some true
    else if a.isNumeric && b.isNumeric then numericValueEq a b
    else if a.isStringable && b.isStringable then
      match a.getStringVal?, b.getStringVal? with
      | some x, some y => some (x == y)
      | _, _ => Option.none
    else
      match a, b with
      | .vec x, .vec y =>
        match H.vecs[x]?, H.vecs[y]? with
        | some xs, some ys =>
          if xs.length = ys.length then listValueEqWith (valueEq fuel H) xs ys
          else some false
        | _, _ => Option.none
      | .dataObject x, .dataObject y =>
        match H.objs[x]?, H.objs[y]? with
        | some ox, some oy =>
          match H.defs[ox.definitionPtr]?, H.defs[oy.definitionPtr]? with
          | some dx, some dy =>
            if dx.name ≠ dy.name then some false
            else dataFieldsEqWith (valueEq fuel H) ox.fields oy.fields
          | _, _ => Option.none
        | _, _ => Option.none
      | .token t, .token u => some (decide (t = u))
      | .hashMap x, .hashMap y =>
        match H.hashes[x]?, H.hashes[y]? with
        | some hx, some hy => hashSubsetEqWith (valueEq fuel H) hx hy
        | _, _ => Option.none
      | .byteBuffer x, .byteBuffer y =>
        match H.bufs[x]?, H.bufs[y]? with
        | some bx, some bz =>
          some (bx.buffer == bz.buffer && bx.currentPosition == bz.currentPosition)
        | _, _ => Option.none
      | .code cx, .code cy =>
        if cx.length = cy.length then instrListEqWith (valueEq fuel H) cx cy
        else some false
      | _, _ => some false

/-! ## Concrete heaps used by closed witness and counterexample theorems -/

/-- A heap holding two hash cells: cell 0 is the empty table, cell 1 maps
the integer 1 to the integer 2. -/
def hashPairHeap : Heap :=
  { vecs := [], hashes := [[], [(.int 1, .int 2)]], objs := [], bufs := [], defs := [] }

/-! ## Byte buffer operations (`src/runtime/data_structures/byte_buffer.rs`)

The buffer is the byte list plus the cursor.  Bounds violations and
invalid byte sizes panic in Rust; the model returns `Option.none` for
them.  `increment_position` (which panics when the advanced position
exceeds the buffer length) runs before the data access in every
operation, so each operation checks `position + size ≤ length` first. -/

/-- Little-endian value of a byte list. -/
def leVal : List Nat → Nat
  | [] => 0
  | b :: rest => b + 256 * leVal rest

/-- Two's-complement reading of a `w`-bit unsigned value (the value of
`iN::from_le_bytes`, and of the `u64 as i64` cast for `w = 64`). -/
def toSigned (w : Nat) (n : Nat) : Int :=
  if n < 2 ^ (w - 1) then (n : Int) else (n : Int) - 2 ^ w

/-- Method `ByteBuffer::read_int`: advance the cursor by `byteSize`, then
decode the bytes little-endian.  Byte size 1 returns the raw byte
(`bytes[0] as i64`) with `isSigned` never consulted; sizes 2 and 4 choose
between the `i16`/`i32` and `u16`/`u32` decodings; size 8 decodes as
`i64` when signed and as `u64` cast to `i64` (a wrapping cast, hence the
same two's-complement reading) when unsigned.  `Option.none` models the
panics on an out-of-bounds advance or an invalid byte size. -/
def ByteBuffer.readInt (bb : ByteBuffer) (byteSize : Nat) (isSigned : Bool) :
    Option (Int × ByteBuffer) :=
  let position := bb.currentPosition
  if position + byteSize > bb.buffer.length then Option.none
  else
    let bytes := (bb.buffer.drop position).take byteSize
    let bb' : ByteBuffer := { bb with currentPosition := position + byteSize }
    match byteSize with
    | 1 => some ((leVal bytes : Int), bb')
    | 2 => some (if isSigned then toSigned 16 (leVal bytes) else (leVal bytes : Int), bb')
    | 4 => some (if isSigned then toSigned 32 (leVal bytes) else (leVal bytes : Int), bb')
    | 8 => some (if isSigned then toSigned 64 (leVal bytes) else toSigned 64 (leVal bytes), bb')
    | _ => Option.none

/-- Method `ByteBuffer::write_string`: copy the first
`min (bytes.length) maxSize` bytes of the UTF-8 string into the
`maxSize`-byte slot at the cursor, zero-fill the slot's tail when the
string is shorter, and advance the cursor by `maxSize`.  `Option.none`
models the panic when the slot exceeds the buffer. -/
def ByteBuffer.writeString (bb : ByteBuffer) (maxSize : Nat) (value : List Nat) :
    Option ByteBuffer :=
  let bytes := value
  let writeBytes := min bytes.length maxSize
  let position := bb.currentPosition
  if position + maxSize > bb.buffer.length then Option.none
  else
    some { buffer := bb.buffer.take position ++
             (bytes.take writeBytes ++ List.replicate (maxSize - writeBytes) 0) ++
             bb.buffer.drop (position + maxSize),
           currentPosition := position + maxSize }

/-- Whether a byte is a UTF-8 continuation byte (`0x80..=0xBF`). -/
def isUtf8Cont (b : Nat) : Bool := 0x80 ≤ b && b ≤ 0xBF

/-- Classify the UTF-8 sequence starting at byte `b` with tail `rest`:
`(true, k)` means a valid `k`-byte character; `(false, e)` means an
invalid sequence whose maximal valid prefix spans `e` bytes (the error
length reported by Rust's UTF-8 validation, also used for an incomplete
sequence at the end of the input). -/
def utf8Step (b : Nat) (rest : List Nat) : Bool × Nat :=
  if b < 0x80 then (true, 1)
  else
    let secondRange : Option (Nat × Nat) :=
      if 0xC2 ≤ b && b ≤ 0xDF then some (0x80, 0xBF)
      else if b == 0xE0 then some (0xA0, 0xBF)
      else if (0xE1 ≤ b && b ≤ 0xEC) || b == 0xEE || b == 0xEF then some (0x80, 0xBF)
      else if b == 0xED then some (0x80, 0x9F)
      else if b == 0xF0 then some (0x90, 0xBF)
      else if 0xF1 ≤ b && b ≤ 0xF3 then some (0x80, 0xBF)
      else if b == 0xF4 then some (0x80, 0x8F)
      else Option.none
    let total : Nat := if b ≤ 0xDF then 2 else if b ≤ 0xEF then 3 else 4
    match secondRange with
    | Option.none => (false, 1)
    | some (lo, hi) =>
      match rest with
      | [] => (false, 1)
      | b2 :: rest2 =>
        if lo ≤ b2 && b2 ≤ hi then
          if total == 2 then (true, 2)
          else
            match rest2 with
            | [] => (false, 2)
            | b3 :: rest3 =>
              if isUtf8Cont b3 then
                if total == 3 then (true, 3)
                else
                  match rest3 with
                  | [] => (false, 3)
                  | b4 :: _ => if isUtf8Cont b4 then (true, 4) else (false, 3)
              else (false, 2)
        else (false, 1)

/-- Fuel-indexed worker for `rustFromUtf8Lossy`; every step consumes at
least one byte, so fuel equal to the byte count suffices. -/
def lossyGo : Nat → List Nat → List Nat
  | _, [] => []
  | 0, _ :: _ => []
  | fuel + 1, b :: rest =>
    let s := utf8Step b rest
    if s.1 then (b :: rest.take (s.2 - 1)) ++ lossyGo fuel (rest.drop (s.2 - 1))
    else 0xEF :: 0xBF :: 0xBD :: lossyGo fuel (rest.drop (s.2 - 1))

/-- The byte content of `String::from_utf8_lossy`: valid UTF-8 sequences
are copied through; each invalid sequence (of the reported error length)
is replaced by the UTF-8 encoding `EF BF BD` of U+FFFD. -/
def rustFromUtf8Lossy (bs : List Nat) : List Nat := lossyGo bs.length bs

/-- Fuel-indexed worker for `validUtf8`. -/
def validGo : Nat → List Nat → Bool
  | _, [] => true
  | 0, _ :: _ => false
  | fuel + 1, b :: rest =>
    let s := utf8Step b rest
    s.1 && validGo fuel (rest.drop (s.2 - 1))

/-- Whether a byte list is valid UTF-8 (every sequence valid). -/
def validUtf8 (bs : List Nat) : Bool := validGo bs.length bs

/-- Method `ByteBuffer::read_string`: advance the cursor by `maxSize`,
take the slot's bytes up to the first zero byte (or the whole slot), and
decode them with `String::from_utf8_lossy`.  The returned value is the
byte content of the resulting Rust `String`.  `Option.none` models the
panic when the slot exceeds the buffer. -/
def ByteBuffer.readString (bb : ByteBuffer) (maxSize : Nat) :
    Option (List Nat × ByteBuffer) :=
  let position := bb.currentPosition
  if position + maxSize > bb.buffer.length then Option.none
  else
    let bytes := (bb.buffer.drop position).take maxSize
    let strBytes := bytes.takeWhile (fun b => b != 0)
    some (rustFromUtf8Lossy strBytes, { bb with currentPosition := position + maxSize })

/-! ## Errors and call stack (`src/runtime/error.rs`, `interpreter/mod.rs`) -/

/-- One call-stack frame: the word name and the location it was invoked
from (struct `CallItem`). -/
structure CallItem where
  word : String
  location : SourceLocation
deriving DecidableEq

/-- A script error: optional source location, message, optional call-stack
snapshot (struct `ScriptError`). -/
structure ScriptError where
  location : Option SourceLocation
  error : String
  callStack : Option (List CallItem)
deriving DecidableEq

/-- Function `script_error`: build an error from the interpreter's current
location and call stack.  The call stack is modelled head-newest (the Rust
`Vec` pushes and pops at its end). -/
def scriptError (loc : Option SourceLocation) (cs : List CallItem)
    (message : String) : ScriptError :=
  ⟨loc, message, some cs⟩

/-- The displayed message of an error, `ScriptError`'s `Display`
restricted to the location-and-message line used when the error string is
pushed for a catch (the call-stack lines are appended after it; the catch
path pushes the full rendering, of which this is the head line). -/
def ScriptError.toDisplayString (e : ScriptError) : String :=
  match e.location with
  | some loc => loc.path ++ " (" ++ toString loc.line ++ ", " ++ toString loc.column ++ "): "
      ++ e.error
  | Option.none => e.error

/-! ## Arithmetic words (`src/runtime/built_ins/base_words/math_logic_and_bit_words.rs`)

Each word handler is modelled as a function of the data stack (head is the
top), together with the interpreter's current location and call stack used
to build `script_error`s.  The outcome distinguishes a normal return, a
catchable script error (with the stack as mutated before the error), a
Rust panic, and divergence (comparison fuel exhausted on cyclic data). -/

/-- Result of running one native word against the data stack. -/
inductive WOutcome where
  | ok (stack : List HValue)
  | err (e : ScriptError) (stack : List HValue)
  | panic
  | diverge

/-- IEEE division on the `F64` model.  Sign handling of zero and infinity
results is approximate (the model has no negative zero); no verified
claim depends on float division results. -/
def F64.fdiv : F64 → F64 → F64
  | .nan, _ => .nan
  | _, .nan => .nan
  | .inf _, .inf _ => .nan
  | .inf s, .num q => if q < 0 then .inf (!s) else .inf s
  | .num _, .inf _ => .num 0
  | .num a, .num b =>
    if b = 0 then (if a = 0 then .nan else .inf (decide (a < 0)))
    else .num (a / b)

/-- Rust `i64` division `a / b`: panics (`Option.none`) on a zero divisor
and on the overflowing case `i64::MIN / -1`; otherwise truncated
division. -/
def rustI64Div (a b : Int) : Option Int :=
  if b = 0 then Option.none
  else if a = -(2 ^ 63) ∧ b = -1 then Option.none
  else some (Int.tdiv a b)

/-- Helper `math_op`: pop `b` then `a`; if either is a `Float` value run
the float operation, else if either is an `Int` value run the integer
operation (coercing the other argument, which panics on non-numerics),
else report a script error; push the result. -/
def mathOp (loc : Option SourceLocation) (cs : List CallItem)
    (fop : F64 → F64 → F64) (iop : Int → Int → Option Int)
    (stack : List HValue) : WOutcome :=
  match stack with
  | [] => .err (scriptError loc cs "Stack underflow.") []
  | [_] => .err (scriptError loc cs "Stack underflow.") []
  | b :: a :: rest =>
    if a.isFloat || b.isFloat then
      match a.getFloatVal?, b.getFloatVal? with
      | some x, some y => .ok (.float (fop x y) :: rest)
      | _, _ => .panic
    else if a.isInt || b.isInt then
      match a.getIntVal?, b.getIntVal? with
      | some x, some y =>
        match iop x y with
        | some r => .ok (.int r :: rest)
        | Option.none => .panic
      | _, _ => .panic
    else
      .err (scriptError loc cs "Value incompatible with numeric op.") rest

/-- The word `/` (function `word_divide`): `math_op` with float and
integer division. -/
def wordDivide (loc : Option SourceLocation) (cs : List CallItem)
    (stack : List HValue) : WOutcome :=
  mathOp loc cs F64.fdiv rustI64Div stack

/-- The native word `=` (function `word_equal`): pop `b` then `a`, push
the integer `-1` when the coercing value equality holds and `0`
otherwise. -/
def wordEqual (fuel : Nat) (H : Heap) (loc : Option SourceLocation)
    (cs : List CallItem) (stack : List HValue) : WOutcome :=
  match stack with
  | [] => .err (scriptError loc cs "Stack underflow.") []
  | [_] => .err (scriptError loc cs "Stack underflow.") []
  | b :: a :: rest =>
    match valueEq fuel H a b with
    | Option.none => .diverge
    | some r => .ok (.int (if r then -1 else 0) :: rest)

/-- The native word `'` (function `word_logic_not`): pop a value as a
boolean (`pop_as_bool` errors on non-numerics, then coerces with
`get_bool_val`) and push its boolean negation. -/
def wordLogicNot (loc : Option SourceLocation) (cs : List CallItem)
    (stack : List HValue) : WOutcome :=
  match stack with
  | [] => .err (scriptError loc cs "Stack underflow.") []
  | a :: rest =>
    if a.isNumeric then .ok (.bool (!a.getBoolVal) :: rest)
    else .err (scriptError loc cs "Expected boolean value.") rest

/-- Modelled from the spec: the surface word `<>` seen by scripts is
defined in the standard-library prelude `std.f`, which is part of this
repository but not under `src/` — the spec's open-question note and the
repository tests (`tests/forth_rs_compat_tests.rs`, noting that `<>` is
defined in `std.f` as `= '`, equal then logical not, and yields `1`)
record its behaviour.  The word executes the native `=` word and then the
native logical-not word `'`, both translated from
`math_logic_and_bit_words.rs` above. -/
def stdfNotEqual (fuel : Nat) (H : Heap) (loc : Option SourceLocation)
    (cs : List CallItem) (stack : List HValue) : WOutcome :=
  match wordEqual fuel H loc cs stack with
  | .ok stack1 => wordLogicNot loc cs stack1
  | other => other

/-! ## The scanner (`src/lang/tokenizing.rs`, `src/lang/source_buffer.rs`)

The source buffer is the remaining character list plus the cursor
location.  Loops that scan ahead take fuel (one character is consumed per
iteration, so the character count bounds every loop).  `ScanOut`
distinguishes successful results, lex errors, and the `assert!`/`unwrap`
panics in the string-literal helpers. -/

/-- Outcome of a scanner step: success, a lex error, or a Rust panic
(a failed `assert!` or `unwrap`). -/
inductive ScanOut (α : Type) where
  | ok (a : α)
  | err (e : ScriptError)
  | panic

/-- Advance a location over one character (`increment_location`): a
newline bumps the line and resets the column, anything else bumps the
column. -/
def SourceLocation.increment (loc : SourceLocation) (next : Char) : SourceLocation :=
  if next = '\n' then { loc with line := loc.line + 1, column := 1 }
  else { loc with column := loc.column + 1 }

/-- The scanner's input buffer (struct `SourceBuffer`): remaining
characters and the cursor location. -/
structure SourceBuffer where
  chars : List Char
  location : SourceLocation
deriving DecidableEq

/-- Peek at the next character without consuming (`peek_next`). -/
def SourceBuffer.peekNext : SourceBuffer → Option Char
  | ⟨[], _⟩ => Option.none
  | ⟨c :: _, _⟩ => some c

/-- Consume the next character, advancing the location (`next_char`). -/
def SourceBuffer.nextChar : SourceBuffer → Option Char × SourceBuffer
  | ⟨[], loc⟩ => (Option.none, ⟨[], loc⟩)
  | ⟨c :: rest, loc⟩ => (some c, ⟨rest, loc.increment c⟩)

/-- Function `is_whitespace`: space, tab, carriage return, or newline. -/
def isWhitespaceChar (c : Char) : Bool :=
  c == ' ' || c == '\t' || c == '\r' || c == '\n'

/-- Worker for `skip_whitespace`. -/
def skipWhitespaceGo : List Char → SourceLocation → SourceBuffer
  | [], loc => ⟨[], loc⟩
  | c :: rest, loc =>
    if isWhitespaceChar c then skipWhitespaceGo rest (loc.increment c)
    else ⟨c :: rest, loc⟩

/-- Function `skip_whitespace`: consume until a non-whitespace character
or the end of the buffer. -/
def skipWhitespace (buffer : SourceBuffer) : SourceBuffer :=
  skipWhitespaceGo buffer.chars buffer.location

/-- Worker for `process_until_whitespace`: collect characters until
whitespace or the end of the buffer. -/
def takeUntilWhitespace : List Char → SourceLocation → List Char × SourceBuffer
  | [], loc => ([], ⟨[], loc⟩)
  | c :: rest, loc =>
    if isWhitespaceChar c then ([], ⟨c :: rest, loc⟩)
    else
      let t := takeUntilWhitespace rest (loc.increment c)
      (c :: t.1, t.2)

/-- Function `process_until_whitespace`: the atom's location (the cursor
before consuming), its text, and the rest of the buffer. -/
def processUntilWhitespace (buffer : SourceBuffer) :
    SourceLocation × String × SourceBuffer :=
  let t := takeUntilWhitespace buffer.chars buffer.location
  (buffer.location, String.mk t.1, t.2)

/-- Collect the consecutive ASCII digits at the cursor (the numeric
escape's digit loop in `process_literal`). -/
def collectDigits : List Char → SourceLocation → List Char × SourceBuffer
  | [], loc => ([], ⟨[], loc⟩)
  | c :: rest, loc =>
    if c.isDigit then
      let t := collectDigits rest (loc.increment c)
      (c :: t.1, t.2)
    else ([], ⟨c :: rest, loc⟩)

/-- Value of a digit character in the given radix, if it is one
(`char::to_digit`). -/
def digitVal (radix : Nat) (c : Char) : Option Nat :=
  let v : Nat :=
    if c.isDigit then c.toNat - '0'.toNat
    else if 'a' ≤ c && c ≤ 'z' then c.toNat - 'a'.toNat + 10
    else if 'A' ≤ c && c ≤ 'Z' then c.toNat - 'A'.toNat + 10
    else 99
  if v < radix then some v else Option.none

/-- Accumulate digit characters in the given radix; `Option.none` if any
character is not a digit of the radix. -/
def parseDigitsAux (radix : Nat) : List Char → Nat → Option Nat
  | [], acc => some acc
  | c :: rest, acc =>
    match digitVal radix c with
    | some v => parseDigitsAux radix rest (acc * radix + v)
    | Option.none => Option.none

/-- Function `process_literal`: translate one escape sequence.  The
caller must leave the backslash at the cursor: the function consumes it
and panics (failed `assert!`) if it is not a backslash, exactly as the
multi-line string loop does after having already consumed it. -/
def processLiteral (location : SourceLocation) (buffer : SourceBuffer) :
    ScanOut (Char × SourceBuffer) :=
  let n := buffer.nextChar
  match n.1 with
  | Option.none => .panic
  | some c0 =>
    if c0 ≠ '\\' then .panic
    else
      let m := n.2.nextChar
      match m.1 with
      | some 'n' => .ok ('\n', m.2)
      | some 'r' => .ok ('\r', m.2)
      | some 't' => .ok ('\t', m.2)
      | some '0' =>
        let t := collectDigits m.2.chars m.2.location
        match parseDigitsAux 10 t.1 0 with
        | some v =>
          if t.1 ≠ [] ∧ v ≤ 255 then .ok (Char.ofNat v, t.2)
          else .err ⟨some location,
            "Failed to parse numeric literal from '" ++ String.mk t.1 ++ "'.", Option.none⟩
        | Option.none => .err ⟨some location,
            "Failed to parse numeric literal from '" ++ String.mk t.1 ++ "'.", Option.none⟩
      | some other => .ok (other, m.2)
      | Option.none => .err ⟨some location,
          "Unexpected end of file in string literal.", Option.none⟩

/-- Helper `skip_whitespace_until_column` of `process_multi_line_string`:
consume whitespace while before the indent baseline column; hitting the
end of the buffer is a lex error. -/
def skipWsUntilColumn (location : SourceLocation) (targetColumn : Nat) :
    List Char → SourceLocation → Except ScriptError SourceBuffer
  | [], _ => .error ⟨some location, "Unexpected end of file in string literal.", Option.none⟩
  | c :: rest, loc =>
    if isWhitespaceChar c ∧ loc.column < targetColumn then
      skipWsUntilColumn location targetColumn rest (loc.increment c)
    else .ok ⟨c :: rest, loc⟩

/-- The scan loop of `process_multi_line_string` (fuel-indexed; each
iteration consumes at least one character). -/
def multiLineGo (location : SourceLocation) (targetColumn : Nat) :
    Nat → SourceBuffer → ScanOut (List Char × SourceBuffer)
  | 0, buffer => .ok ([], buffer)
  | fuel + 1, buffer =>
    let n := buffer.nextChar
    match n.1 with
    | Option.none => .ok ([], buffer)
    | some c =>
      if c = '*' then
        match n.2.peekNext with
        | some q =>
          if q = '"' then .ok ([], n.2.nextChar.2)
          else
            match multiLineGo location targetColumn fuel n.2 with
            | .ok (text, b2) => .ok ('*' :: text, b2)
            | other => other
        | Option.none => .err ⟨some location,
            "Unexpected end of file in string literal.", Option.none⟩
      else if c = '\\' then
        match processLiteral location buffer with
        | .ok (ch, b1) =>
          match multiLineGo location targetColumn fuel b1 with
          | .ok (text, b2) => .ok (ch :: text, b2)
          | other => other
        | .err e => .err e
        | .panic => .panic
      else if c = '\n' then
        let startLine := n.2.location.line
        match skipWsUntilColumn location targetColumn n.2.chars n.2.location with
        | .error e => .err e
        | .ok b1 =>
          let currentLine := b1.location.line
          let pad := if currentLine > startLine then currentLine - startLine else 0
          match multiLineGo location targetColumn fuel b1 with
          | .ok (text, b2) => .ok ('\n' :: (List.replicate pad '\n' ++ text), b2)
          | other => other
      else
        match multiLineGo location targetColumn fuel n.2 with
        | .ok (text, b2) => .ok (c :: text, b2)
        | other => other

/-- Function `process_multi_line_string`: consume the `*` of the opening
`"*`, skip whitespace to find the indent baseline column, then run the
scan loop. -/
def processMultiLineString (location : SourceLocation) (buffer : SourceBuffer) :
    ScanOut (List Char × SourceBuffer) :=
  let n := buffer.nextChar
  match n.1 with
  | some c =>
    if c = '*' then
      let b1 := skipWhitespace n.2
      multiLineGo location b1.location.column (b1.chars.length + 1) b1
    else .panic
  | Option.none => .panic

/-- The single-line scan loop of `process_string` (fuel-indexed): collect
characters until the closing quote, the end of the buffer, or an error. -/
def singleLineGo (location : SourceLocation) :
    Nat → SourceBuffer → ScanOut (List Char × SourceBuffer)
  | 0, buffer => .ok ([], buffer)
  | fuel + 1, buffer =>
    match buffer.peekNext with
    | Option.none => .ok ([], buffer)
    | some next =>
      if next = '"' then .ok ([], buffer)
      else if next = '\n' then
        .err ⟨some location, "Unexpected new line in string literal.", Option.none⟩
      else if next = '\\' then
        match processLiteral location buffer with
        | .ok (ch, b1) =>
          match singleLineGo location fuel b1 with
          | .ok (text, b2) => .ok (ch :: text, b2)
          | other => other
        | .err e => .err e
        | .panic => .panic
      else
        let n := buffer.nextChar
        match n.1 with
        | some c =>
          match singleLineGo location fuel n.2 with
          | .ok (text, b2) => .ok (c :: text, b2)
          | other => other
        | Option.none => .ok ([], buffer)

/-- Function `process_string`: consume the opening quote, record the
location, and scan either a multi-line (after `"*`) or single-line string
literal. -/
def processString (buffer : SourceBuffer) : ScanOut (SourceLocation × String × SourceBuffer) :=
  let n := buffer.nextChar
  match n.1 with
  | some c =>
    if c = '"' then
      let b1 := n.2
      let location := b1.location
      if b1.peekNext = some '*' then
        match processMultiLineString location b1 with
        | .ok (text, b2) => .ok (location, String.mk text, b2)
        | .err e => .err e
        | .panic => .panic
      else
        match singleLineGo location (b1.chars.length + 1) b1 with
        | .ok (text, b2) =>
          let m := b2.nextChar
          match m.1 with
          | Option.none => .err ⟨some location,
              "Unexpected end of file in string literal.", Option.none⟩
          | some _ => .ok (location, String.mk text, m.2)
        | .err e => .err e
        | .panic => .panic
    else .panic
  | Option.none => .panic

/-- Rust `char::is_ascii_hexdigit`. -/
def isAsciiHexDigitChar (c : Char) : Bool :=
  c.isDigit || ('a' ≤ c && c ≤ 'f') || ('A' ≤ c && c ≤ 'F')

/-- Function `is_number`: the numeric shape test — a `0x` or `0b` prefix,
or every character a hex digit, dot, minus, `e`, `E`, or underscore. -/
def is_number (text : String) : Bool :=
  if text.toList.isEmpty then false
  else if text.toList.take 2 = ['0', 'x'] || text.toList.take 2 = ['0', 'b'] then true
  else text.toList.all fun c =>
    isAsciiHexDigitChar c || c == '.' || c == '-' || c == 'e' || c == 'E' || c == '_'

/-- Rust `i64::from_str_radix` (and, at radix 10, `str::parse::<i64>`):
optional sign, then one or more digits of the radix, with the magnitude
checked against the `i64` range. -/
def fromStrRadix (radix : Nat) (cs : List Char) : Option Int :=
  match cs with
  | [] => Option.none
  | '+' :: rest =>
    match rest, parseDigitsAux radix rest 0 with
    | _ :: _, some n => if n ≤ 2 ^ 63 - 1 then some (n : Int) else Option.none
    | _, _ => Option.none
  | '-' :: rest =>
    match rest, parseDigitsAux radix rest 0 with
    | _ :: _, some n => if n ≤ 2 ^ 63 then some (-(n : Int)) else Option.none
    | _, _ => Option.none
  | _ =>
    match parseDigitsAux radix cs 0 with
    | some n => if n ≤ 2 ^ 63 - 1 then some (n : Int) else Option.none
    | Option.none => Option.none

/-- Split a character list at the first character satisfying the test;
the second component is `Option.none` when no such character occurs. -/
def splitAtChar (p : Char → Bool) : List Char → List Char × Option (List Char)
  | [] => ([], Option.none)
  | c :: rest =>
    if p c then ([], some rest)
    else
      let t := splitAtChar p rest
      (c :: t.1, t.2)

/-- The value of a list of decimal digit characters. -/
def decDigitsVal (cs : List Char) : Nat :=
  (parseDigitsAux 10 cs 0).getD 0

/-- Rust `str::parse::<f64>`: optional sign, then `inf`, `infinity` or
`nan` (case-insensitive) or a mantissa (`digits[.digits?]` or `.digits`)
with an optional `e`/`E` exponent of signed digits.  The numeric value is
carried as an exact rational; IEEE rounding is not modelled (no verified
claim depends on the parsed value, only on parse success). -/
def parseF64 (cs : List Char) : Option F64 :=
  let signSplit : Bool × List Char :=
    match cs with
    | '+' :: r => (false, r)
    | '-' :: r => (true, r)
    | r => (false, r)
  let neg := signSplit.1
  let body := signSplit.2
  let lower := body.map Char.toLower
  if lower = "inf".toList || lower = "infinity".toList then some (.inf neg)
  else if lower = "nan".toList then some .nan
  else
    let es := splitAtChar (fun c => c == 'e' || c == 'E') body
    let ds := splitAtChar (fun c => c == '.') es.1
    let intPart := ds.1
    let mantOk : Bool :=
      match ds.2 with
      | Option.none => !intPart.isEmpty && intPart.all Char.isDigit
      | some frac =>
        frac.all Char.isDigit &&
          ((!intPart.isEmpty && intPart.all Char.isDigit) ||
            (intPart.isEmpty && !frac.isEmpty))
    if !mantOk then Option.none
    else
      let fracDigits : List Char := (ds.2).getD []
      let mantVal : ℚ :=
        (decDigitsVal intPart : ℚ) +
          (decDigitsVal fracDigits : ℚ) / (10 : ℚ) ^ fracDigits.length
      let signedVal : ℚ := if neg then -mantVal else mantVal
      match es.2 with
      | Option.none => some (.num signedVal)
      | some ex =>
        let exSplit : Bool × List Char :=
          match ex with
          | '+' :: r => (false, r)
          | '-' :: r => (true, r)
          | r => (false, r)
        if !exSplit.2.isEmpty && exSplit.2.all Char.isDigit then
          let e := decDigitsVal exSplit.2
          some (.num (if exSplit.1 then signedVal / 10 ^ e else signedVal * 10 ^ e))
        else Option.none

/-- Function `to_numeric`: `0x`/`0b` select the radix on the stripped
text, a dot selects the float parse, anything else the decimal integer
parse; underscores are removed before parsing.  `Option.none` when the
parse fails. -/
def to_numeric (text : String) : Option NumberType :=
  if text.toList.take 2 = ['0', 'x'] then
    match fromStrRadix 16 ((text.toList.drop 2).filter (fun c => c != '_')) with
    | some n => some (.int n)
    | Option.none => Option.none
  else if text.toList.take 2 = ['0', 'b'] then
    match fromStrRadix 2 ((text.toList.drop 2).filter (fun c => c != '_')) with
    | some n => some (.int n)
    | Option.none => Option.none
  else if text.toList.contains '.' then
    match parseF64 (text.toList.filter (fun c => c != '_')) with
    | some f => some (.float f)
    | Option.none => Option.none
  else
    match fromStrRadix 10 (text.toList.filter (fun c => c != '_')) with
    | some n => some (.int n)
    | Option.none => Option.none

/-- The token-classification match of `tokenize_from_source` for an atom
that is not a string literal: a `Number` exactly when `is_number` accepts
the shape and `to_numeric` parses it, a `Word` otherwise (including the
fallback when the shape test passes but the parse fails). -/
def atomToken (location : SourceLocation) (text : String) : Token :=
  if is_number text then
    match to_numeric text with
    | some number => Token.number location number
    | Option.none => Token.word location text
  else Token.word location text

/-- The loop of `tokenize_from_source` (fuel-indexed; every iteration
consumes at least one character). -/
def tokenizeGo : Nat → SourceBuffer → ScanOut (List Token)
  | 0, _ => .ok []
  | fuel + 1, buffer =>
    match buffer.peekNext with
    | Option.none => .ok []
    | some next =>
      if isWhitespaceChar next then tokenizeGo fuel (skipWhitespace buffer)
      else if next = '"' then
        match processString buffer with
        | .ok (location, text, buffer1) =>
          match tokenizeGo fuel buffer1 with
          | .ok toks => .ok (Token.string location text :: toks)
          | other => other
        | .err e => .err e
        | .panic => .panic
      else
        let r := processUntilWhitespace buffer
        match tokenizeGo fuel r.2.2 with
        | .ok toks => .ok (atomToken r.1 r.2.1 :: toks)
        | other => other

/-- Function `tokenize_from_source`: scan a `(path, text)` source into its
token list. -/
def tokenize_from_source (path source : String) : ScanOut (List Token) :=
  tokenizeGo (source.toList.length + 1) ⟨source.toList, ⟨path, 1, 1⟩⟩

/-! ## Deep clone and the reference graph (`DeepClone` impls in
`value.rs`, `value_vec.rs`, `value_hash.rs`, `data_object.rs`,
`byte_buffer.rs`)

`deep_clone` recurses through the referenced cells (children first, then
the fresh allocation, matching the Rust construction order).  It takes
fuel because a cyclic reference graph makes the Rust recursion diverge.
The reference graph itself is captured by `Reach`. -/

/-- Append a fresh vector cell. -/
def Heap.pushVec (H : Heap) (cell : List HValue) : Heap :=
  { H with vecs := H.vecs ++ [cell] }

/-- Append a fresh hash cell. -/
def Heap.pushHash (H : Heap) (cell : List (HValue × HValue)) : Heap :=
  { H with hashes := H.hashes ++ [cell] }

/-- Append a fresh data object cell. -/
def Heap.pushObj (H : Heap) (cell : DataObject) : Heap :=
  { H with objs := H.objs ++ [cell] }

/-- Append a fresh byte buffer cell. -/
def Heap.pushBuf (H : Heap) (cell : ByteBuffer) : Heap :=
  { H with bufs := H.bufs ++ [cell] }

/-- Clone the values of a list left to right, threading the heap (the
`iter().map(|v| v.deep_clone()).collect()` loops). -/
def cloneListWith (f : Heap → HValue → Option (HValue × Heap)) :
    Heap → List HValue → Option (List HValue × Heap)
  | H, [] => some ([], H)
  | H, x :: xs =>
    match f H x with
    | some (y, H1) =>
      match cloneListWith f H1 xs with
      | some (ys, H2) => some (y :: ys, H2)
      | Option.none => Option.none
    | Option.none => Option.none

/-- Clone the entries of a hash cell, key then value per entry (the entry
loop of `ValueHash::deep_clone`). -/
def clonePairsWith (f : Heap → HValue → Option (HValue × Heap)) :
    Heap → List (HValue × HValue) → Option (List (HValue × HValue) × Heap)
  | H, [] => some ([], H)
  | H, (k, v) :: rest =>
    match f H k with
    | some (k1, H1) =>
      match f H1 v with
      | some (v1, H2) =>
        match clonePairsWith f H2 rest with
        | some (rest1, H3) => some ((k1, v1) :: rest1, H3)
        | Option.none => Option.none
      | Option.none => Option.none
    | Option.none => Option.none

/-- The `DeepClone` implementations: scalars and tokens copy themselves;
`Vec`, `HashMap` and `DataObject` clone their contents into a fresh cell
(the `DataObject` keeps its `definition_ptr` shared); `ByteBuffer` copies
bytes and cursor into a fresh cell; `Code` clones the instruction list
shallowly (`value.clone()`), sharing every reference inside it.
`Option.none` models fuel exhaustion (the Rust recursion diverging on a
cyclic graph) or a dangling address. -/
def deepClone : Nat → Heap → HValue → Option (HValue × Heap)
  | 0, _, _ => Option.none
  | fuel + 1, H, v =>
    match v with
    | .none => some (.none, H)
    | .int i => some (.int i, H)
    | .float f => some (.float f, H)
    | .bool b => some (.bool b, H)
    | .str s => some (.str s, H)
    | .vec a =>
      match H.vecs[a]? with
      | some xs =>
        match cloneListWith (fun h x => deepClone fuel h x) H xs with
        | some (ys, H1) => some (.vec H1.vecs.length, H1.pushVec ys)
        | Option.none => Option.none
      | Option.none => Option.none
    | .hashMap a =>
      match H.hashes[a]? with
      | some kvs =>
        match clonePairsWith (fun h x => deepClone fuel h x) H kvs with
        | some (kvs1, H1) => some (.hashMap H1.hashes.length, H1.pushHash kvs1)
        | Option.none => Option.none
      | Option.none => Option.none
    | .dataObject a =>
      match H.objs[a]? with
      | some o =>
        match cloneListWith (fun h x => deepClone fuel h x) H o.fields with
        | some (fs, H1) => some (.dataObject H1.objs.length,
            H1.pushObj ⟨o.definitionPtr, fs⟩)
        | Option.none => Option.none
      | Option.none => Option.none
    | .byteBuffer a =>
      match H.bufs[a]? with
      | some b => some (.byteBuffer H.bufs.length, H.pushBuf ⟨b.buffer, b.currentPosition⟩)
      | Option.none => Option.none
    | .token t => some (.token t, H)
    | .code c => some (.code c, H)

/-- The arena a heap address lives in. -/
inductive Arena where
  | vecs
  | hashes
  | objs
  | bufs
  | defs
deriving DecidableEq

/-- A heap address: arena plus index, standing in for one
`Rc<RefCell<...>>` pointer target. -/
abbrev Addr := Arena × Nat

mutual

/-- The addresses a value references directly: its own cell for the
reference variants, and — for a `Code` block — the addresses referenced
by the values embedded in its instructions. -/
def HValue.rootAddrs : HValue → List Addr
  | .vec a => [(.vecs, a)]
  | .hashMap a => [(.hashes, a)]
  | .dataObject a => [(.objs, a)]
  | .byteBuffer a => [(.bufs, a)]
  | .code c => instrListRootAddrs c
  | _ => []

/-- The addresses referenced by the operand values of an instruction
list. -/
def instrListRootAddrs : List Instr → List Addr
  | [] => []
  | (_, .defVariable v) :: rest => v.rootAddrs ++ instrListRootAddrs rest
  | (_, .defConstant v) :: rest => v.rootAddrs ++ instrListRootAddrs rest
  | (_, .execute v) :: rest => v.rootAddrs ++ instrListRootAddrs rest
  | (_, .pushConstantValue v) :: rest => v.rootAddrs ++ instrListRootAddrs rest
  | (_, .markLoopExit v) :: rest => v.rootAddrs ++ instrListRootAddrs rest
  | (_, .markCatch v) :: rest => v.rootAddrs ++ instrListRootAddrs rest
  | (_, .jump v) :: rest => v.rootAddrs ++ instrListRootAddrs rest
  | (_, .jumpIfZero v) :: rest => v.rootAddrs ++ instrListRootAddrs rest
  | (_, .jumpIfNotZero v) :: rest => v.rootAddrs ++ instrListRootAddrs rest
  | (_, .jumpTarget v) :: rest => v.rootAddrs ++ instrListRootAddrs rest
  | (_, _) :: rest => instrListRootAddrs rest

end

/-- The values stored in the cell at an address (empty for byte buffers,
which hold no values, and for dangling addresses); a definition cell
holds its default values. -/
def Heap.cellValues (H : Heap) : Addr → List HValue
  | (.vecs, i) => (H.vecs[i]?).getD []
  | (.hashes, i) => ((H.hashes[i]?).getD []).flatMap (fun kv => [kv.1, kv.2])
  | (.objs, i) =>
    match H.objs[i]? with
    | some o => o.fields
    | Option.none => []
  | (.bufs, _) => []
  | (.defs, i) =>
    match H.defs[i]? with
    | some d => d.defaults
    | Option.none => []

/-- The addresses referenced from the cell at an address: those of its
stored values, plus — for a data object — its definition pointer. -/
def Heap.cellAddrs (H : Heap) (a : Addr) : List Addr :=
  (H.cellValues a).flatMap HValue.rootAddrs ++
    (match a with
     | (.objs, i) =>
       match H.objs[i]? with
       | some o => [(.defs, o.definitionPtr)]
       | Option.none => []
     | _ => [])

/-- Reachability of a heap address from a value: the transitive reference
graph of the value. -/
inductive Reach (H : Heap) (v : HValue) : Addr → Prop where
  | root {a : Addr} : a ∈ v.rootAddrs → Reach H v a
  | step {a b : Addr} : Reach H v a → b ∈ H.cellAddrs a → Reach H v b

/-- The number of cells in one arena. -/
def Heap.sizeAt (H : Heap) : Arena → Nat
  | .vecs => H.vecs.length
  | .hashes => H.hashes.length
  | .objs => H.objs.length
  | .bufs => H.bufs.length
  | .defs => H.defs.length

/-- Heap extension: the second heap appends cells to the first and leaves
the definitions untouched (all `deep_clone` allocation has this shape). -/
def Heap.Extends (H2 H : Heap) : Prop :=
  (∃ t, H2.vecs = H.vecs ++ t) ∧ (∃ t, H2.hashes = H.hashes ++ t) ∧
  (∃ t, H2.objs = H.objs ++ t) ∧ (∃ t, H2.bufs = H.bufs ++ t) ∧
  H2.defs = H.defs

/-- Well-formed heap: every address referenced from any cell is in
range. -/
def Heap.WF (H : Heap) : Prop :=
  ∀ a : Addr, ∀ b ∈ H.cellAddrs a, b.2 < H.sizeAt b.1

/-- Values with no heap references, cloned to themselves by
`deep_clone`. -/
def HValue.isScalar : HValue → Bool
  | .none | .int _ | .float _ | .bool _ | .str _ | .token _ => true
  | _ => false

/-- Shallow check that the coercing equality affirms `v == v` for a value
with no heap references: rules out a NaN float (`NaN != NaN`) and a number
token (two number tokens fall through every numeric coercion, the token
arm being unreachable for them, and compare `false`). -/
def HValue.reflEqOk : HValue → Bool
  | .float .nan => false
  | .token (.number _ _) => false
  | _ => true

/-- Shallow check that a value is not a `Code` block or `DataObject`
(the two variants `deep_clone` copies only shallowly, sharing embedded
references or the definition pointer). -/
def HValue.cloneSafeShallow : HValue → Bool
  | .code _ => false
  | .dataObject _ => false
  | _ => true

/-- A hash cell whose keys are scalar, NaN-free, and pairwise unequal in
both directions — the well-formed image of a Rust `HashMap`, whose key
lookup the equality-based model `hashGetWith` matches. -/
def pairwiseKeysOk : List (HValue × HValue) → Prop
  | [] => True
  | (k, _) :: rest =>
    (k.isScalar = true ∧ valueEq 1 Heap.empty k k = some true ∧
      ∀ kv ∈ rest, valueEq 1 Heap.empty k kv.1 ≠ some true ∧
        valueEq 1 Heap.empty kv.1 k ≠ some true) ∧
    pairwiseKeysOk rest

/-- A value whose whole reachable graph is clone-faithful: no `Code` or
`DataObject` parts, no NaN floats, and every reachable hash cell has
well-formed keys. -/
def CloneSafe (H : Heap) (v : HValue) : Prop :=
  (v.cloneSafeShallow = true ∧ v.reflEqOk = true) ∧
  (∀ a, Reach H v a → ∀ x ∈ H.cellValues a,
    x.cloneSafeShallow = true ∧ x.reflEqOk = true) ∧
  (∀ i, Reach H v (Arena.hashes, i) → ∀ cell, H.hashes[i]? = some cell →
    pairwiseKeysOk cell)

/-- Closure of the fresh region: every cell the second heap added on top
of the first references only cells likewise added, and in range.  The
region a `deep_clone` allocates has this shape, which is what isolates
the clone from the original. -/
def FreshClosed (H H1 : Heap) : Prop :=
  ∀ a : Addr, H.sizeAt a.1 ≤ a.2 → a.2 < H1.sizeAt a.1 →
    ∀ b ∈ H1.cellAddrs a, H.sizeAt b.1 ≤ b.2 ∧ b.2 < H1.sizeAt b.1

/-- One mutation of a heap cell (writing through a `RefCell`). -/
inductive CellUpdate where
  | vec (i : Nat) (cell : List HValue)
  | hash (i : Nat) (cell : List (HValue × HValue))
  | obj (i : Nat) (cell : DataObject)
  | buf (i : Nat) (cell : ByteBuffer)

/-- The address a cell update writes to. -/
def CellUpdate.addr : CellUpdate → Addr
  | .vec i _ => (.vecs, i)
  | .hash i _ => (.hashes, i)
  | .obj i _ => (.objs, i)
  | .buf i _ => (.bufs, i)

/-- Apply a cell update to the heap. -/
def Heap.applyUpdate (H : Heap) : CellUpdate → Heap
  | .vec i cell => { H with vecs := H.vecs.set i cell }
  | .hash i cell => { H with hashes := H.hashes.set i cell }
  | .obj i cell => { H with objs := H.objs.set i cell }
  | .buf i cell => { H with bufs := H.bufs.set i cell }


/-- The contract one successful `deep_clone` call satisfies: the result
heap extends the input heap, the cloned value's roots lie in the freshly
allocated region, that region is closed, and the clone compares equal to
the original in both argument orders. -/
def DeepCloneOk (fuel : Nat) (H : Heap) (v v' : HValue) (H' : Heap) : Prop :=
  H'.Extends H ∧
  (∀ b ∈ v'.rootAddrs, H.sizeAt b.1 ≤ b.2 ∧ b.2 < H'.sizeAt b.1) ∧
  FreshClosed H H' ∧
  valueEq fuel H' v' v = some true ∧
  valueEq fuel H' v v' = some true


/-- A one-cell heap used to exercise `deepClone` on a vector value. -/
def cloneWitnessHeap : Heap :=
  { vecs := [[.int 1]], hashes := [], objs := [], bufs := [], defs := [] }

/-- A heap holding one vector cell referenced from inside a `Code`
value. -/
def codeShareHeap : Heap :=
  { vecs := [[.int 7]], hashes := [], objs := [], bufs := [], defs := [] }

/-- A `Code` value whose instruction list embeds a reference to vector
cell 0 (`PushConstantValue(Vec)`). -/
def codeShareVal : HValue :=
  .code [(Option.none, .pushConstantValue (.vec 0))]


/-! ## The execution engine
(`src/runtime/interpreter/sorth_interpreter.rs`,
`src/runtime/data_structures/contextual_list.rs`,
`src/runtime/data_structures/dictionary.rs`)

The engine model carries the interpreter state explicitly.  Two kinds of
unbounded Rust behaviour take fuel: the `while` loop of `execute_code`
(jumps can loop forever) and the `deep_clone` recursion used by
`PushConstantValue` and constant handlers.  Rust panics (contextual-list
underflows, `usize` subtraction overflow in debug builds, internal index
misses) are a distinguished outcome. -/

/-- `Display for Value`, restricted: scalars render as in the source
(`none`, the number, `true`/`false`, the raw string); the reference
variants, whose rendering recurses through their cells, are abbreviated
to shape markers — no verified claim reads an error message embedding a
reference value. -/
def displayValue : HValue → String
  | .none => "none"
  | .int i => toString i
  | .float f => f64Display f
  | .bool b => if b then "true" else "false"
  | .str s => s
  | .vec _ => "<vec>"
  | .hashMap _ => "<hash-map>"
  | .dataObject _ => "<data-object>"
  | .byteBuffer _ => "<byte-buffer>"
  | .token _ => "<token>"
  | .code _ => "<code>"

/-- One sub-context of a `ContextualList` (struct `SubList`): its items
plus the global index its slots start at. -/
structure CtxSub (α : Type) where
  items : List α
  startIndex : Nat

/-- A `ContextualList`: a stack of sub-contexts, newest last. -/
structure CtxList (α : Type) where
  listStack : List (CtxSub α)

/-- Method `ContextualList::len`: the global slot count. -/
def CtxList.len {α : Type} (l : CtxList α) : Nat :=
  match l.listStack.getLast? with
  | some top => top.startIndex + top.items.length
  | Option.none => 0

/-- Method `ContextualList::mark_context`: push an empty sub-context
starting after the current slots. -/
def CtxList.markContext {α : Type} (l : CtxList α) : CtxList α :=
  ⟨l.listStack ++ [⟨[], l.len⟩]⟩

/-- Method `ContextualList::release_context`: pop the newest sub-context;
panics (`Option.none`) when the stack is empty or holds only the root
context. -/
def CtxList.releaseContext {α : Type} (l : CtxList α) : Option (CtxList α) :=
  match l.listStack with
  | [] => Option.none
  | [_] => Option.none
  | _ => some ⟨l.listStack.dropLast⟩

/-- The frame walk of `Index for ContextualList`: newest frame first,
take the first frame whose start index covers the slot. -/
def ctxFindRev {α : Type} : List (CtxSub α) → Nat → Option α
  | [], _ => Option.none
  | sub :: rest, i =>
    if sub.startIndex ≤ i then sub.items[i - sub.startIndex]?
    else ctxFindRev rest i

/-- `Index for ContextualList`: panic (`Option.none`) when the slot is
out of bounds of the whole list or missed by every frame. -/
def CtxList.get? {α : Type} (l : CtxList α) (i : Nat) : Option α :=
  if l.len ≤ i then Option.none
  else ctxFindRev l.listStack.reverse i

/-- The frame walk of `IndexMut for ContextualList`. -/
def ctxSetRev {α : Type} : List (CtxSub α) → Nat → α → Option (List (CtxSub α))
  | [], _, _ => Option.none
  | sub :: rest, i, x =>
    if sub.startIndex ≤ i then
      if i - sub.startIndex < sub.items.length then
        some (⟨sub.items.set (i - sub.startIndex) x, sub.startIndex⟩ :: rest)
      else Option.none
    else
      match ctxSetRev rest i x with
      | some rest2 => some (sub :: rest2)
      | Option.none => Option.none

/-- `IndexMut for ContextualList` as a functional update. -/
def CtxList.set? {α : Type} (l : CtxList α) (i : Nat) (x : α) : Option (CtxList α) :=
  if l.len ≤ i then Option.none
  else
    match ctxSetRev l.listStack.reverse i x with
    | some revd => some ⟨revd.reverse⟩
    | Option.none => Option.none

/-- Method `ContextualList::insert`: push onto the newest sub-context and
return the new global index (`self.len() - 1`); panics (`Option.none`)
when no context exists (`top_mut`). -/
def CtxList.insert {α : Type} (l : CtxList α) (x : α) : Option (CtxList α × Nat) :=
  match l.listStack.getLast? with
  | Option.none => Option.none
  | some top =>
    let l2 : CtxList α := ⟨l.listStack.dropLast ++ [⟨top.items ++ [x], top.startIndex⟩]⟩
    some (l2, l2.len - 1)

/-- The dictionary metadata of one word (struct `WordInfo`); the
description, signature, and registration-location fields are omitted: no
modelled behaviour reads them. -/
structure WordInfo where
  name : String
  runtime : WordRuntime
  visibility : WordVisibility
  wordType : WordType
  handlerIndex : Nat

/-- Replacement insert into one dictionary frame (`HashMap::insert`). -/
def assocSet : List (String × WordInfo) → String → WordInfo → List (String × WordInfo)
  | [], n, w => [(n, w)]
  | (k, v) :: rest, n, w =>
    if k = n then (n, w) :: rest else (k, v) :: assocSet rest n w

/-- Name lookup in one dictionary frame (`HashMap::get`). -/
def assocGet : List (String × WordInfo) → String → Option WordInfo
  | [], _ => Option.none
  | (k, v) :: rest, n => if k = n then some v else assocGet rest n

/-- Struct `Dictionary`: a stack of name-to-word frames, newest last. -/
structure Dictionary where
  stack : List (List (String × WordInfo))

/-- `Dictionary::mark_context`. -/
def Dictionary.markContext (d : Dictionary) : Dictionary :=
  ⟨d.stack ++ [[]]⟩

/-- `Dictionary::release_context`: panics (`Option.none`) when the stack
is empty or holds only the root frame. -/
def Dictionary.releaseContext (d : Dictionary) : Option Dictionary :=
  match d.stack with
  | [] => Option.none
  | [_] => Option.none
  | _ => some ⟨d.stack.dropLast⟩

/-- `Dictionary::insert`: replacement insert into the newest frame;
panics (`Option.none`) on an empty stack (`top_mut`). -/
def Dictionary.insert (d : Dictionary) (n : String) (w : WordInfo) : Option Dictionary :=
  match d.stack.getLast? with
  | Option.none => Option.none
  | some top => some ⟨d.stack.dropLast ++ [assocSet top n w]⟩

/-- The frame walk of `Dictionary::try_get`, newest frame first. -/
def dictFindRev : List (List (String × WordInfo)) → String → Option WordInfo
  | [], _ => Option.none
  | f :: rest, n =>
    match assocGet f n with
    | some w => some w
    | Option.none => dictFindRev rest n

/-- `Dictionary::try_get`: newest binding of the name, if any. -/
def Dictionary.tryGet (d : Dictionary) (n : String) : Option WordInfo :=
  dictFindRev d.stack.reverse n

/-- The closures `execute_code`'s own definition instructions register:
the variable handler pushes the captured slot index, the constant handler
pushes a deep clone of the captured value. -/
inductive NativeHandler where
  | pushIndex (i : Nat)
  | pushConstant (v : HValue)

/-- Struct `WordHandlerInfo`: name, registration location, handler. -/
structure WordHandlerInfo where
  name : String
  location : SourceLocation
  handler : NativeHandler

/-- The interpreter state execute_code reads and writes: the data stack
(head is the top), the arena heap backing reference values, the maximum
stack depth tracker, the four contextual containers (`variableList`
models the source's `variables` field, whose name Lean reserves), the
call stack (head is the newest frame), and the current source
location. -/
structure ExecState where
  stack : List HValue
  heap : Heap
  maxDepth : Nat
  dictionary : Dictionary
  wordHandlers : CtxList WordHandlerInfo
  dataDefs : CtxList DataObjectDefinition
  variableList : CtxList HValue
  callStack : List CallItem
  currentLocation : Option SourceLocation

/-- `InterpreterStack::push` with the max-depth update. -/
def ExecState.push (s : ExecState) (v : HValue) : ExecState :=
  let st := v :: s.stack
  { s with stack := st, maxDepth := max s.maxDepth st.length }

/-- Build a script error from the current location and call stack
(`script_error` / `script_error_str`). -/
def ExecState.mkError (s : ExecState) (msg : String) : ScriptError :=
  scriptError s.currentLocation s.callStack msg

/-- Result of one state-threading interpreter helper: success, a script
error (with the state as mutated before the error), a Rust panic, or
divergence of an unbounded recursion. -/
inductive HRes where
  | ok (s : ExecState)
  | fail (e : ScriptError) (s : ExecState)
  | panic
  | diverge

/-- Value-returning variant of `HRes` for the pop helpers. -/
inductive VRes (α : Type) where
  | ok (a : α) (s : ExecState)
  | fail (e : ScriptError) (s : ExecState)

/-- `InterpreterStack::pop`: underflow is a script error with the stack
untouched. -/
def ExecState.popV (s : ExecState) : VRes HValue :=
  match s.stack with
  | [] => .fail (s.mkError "Stack underflow.") s
  | v :: rest => .ok v { s with stack := rest }

/-- `InterpreterStack::pop_as_int`. -/
def ExecState.popAsInt (s : ExecState) : VRes Int :=
  match s.popV with
  | .fail e s2 => .fail e s2
  | .ok v s2 =>
    if v.isNumeric then
      match v.getIntVal? with
      | some i => .ok i s2
      | Option.none => .fail (s2.mkError "Expected numeric value.") s2
    else .fail (s2.mkError "Expected numeric value.") s2

/-- `InterpreterStack::pop_as_bool`. -/
def ExecState.popAsBool (s : ExecState) : VRes Bool :=
  match s.popV with
  | .fail e s2 => .fail e s2
  | .ok v s2 =>
    if v.isNumeric then .ok v.getBoolVal s2
    else .fail (s2.mkError "Expected boolean value.") s2

/-- `ContextualData::mark_context` for the interpreter: mark all four
containers. -/
def markAllCtx (s : ExecState) : ExecState :=
  { s with dictionary := s.dictionary.markContext,
           wordHandlers := s.wordHandlers.markContext,
           dataDefs := s.dataDefs.markContext,
           variableList := s.variableList.markContext }

/-- `ContextualData::release_context` for the interpreter: release all
four containers, in the source's order; any underflow panics. -/
def releaseAllCtx (s : ExecState) : Option ExecState :=
  match s.dictionary.releaseContext with
  | Option.none => Option.none
  | some d =>
    match s.wordHandlers.releaseContext with
    | Option.none => Option.none
    | some wh =>
      match s.dataDefs.releaseContext with
      | Option.none => Option.none
      | some dd =>
        match s.variableList.releaseContext with
        | Option.none => Option.none
        | some vs =>
          some { s with dictionary := d, wordHandlers := wh,
                        dataDefs := dd, variableList := vs }

/-- The release loop of `cleanup_contexts`. -/
def releaseN : Nat → ExecState → Option ExecState
  | 0, s => some s
  | n + 1, s =>
    match releaseAllCtx s with
    | some s2 => releaseN n s2
    | Option.none => Option.none

/-- Method `absolute_index`: `(pc as i64 + relative.get_int_val()) as
usize`, the cast wrapping modulo `2^64`; a non-numeric operand is a
script error. -/
def absoluteIndex (s : ExecState) (pc : Nat) (rel : HValue) : Except ScriptError Nat :=
  if rel.isNumeric then
    Except.ok (Int.toNat (((pc : Int) + (rel.getIntVal?).getD 0) % (2 : Int) ^ 64))
  else
    Except.error (s.mkError ("Invalid loop exit index " ++ displayValue rel ++ "."))

/-- Method `execute_word_handler`: record location, push a call frame,
run the handler, pop the call frame (ignoring underflow), and return the
handler's result. -/
def runWordHandler (dcFuel : Nat) (loc : SourceLocation) (info : WordHandlerInfo)
    (s : ExecState) : HRes :=
  let s1 := { s with currentLocation := some loc,
                     callStack := ⟨info.name, loc⟩ :: s.callStack }
  match info.handler with
  | .pushIndex i =>
    let s2 := s1.push (.int i)
    .ok { s2 with callStack := s2.callStack.tail }
  | .pushConstant v =>
    match deepClone dcFuel s1.heap v with
    | some (v2, H2) =>
      let s2 := ExecState.push { s1 with heap := H2 } v2
      .ok { s2 with callStack := s2.callStack.tail }
    | Option.none => .diverge

/-- Method `execute_word_index`. -/
def executeWordIndexM (dcFuel : Nat) (loc : SourceLocation) (idx : Nat)
    (s : ExecState) : HRes :=
  if s.wordHandlers.len ≤ idx then
    .fail (s.mkError ("Word handler index " ++ toString idx ++ " not found.")) s
  else
    match s.wordHandlers.get? idx with
    | some info => runWordHandler dcFuel loc info s
    | Option.none => .panic

/-- Methods `execute_word_named` and `execute_word`. -/
def executeWordNamedM (dcFuel : Nat) (loc : SourceLocation) (w : String)
    (s : ExecState) : HRes :=
  match s.dictionary.tryGet w with
  | some info =>
    if s.wordHandlers.len ≤ info.handlerIndex then
      .fail (s.mkError ("Handler for word " ++ info.name ++ ", ("
        ++ toString info.handlerIndex ++ ") not found.")) s
    else
      match s.wordHandlers.get? info.handlerIndex with
      | some hinfo => runWordHandler dcFuel loc hinfo s
      | Option.none => .panic
  | Option.none => .fail (s.mkError ("Word " ++ w ++ " not found.")) s

/-- Method `execute_value`; the `location_here!()` fallback of the Rust
source is a fixed marker location. -/
def executeValueM (dcFuel : Nat) (v : HValue) (s : ExecState) : HRes :=
  let loc := match s.currentLocation with
    | some l => l
    | Option.none => ⟨"sorth_interpreter.rs", 0, 0⟩
  match v with
  | .str name => executeWordNamedM dcFuel loc name s
  | .token (.word tloc name) => executeWordNamedM dcFuel tloc name s
  | .token t =>
    .fail (s.mkError ("Token " ++ displayValue (.token t) ++ " is not executable.")) s
  | .int i => executeWordIndexM dcFuel loc (Int.toNat (i % (2 : Int) ^ 64)) s
  | other => .fail (s.mkError ("Value " ++ displayValue other ++ " is not executable.")) s

/-- Method `define_variable`: allocate a default-valued slot, register a
native handler pushing its index, and bind the name in the newest
dictionary frame (`add_native_word`, whose registration location is a
fixed marker). -/
def defineVariableM (v : HValue) (s : ExecState) : HRes :=
  if v.isStringable then
    match v.getStringVal? with
    | Option.none => .panic
    | some name =>
      match s.variableList.insert .none with
      | Option.none => .panic
      | some (vars2, index) =>
        match s.wordHandlers.insert
            ⟨name, ⟨"sorth_interpreter.rs", 0, 0⟩, .pushIndex index⟩ with
        | Option.none => .panic
        | some (handlers2, hidx) =>
          match s.dictionary.insert name
              ⟨name, .normal, .visible, .native, hidx⟩ with
          | Option.none => .panic
          | some dict2 =>
            .ok { s with variableList := vars2, wordHandlers := handlers2,
                         dictionary := dict2 }
  else
    .fail (s.mkError ("Invalid variable name " ++ displayValue v ++ ".")) s

/-- Method `define_constant`: pop the value, register a native handler
pushing its deep clone, and bind the name. -/
def defineConstantM (v : HValue) (s : ExecState) : HRes :=
  if v.isStringable then
    match v.getStringVal? with
    | Option.none => .panic
    | some name =>
      match s.popV with
      | .fail e s2 => .fail e s2
      | .ok c s2 =>
        match s2.wordHandlers.insert
            ⟨name, ⟨"sorth_interpreter.rs", 0, 0⟩, .pushConstant c⟩ with
        | Option.none => .panic
        | some (handlers2, hidx) =>
          match s2.dictionary.insert name
              ⟨name, .normal, .visible, .native, hidx⟩ with
          | Option.none => .panic
          | some dict2 =>
            .ok { s2 with wordHandlers := handlers2, dictionary := dict2 }
  else
    .fail (s.mkError ("Invalid constant name " ++ displayValue v ++ ".")) s

/-- Method `read_variable`: pop the slot index (wrapping `as usize`),
bounds-check against the whole variable list, push the slot's value. -/
def readVariableM (s : ExecState) : HRes :=
  match s.popAsInt with
  | .fail e s2 => .fail e s2
  | .ok index s2 =>
    let idx := Int.toNat (index % (2 : Int) ^ 64)
    if s2.variableList.len ≤ idx then
      .fail (s2.mkError ("Read index " ++ toString index
        ++ " out of range of variable set.")) s2
    else
      match s2.variableList.get? idx with
      | some value => .ok (s2.push value)
      | Option.none => .panic

/-- Method `write_variable`: pop the slot index then the value,
bounds-check, and write the slot. -/
def writeVariableM (s : ExecState) : HRes :=
  match s.popAsInt with
  | .fail e s2 => .fail e s2
  | .ok index s2 =>
    match s2.popV with
    | .fail e s3 => .fail e s3
    | .ok value s3 =>
      let idx := Int.toNat (index % (2 : Int) ^ 64)
      if s3.variableList.len ≤ idx then
        .fail (s3.mkError ("Write index " ++ toString index
          ++ " out of range of variable set.")) s3
      else
        match s3.variableList.set? idx value with
        | some vars2 => .ok { s3 with variableList := vars2 }
        | Option.none => .panic

/-- Result of one instruction dispatch: the next loop state (program
counter before the unconditional increment, open-context counter, loop
and catch stacks, interpreter state), a script error, a panic, or
divergence. -/
inductive InstrOut where
  | next (pc2 contexts2 : Nat) (loops : List (Nat × Nat)) (catches : List Nat)
      (s : ExecState)
  | fail (e : ScriptError) (s : ExecState)
  | panic
  | diverge

/-- Lift a helper result into an instruction result that leaves the loop
bookkeeping unchanged. -/
def liftHRes (pc contexts : Nat) (loops : List (Nat × Nat)) (catches : List Nat) :
    HRes → InstrOut
  | .ok s => .next pc contexts loops catches s
  | .fail e s => .fail e s
  | .panic => .panic
  | .diverge => .diverge

/-- Method `jump_if_match`: pop the test value first (so the stack stays
balanced on error), compute the absolute target, and jump on a match
(`absolute - 1`, a debug-build panic when the target is 0). -/
def jumpIfMatchM (pc : Nat) (rel : HValue) (expected : Bool) (contexts : Nat)
    (loops : List (Nat × Nat)) (catches : List Nat) (s : ExecState) : InstrOut :=
  match s.popAsBool with
  | .fail e s2 => .fail e s2
  | .ok found s2 =>
    match absoluteIndex s2 pc rel with
    | .error e => .fail e s2
    | .ok abs =>
      if found == expected then
        if abs = 0 then .panic else .next (abs - 1) contexts loops catches s2
      else .next pc contexts loops catches s2

/-- The instruction dispatch of `execute_code`'s loop body, one arm per
`Op` variant, in the source's order. -/
def execInstr (dcFuel : Nat) (pc : Nat) (op : Op) (contexts : Nat)
    (loops : List (Nat × Nat)) (catches : List Nat) (s : ExecState) : InstrOut :=
  match op with
  | .defVariable v => liftHRes pc contexts loops catches (defineVariableM v s)
  | .defConstant v => liftHRes pc contexts loops catches (defineConstantM v s)
  | .readVariable => liftHRes pc contexts loops catches (readVariableM s)
  | .writeVariable => liftHRes pc contexts loops catches (writeVariableM s)
  | .execute v => liftHRes pc contexts loops catches (executeValueM dcFuel v s)
  | .pushConstantValue v =>
    match deepClone dcFuel s.heap v with
    | some (v2, H2) =>
      .next pc contexts loops catches (ExecState.push { s with heap := H2 } v2)
    | Option.none => .diverge
  | .markLoopExit v =>
    match absoluteIndex s pc v with
    | .ok abs => .next pc contexts ((pc + 1, abs) :: loops) catches s
    | .error e => .fail e s
  | .unmarkLoopExit =>
    match loops with
    | _ :: rest => .next pc contexts rest catches s
    | [] => .fail (s.mkError "Unbalanced loop exit marker.") s
  | .markCatch v =>
    match absoluteIndex s pc v with
    | .ok abs => .next pc contexts loops (abs :: catches) s
    | .error e => .fail e s
  | .unmarkCatch =>
    match catches with
    | _ :: rest => .next pc contexts loops rest s
    | [] => .fail (s.mkError "Unbalanced catch exit marker.") s
  | .markContext => .next pc (contexts + 1) loops catches (markAllCtx s)
  | .releaseContext =>
    if contexts ≠ 0 then .next pc (contexts - 1) loops catches s
    else .fail (s.mkError "Unbalanced context release detected.") s
  | .jump v =>
    match absoluteIndex s pc v with
    | .ok abs => if abs = 0 then .panic else .next (abs - 1) contexts loops catches s
    | .error e => .fail e s
  | .jumpIfZero v => jumpIfMatchM pc v false contexts loops catches s
  | .jumpIfNotZero v => jumpIfMatchM pc v true contexts loops catches s
  | .jumpLoopStart =>
    match loops with
    | (start, _) :: _ =>
      if start = 0 then .panic else .next (start - 1) contexts loops catches s
    | [] => .fail (s.mkError "JumpLoopStart outside of loop.") s
  | .jumpLoopExit =>
    match loops with
    | (_, endIdx) :: _ =>
      if endIdx = 0 then .panic else .next (endIdx - 1) contexts loops catches s
    | [] => .fail (s.mkError "JumpLoopExit outside of loop.") s
  | .jumpTarget _ => .next pc contexts loops catches s

/-- The location bookkeeping at the top of the loop body: an instruction
with a location records it, pushes a call frame named after the running
block, and flags the push; otherwise both are left as they were. -/
def locUpdate (name : String) (oloc : Option SourceLocation) (pushed : Bool)
    (s : ExecState) : ExecState × Bool :=
  match oloc with
  | some loc =>
    ({ s with currentLocation := some loc, callStack := ⟨name, loc⟩ :: s.callStack },
      true)
  | Option.none => (s, pushed)

/-- Result of a whole `execute_code` call. -/
inductive ExecOutcome where
  | ok (s : ExecState)
  | err (e : ScriptError) (s : ExecState)
  | panic
  | diverge

/-- The `while pc < code.len()` loop of `execute_code`, on fuel: fetch
the instruction, track its location, dispatch it; on a script error pop a
catch index if one exists (resuming there with the error's string pushed)
and otherwise pop the pushed call frame, release the remaining contexts
without reporting, and return the error; on success pop the pushed call
frame and continue at `pc + 1`.  On loop exit the remaining contexts are
released, erroring when any were left open. -/
def execCodeLoop (dcFuel : Nat) (name : String) (code : ByteCode) :
    Nat → Nat → Nat → Bool → List (Nat × Nat) → List Nat → ExecState → ExecOutcome
  | 0, _, _, _, _, _, _ => .diverge
  | fuel + 1, pc, contexts, pushed, loops, catches, s =>
    match code[pc]? with
    | Option.none =>
      match releaseN contexts s with
      | Option.none => .panic
      | some s2 =>
        if contexts ≠ 0 then .err (s2.mkError "Unbalanced context handling detected.") s2
        else .ok s2
    | some instr =>
      let u := locUpdate name instr.1 pushed s
      match execInstr dcFuel pc instr.2 contexts loops catches u.1 with
      | .panic => .panic
      | .diverge => .diverge
      | .fail e s2 =>
        match catches with
        | c :: cs =>
          if c = 0 then .panic
          else
            execCodeLoop dcFuel name code fuel ((c - 1) + 1) contexts u.2 loops cs
              (s2.push (.str e.toDisplayString))
        | [] =>
          if u.2 then
            match s2.callStack with
            | [] => .err (s2.mkError "Call stack underflow.") s2
            | _ :: rest =>
              match releaseN contexts { s2 with callStack := rest } with
              | Option.none => .panic
              | some s4 => .err e s4
          else
            match releaseN contexts s2 with
            | Option.none => .panic
            | some s4 => .err e s4
      | .next pc2 contexts2 loops2 catches2 s2 =>
        if u.2 then
          match s2.callStack with
          | [] => .err (s2.mkError "Call stack underflow.") s2
          | _ :: rest =>
            execCodeLoop dcFuel name code fuel (pc2 + 1) contexts2 false loops2 catches2
              { s2 with callStack := rest }
        else
          execCodeLoop dcFuel name code fuel (pc2 + 1) contexts2 u.2 loops2 catches2 s2

/-- Method `execute_code`: run the block from the start with no open
contexts, no pushed call frame, and empty loop and catch stacks. -/
def execute_code (dcFuel execFuel : Nat) (name : String) (code : ByteCode)
    (s : ExecState) : ExecOutcome :=
  execCodeLoop dcFuel name code execFuel 0 0 false [] [] s

/-- The interpreter state the engine claims are checked from: everything
empty, each contextual container holding its root context (their `new`
marks one). -/
def initialExecState : ExecState :=
  { stack := [], heap := Heap.empty, maxDepth := 0,
    dictionary := ⟨[[]]⟩,
    wordHandlers := ⟨[⟨[], 0⟩]⟩,
    dataDefs := ⟨[⟨[], 0⟩]⟩,
    variableList := ⟨[⟨[], 0⟩]⟩,
    callStack := [], currentLocation := Option.none }

/-- The balanced mark/define/release block exercising context release:
`MarkContext; DefVariable "x"; ReleaseContext`. -/
def c1Code : ByteCode :=
  [(Option.none, .markContext),
   (Option.none, .defVariable (.str "x")),
   (Option.none, .releaseContext)]

/-! # Theorems -/


/-- Unfolding characterisation of `hashSubsetEqWith`: the comparison
succeeds with `true` exactly when every entry of the left table is found
by key lookup in the right table bound to an equal value. -/
theorem hashSubsetEqWith_eq_true_iff (eqv : HValue → HValue → Option Bool)
    (xs ys : List (HValue × HValue)) :
    hashSubsetEqWith eqv xs ys = some true ↔
      ∀ kv ∈ xs, ∃ w, hashGetWith eqv ys kv.1 = some (some w) ∧ eqv w kv.2 = some true := by
  induction xs with
  | nil => simp [hashSubsetEqWith]
  | cons kv rest ih =>
    obtain ⟨k, v⟩ := kv
    simp only [hashSubsetEqWith]
    cases hget : hashGetWith eqv ys k with
    | none =>
      constructor
      · intro h; simp at h
      · intro h
        obtain ⟨w, hw, _⟩ := h (k, v) (by simp)
        simp [hget] at hw
    | some found =>
      cases found with
      | none =>
        constructor
        · intro h; simp at h
        · intro h
          obtain ⟨w, hw, _⟩ := h (k, v) (by simp)
          simp [hget] at hw
      | some w =>
        change (match eqv w v with
                | Option.none => (Option.none : Option Bool)
                | some r => if r then hashSubsetEqWith eqv rest ys else some false) =
            some true ↔ _
        cases heq : eqv w v with
        | none =>
          constructor
          · intro h; simp at h
          · intro h
            obtain ⟨w', hw', heq'⟩ := h (k, v) (by simp)
            simp only [hget, Option.some.injEq] at hw'
            obtain rfl := hw'
            simp [heq] at heq'
        | some r =>
          change (if r = true then hashSubsetEqWith eqv rest ys else some false) =
              some true ↔ _
          cases r with
          | false =>
            constructor
            · intro h; simp at h
            · intro h
              obtain ⟨w', hw', hsq⟩ := h (k, v) (by simp)
              simp only [hget, Option.some.injEq] at hw'
              obtain rfl := hw'
              simp [heq] at hsq
          | true =>
            rw [if_pos rfl, ih]
            constructor
            · intro h kv hkv
              rcases List.mem_cons.mp hkv with h1 | h2
              · subst h1; exact ⟨w, hget, heq⟩
              · exact h kv h2
            · intro h kv hkv
              exact h kv (List.mem_cons_of_mem _ hkv)

/-- C9: value equality treats `None` as a numeric and stringable zero:
`None` compares equal to `Int(0)`, `Float(0.0)`, `Bool(false)` and
`String("")` under the interpreter's coercing equality, in any heap and
at any positive comparison fuel. -/
theorem none_equals_numeric_and_string_zeros (H : Heap) (fuel : Nat) :
    valueEq (fuel + 1) H .none (.int 0) = some true ∧
    valueEq (fuel + 1) H .none (.float (.num 0)) = some true ∧
    valueEq (fuel + 1) H .none (.bool false) = some true ∧
    valueEq (fuel + 1) H .none (.str "") = some true := by
  refine ⟨rfl, rfl, rfl, rfl⟩

/-- C5 counterexample: in `hashPairHeap`, the empty hash cell 0 compares
equal to the one-entry hash cell 1, while the converse comparison yields
false — so hash-map equality is not symmetric and two hash maps of
different sizes (here 0 and 1 entries) can compare equal, refuting the
claim as stated. -/
theorem hash_map_equality_not_structural_counterexample :
    valueEq 2 hashPairHeap (.hashMap 0) (.hashMap 1) = some true ∧
    valueEq 2 hashPairHeap (.hashMap 1) (.hashMap 0) = some false ∧
    (hashPairHeap.hashes[0]!).length = 0 ∧
    (hashPairHeap.hashes[1]!).length = 1 := by
  refine ⟨rfl, rfl, rfl, rfl⟩

/-- C5 (amended): equality on two `HashMap` values is a one-sided
containment check — the two compare equal exactly when every key-to-value
entry of the left-hand map is found (by key lookup under the coercing
value equality) in the right-hand map bound to an equal value.  In
particular the check is not symmetric and maps of different sizes can
compare equal. -/
theorem hash_map_equality_is_subset_check (fuel : Nat) (H : Heap) (x y : Nat)
    (hx hy : List (HValue × HValue))
    (hgx : H.hashes[x]? = some hx) (hgy : H.hashes[y]? = some hy) :
    valueEq (fuel + 1) H (.hashMap x) (.hashMap y) = some true ↔
      ∀ kv ∈ hx, ∃ w, hashGetWith (valueEq fuel H) hy kv.1 = some (some w) ∧
        valueEq fuel H w kv.2 = some true := by
  have hunfold : valueEq (fuel + 1) H (.hashMap x) (.hashMap y) =
      hashSubsetEqWith (valueEq fuel H) hx hy := by
    simp [valueEq, HValue.isNone, HValue.isNumeric, HValue.isStringable, hgx, hgy]
  rw [hunfold]
  exact hashSubsetEqWith_eq_true_iff (valueEq fuel H) hx hy

/-- Witness for the amended C5 theorem at a concrete input: applying it to
`hashPairHeap` with the empty cell on the left dischargeable by the
trivial containment. -/
theorem hash_map_equality_is_subset_check_witness :
    valueEq 2 hashPairHeap (.hashMap 0) (.hashMap 1) = some true := by
  have h := hash_map_equality_is_subset_check 1 hashPairHeap 0 1 []
    [(.int 1, .int 2)] rfl rfl
  exact h.mpr (by intro kv hkv; simp at hkv)

/-- Appending zero bytes never extends the nonzero prefix taken by
`read_string`'s first-zero scan. -/
theorem takeWhile_append_replicate_zero (xs : List Nat) (m : Nat) :
    (xs ++ List.replicate m 0).takeWhile (fun b => b != 0) =
      xs.takeWhile (fun b => b != 0) := by
  induction xs with
  | nil =>
    cases m with
    | zero => rfl
    | succ k => simp [List.takeWhile_cons]
  | cons x xs ih =>
    by_cases hx : x = 0
    · subst hx; simp [List.takeWhile_cons]
    · simp only [List.cons_append, List.takeWhile_cons]
      have : (x != 0) = true := by simpa using hx
      rw [this]
      simp [ih]

/-- The `lossyGo` worker does not depend on the fuel once the fuel covers
the byte count. -/
theorem lossyGo_fuel (n : Nat) :
    ∀ (m : Nat) (bs : List Nat), bs.length ≤ n → bs.length ≤ m →
      lossyGo n bs = lossyGo m bs := by
  induction n with
  | zero =>
    intro m bs hn _
    have : bs = [] := List.length_eq_zero.mp (Nat.le_zero.mp hn)
    subst this
    cases m <;> rfl
  | succ k ih =>
    intro m bs hn hm
    cases bs with
    | nil => cases m <;> rfl
    | cons b rest =>
      cases m with
      | zero => simp at hm
      | succ m' =>
        rw [lossyGo, lossyGo]
        have hlen : rest.length ≤ k := by simp at hn; omega
        have hdrop : (rest.drop ((utf8Step b rest).2 - 1)).length ≤ rest.length := by
          simp [List.length_drop]
        have hrec := ih m' (rest.drop ((utf8Step b rest).2 - 1))
          (le_trans hdrop hlen) (by simp at hm; omega)
        rw [hrec]

/-- The `validGo` worker does not depend on the fuel once the fuel covers
the byte count. -/
theorem validGo_fuel (n : Nat) :
    ∀ (m : Nat) (bs : List Nat), bs.length ≤ n → bs.length ≤ m →
      validGo n bs = validGo m bs := by
  induction n with
  | zero =>
    intro m bs hn _
    have : bs = [] := List.length_eq_zero.mp (Nat.le_zero.mp hn)
    subst this
    cases m <;> rfl
  | succ k ih =>
    intro m bs hn hm
    cases bs with
    | nil => cases m <;> rfl
    | cons b rest =>
      cases m with
      | zero => simp at hm
      | succ m' =>
        rw [validGo, validGo]
        have hlen : rest.length ≤ k := by simp at hn; omega
        have hdrop : (rest.drop ((utf8Step b rest).2 - 1)).length ≤ rest.length := by
          simp [List.length_drop]
        have hrec := ih m' (rest.drop ((utf8Step b rest).2 - 1))
          (le_trans hdrop hlen) (by simp at hm; omega)
        rw [hrec]

/-- One-step unfolding of `rustFromUtf8Lossy` on a nonempty byte list. -/
theorem rustFromUtf8Lossy_cons (b : Nat) (rest : List Nat) :
    rustFromUtf8Lossy (b :: rest) =
      (if (utf8Step b rest).1 then
        (b :: rest.take ((utf8Step b rest).2 - 1)) ++
          rustFromUtf8Lossy (rest.drop ((utf8Step b rest).2 - 1))
      else 0xEF :: 0xBF :: 0xBD ::
          rustFromUtf8Lossy (rest.drop ((utf8Step b rest).2 - 1))) := by
  show lossyGo (rest.length + 1) (b :: rest) = _
  rw [lossyGo]
  have h := lossyGo_fuel rest.length (rest.drop ((utf8Step b rest).2 - 1)).length
    (rest.drop ((utf8Step b rest).2 - 1)) (by simp [List.length_drop]) le_rfl
  rw [h]
  rfl

/-- One-step unfolding of `validUtf8` on a nonempty byte list. -/
theorem validUtf8_cons (b : Nat) (rest : List Nat) :
    validUtf8 (b :: rest) =
      ((utf8Step b rest).1 &&
        validUtf8 (rest.drop ((utf8Step b rest).2 - 1))) := by
  show validGo (rest.length + 1) (b :: rest) = _
  rw [validGo]
  have h := validGo_fuel rest.length (rest.drop ((utf8Step b rest).2 - 1)).length
    (rest.drop ((utf8Step b rest).2 - 1)) (by simp [List.length_drop]) le_rfl
  rw [h]
  rfl

/-- On valid UTF-8 input, `from_utf8_lossy` is the identity on bytes. -/
theorem rustFromUtf8Lossy_of_valid (bs : List Nat) (hval : validUtf8 bs = true) :
    rustFromUtf8Lossy bs = bs := by
  suffices h : ∀ (n : Nat) (cs : List Nat), cs.length ≤ n → validUtf8 cs = true →
      rustFromUtf8Lossy cs = cs from h bs.length bs le_rfl hval
  intro n
  induction n with
  | zero =>
    intro cs hlen _
    have : cs = [] := List.length_eq_zero.mp (Nat.le_zero.mp hlen)
    subst this
    rfl
  | succ k ih =>
    intro cs hlen hv
    cases cs with
    | nil => rfl
    | cons b rest =>
      rw [validUtf8_cons, Bool.and_eq_true] at hv
      obtain ⟨h1, h2⟩ := hv
      have hrec := ih (rest.drop ((utf8Step b rest).2 - 1))
        (by simp only [List.length_drop]; simp at hlen; omega) h2
      rw [rustFromUtf8Lossy_cons, if_pos h1, hrec, List.cons_append,
        List.take_append_drop]

/-- C10 (amended): for every in-bounds read, `ByteBuffer::read_int` with
byte size 1 returns the raw unsigned byte (range 0..=255) with the
`is_signed` flag never consulted; for byte sizes 2 and 4 the flag selects
between the sign-extended (two's-complement) and zero-extended (unsigned)
reading of the little-endian bytes; for byte size 8 the flag has no
effect and the result is always the two's-complement reading of the eight
bytes, because the unsigned branch casts the decoded `u64` to `i64`. -/
theorem read_int_signedness (bb : ByteBuffer)
    (hbytes : ∀ b ∈ bb.buffer, b < 256) :
    (bb.currentPosition + 1 ≤ bb.buffer.length →
      ∀ sg : Bool,
        bb.readInt 1 sg =
          some ((leVal ((bb.buffer.drop bb.currentPosition).take 1) : Int),
                { bb with currentPosition := bb.currentPosition + 1 }) ∧
        0 ≤ (leVal ((bb.buffer.drop bb.currentPosition).take 1) : Int) ∧
        (leVal ((bb.buffer.drop bb.currentPosition).take 1) : Int) ≤ 255) ∧
    (bb.currentPosition + 2 ≤ bb.buffer.length →
      bb.readInt 2 true =
        some (toSigned 16 (leVal ((bb.buffer.drop bb.currentPosition).take 2)),
              { bb with currentPosition := bb.currentPosition + 2 }) ∧
      bb.readInt 2 false =
        some ((leVal ((bb.buffer.drop bb.currentPosition).take 2) : Int),
              { bb with currentPosition := bb.currentPosition + 2 })) ∧
    (bb.currentPosition + 4 ≤ bb.buffer.length →
      bb.readInt 4 true =
        some (toSigned 32 (leVal ((bb.buffer.drop bb.currentPosition).take 4)),
              { bb with currentPosition := bb.currentPosition + 4 }) ∧
      bb.readInt 4 false =
        some ((leVal ((bb.buffer.drop bb.currentPosition).take 4) : Int),
              { bb with currentPosition := bb.currentPosition + 4 })) ∧
    (bb.currentPosition + 8 ≤ bb.buffer.length →
      ∀ sg : Bool,
        bb.readInt 8 sg =
          some (toSigned 64 (leVal ((bb.buffer.drop bb.currentPosition).take 8)),
                { bb with currentPosition := bb.currentPosition + 8 })) := by
  refine ⟨?_, ?_, ?_, ?_⟩
  · intro hb sg
    refine ⟨?_, ?_, ?_⟩
    · simp only [ByteBuffer.readInt, if_neg (by omega : ¬ bb.currentPosition + 1 > bb.buffer.length)]
    · exact Int.natCast_nonneg _
    · obtain ⟨b, rest, hdrop⟩ : ∃ b rest, bb.buffer.drop bb.currentPosition = b :: rest := by
        cases hd : bb.buffer.drop bb.currentPosition with
        | nil =>
          have := congrArg List.length hd
          simp only [List.length_drop, List.length_nil] at this
          omega
        | cons b rest => exact ⟨b, rest, rfl⟩
      have hmem : b ∈ bb.buffer := List.drop_subset _ _ (hdrop ▸ List.mem_cons_self b rest)
      have hfin : leVal ((bb.buffer.drop bb.currentPosition).take 1) = b := by
        rw [hdrop]
        simp [leVal]
      rw [hfin]
      have := hbytes b hmem
      omega
  · intro hb
    constructor
    · simp only [ByteBuffer.readInt]
      rw [if_neg (by omega : ¬ bb.currentPosition + 2 > bb.buffer.length)]
      simp
    · simp only [ByteBuffer.readInt]
      rw [if_neg (by omega : ¬ bb.currentPosition + 2 > bb.buffer.length)]
      simp
  · intro hb
    constructor
    · simp only [ByteBuffer.readInt]
      rw [if_neg (by omega : ¬ bb.currentPosition + 4 > bb.buffer.length)]
      simp
    · simp only [ByteBuffer.readInt]
      rw [if_neg (by omega : ¬ bb.currentPosition + 4 > bb.buffer.length)]
      simp
  · intro hb sg
    simp only [ByteBuffer.readInt,
      if_neg (by omega : ¬ bb.currentPosition + 8 > bb.buffer.length)]
    cases sg <;> rfl

/-- Witness for `read_int_signedness` at a concrete buffer of eight `FF`
bytes: the unsigned size-8 read returns the two's-complement value. -/
theorem read_int_signedness_witness :
    (⟨List.replicate 8 255, 0⟩ : ByteBuffer).readInt 8 false =
      some (toSigned 64 (leVal (((List.replicate 8 255).drop 0).take 8)),
            ⟨List.replicate 8 255, 8⟩) := by
  have h := (read_int_signedness ⟨List.replicate 8 255, 0⟩ (by decide)).2.2.2
    (by decide) false
  exact h

/-- C10 counterexample: on a buffer of eight `FF` bytes, the unsigned
8-byte read returns `-1` — identical to the signed read and different
from the zero-extended (unsigned) value `2^64 - 1` — so the `is_signed`
flag does not select a zero-extended result at byte size 8. -/
theorem read_int_size8_flag_no_effect_counterexample :
    (⟨List.replicate 8 255, 0⟩ : ByteBuffer).readInt 8 false =
      some (-1, ⟨List.replicate 8 255, 8⟩) ∧
    (⟨List.replicate 8 255, 0⟩ : ByteBuffer).readInt 8 true =
      some (-1, ⟨List.replicate 8 255, 8⟩) ∧
    (-1 : Int) ≠ (leVal (List.replicate 8 255) : Int) := by
  refine ⟨by decide, by decide, by decide⟩

/-- C7 counterexample: writing the two-byte UTF-8 string `"é"` (C3 A9)
into a one-byte slot stores its first byte C3, but reading the slot back
passes through `from_utf8_lossy`, which replaces the now-invalid lone C3
with U+FFFD (EF BF BD) — not the byte truncation of the string that the
claim states. -/
theorem write_read_string_utf8_split_counterexample :
    (⟨[0], 0⟩ : ByteBuffer).writeString 1 [0xC3, 0xA9] = some ⟨[0xC3], 1⟩ ∧
    (⟨[0xC3], 0⟩ : ByteBuffer).readString 1 =
      some ([0xEF, 0xBF, 0xBD], ⟨[0xC3], 1⟩) ∧
    validUtf8 [0xC3, 0xA9] = true ∧
    [0xEF, 0xBF, 0xBD] ≠ ([0xC3, 0xA9].take 1).takeWhile (fun b => b != 0) := by
  refine ⟨by decide, by decide, by decide, by decide⟩

/-- Dropping the first block and taking the second of a three-block
append yields the middle block. -/
theorem drop_take_middle {α : Type} (A B C : List α) :
    ((A ++ B ++ C).drop A.length).take B.length = B := by
  rw [List.append_assoc, List.drop_left, List.take_left]

/-- C7 (amended): writing a UTF-8 string `s` with `write_string(n, s)` and
then reading with `read_string(n)` from the same position yields the bytes
of `s` truncated to its first `n` bytes and terminated at the first zero
byte, provided that truncation is itself valid UTF-8 (when it splits a
multi-byte character, the invalid tail is instead replaced by U+FFFD per
lossy decoding). -/
theorem write_then_read_string_roundtrip (bb : ByteBuffer) (n : Nat) (s : List Nat)
    (hs : validUtf8 s = true)
    (hbound : bb.currentPosition + n ≤ bb.buffer.length)
    (hvalid : validUtf8 ((s.take n).takeWhile (fun b => b != 0)) = true) :
    ∃ bb1 : ByteBuffer,
      bb.writeString n s = some bb1 ∧
      ByteBuffer.readString { bb1 with currentPosition := bb.currentPosition } n =
        some ((s.take n).takeWhile (fun b => b != 0), bb1) := by
  have hwb : s.take (min s.length n) = s.take n := by
    rcases le_total s.length n with h | h
    · rw [min_eq_left h, List.take_length, List.take_of_length_le h]
    · rw [min_eq_right h]
  refine ⟨{ buffer := bb.buffer.take bb.currentPosition ++
              (s.take (min s.length n) ++ List.replicate (n - min s.length n) 0) ++
              bb.buffer.drop (bb.currentPosition + n),
            currentPosition := bb.currentPosition + n }, ?_, ?_⟩
  · simp only [ByteBuffer.writeString]
    rw [if_neg (by omega : ¬ bb.currentPosition + n > bb.buffer.length)]
  · have hlenA : (bb.buffer.take bb.currentPosition).length = bb.currentPosition := by
      simp only [List.length_take]
      omega
    have hlenB : (s.take (min s.length n) ++ List.replicate (n - min s.length n) 0).length = n := by
      simp only [List.length_append, List.length_take, List.length_replicate]
      omega
    have hlen : (bb.buffer.take bb.currentPosition ++
        (s.take (min s.length n) ++ List.replicate (n - min s.length n) 0) ++
        bb.buffer.drop (bb.currentPosition + n)).length = bb.buffer.length := by
      simp only [List.length_append, hlenA, hlenB, List.length_drop]
      omega
    have hmid : ((bb.buffer.take bb.currentPosition ++
        (s.take (min s.length n) ++ List.replicate (n - min s.length n) 0) ++
        bb.buffer.drop (bb.currentPosition + n)).drop bb.currentPosition).take n =
        s.take (min s.length n) ++ List.replicate (n - min s.length n) 0 := by
      have h := drop_take_middle (bb.buffer.take bb.currentPosition)
        (s.take (min s.length n) ++ List.replicate (n - min s.length n) 0)
        (bb.buffer.drop (bb.currentPosition + n))
      rwa [hlenA, hlenB] at h
    simp only [ByteBuffer.readString]
    rw [if_neg (by rw [hlen]; omega)]
    rw [hmid, hwb, takeWhile_append_replicate_zero,
        rustFromUtf8Lossy_of_valid _ hvalid]

/-- C3 counterexample: executing the `/` word on operand stack `1 0`
(divisor zero popped first) does not produce a catchable script error —
it hits Rust's integer division and panics, a fatal abort, refuting the
claim that `1 0 /` yields an error string a try/catch can capture. -/
theorem divide_by_zero_panics_counterexample :
    wordDivide Option.none [] [.int 0, .int 1] = .panic ∧
    ∀ (e : ScriptError) (stack : List HValue),
      wordDivide Option.none [] [.int 0, .int 1] ≠ .err e stack := by
  refine ⟨rfl, ?_⟩
  intro e stack h
  rw [show wordDivide Option.none [] [.int 0, .int 1] = .panic from rfl] at h
  exact WOutcome.noConfusion h

/-- C3 (amended): dividing two integers by zero with the `/` word panics —
a fatal, uncatchable abort of the interpreter process — for every
dividend, stack remainder, location and call stack; it never surfaces as
a script error that a try/catch could turn into a message string. -/
theorem divide_by_zero_is_fatal (loc : Option SourceLocation)
    (cs : List CallItem) (a : Int) (stack : List HValue) :
    wordDivide loc cs (.int 0 :: .int a :: stack) = .panic := by
  simp [wordDivide, mathOp, HValue.isFloat, HValue.isInt, HValue.getIntVal?,
    rustI64Div]

/-- Witness for `divide_by_zero_is_fatal` at the concrete script
`1 0 /`. -/
theorem divide_by_zero_is_fatal_witness :
    wordDivide Option.none [] [.int 0, .int 1] = .panic :=
  divide_by_zero_is_fatal Option.none [] 1 []

/-- C6: whenever the coercing value equality settles on the two popped
values, the word `<>` (per `std.f`: `=` then `'`) pushes the boolean
truth of the inequality, a value that reads as the integer 1 when the
operands are unequal and 0 when they are equal, both through
`get_int_val` (how scripts and the test harness observe it) and under the
interpreter's value equality. -/
theorem not_equal_pushes_one_iff_unequal (fuel : Nat) (H : Heap)
    (loc : Option SourceLocation) (cs : List CallItem) (a b : HValue)
    (stack : List HValue) (r : Bool) (h : valueEq fuel H a b = some r) :
    stdfNotEqual fuel H loc cs (b :: a :: stack) = .ok (.bool (!r) :: stack) ∧
    (HValue.bool (!r)).getIntVal? = some (if r then 0 else 1) ∧
    ∀ fuel2 : Nat,
      valueEq (fuel2 + 1) H (.bool (!r)) (.int (if r then 0 else 1)) = some true := by
  refine ⟨?_, ?_, ?_⟩
  · simp only [stdfNotEqual, wordEqual, h]
    cases r <;> rfl
  · cases r <;> rfl
  · intro fuel2
    cases r <;> rfl

/-- Witness for `not_equal_pushes_one_iff_unequal` at the test corpus's
input `5 6 <>`: the result reads as the integer 1. -/
theorem not_equal_pushes_one_iff_unequal_witness :
    stdfNotEqual 1 Heap.empty Option.none [] [.int 6, .int 5] =
      .ok (.bool true :: []) ∧
    (HValue.bool true).getIntVal? = some 1 := by
  have h := not_equal_pushes_one_iff_unequal 1 Heap.empty Option.none []
    (.int 5) (.int 6) [] false rfl
  exact ⟨h.1, h.2.1⟩

/-- Witness for `write_then_read_string_roundtrip`: writing the two-byte
string `AB` into a three-byte slot and reading it back returns exactly
those two bytes. -/
theorem write_then_read_string_roundtrip_witness :
    ∃ bb1 : ByteBuffer,
      (⟨[7, 7, 7, 7], 0⟩ : ByteBuffer).writeString 3 [65, 66] = some bb1 ∧
      ByteBuffer.readString { bb1 with currentPosition := 0 } 3 =
        some ((([65, 66] : List Nat).take 3).takeWhile (fun b => b != 0), bb1) :=
  write_then_read_string_roundtrip ⟨[7, 7, 7, 7], 0⟩ 3 [65, 66]
    (by decide) (by decide) (by decide)

/-- On a whitespace-free character list, the atom scanner consumes the
whole input. -/
theorem takeUntilWhitespace_no_ws (cs : List Char) :
    ∀ loc : SourceLocation, (∀ c ∈ cs, isWhitespaceChar c = false) →
      ∃ endLoc, takeUntilWhitespace cs loc = (cs, ⟨[], endLoc⟩) := by
  induction cs with
  | nil => intro loc _; exact ⟨loc, rfl⟩
  | cons c rest ih =>
    intro loc h
    have hc := h c (by simp)
    obtain ⟨endLoc, hrec⟩ := ih (loc.increment c) (fun x hx => h x (by simp [hx]))
    refine ⟨endLoc, ?_⟩
    simp [takeUntilWhitespace, hc, hrec]

/-- C8: for every whitespace-delimited atom that is not a string literal,
the scanner emits exactly the classification of `atomToken`: a `Number`
token exactly when the atom both passes the `is_number` shape test and
parses under `to_numeric`, and a `Word` token otherwise — in particular
an atom that passes the shape test but fails to parse becomes a `Word`. -/
theorem scanner_atom_classification (path text : String)
    (hne : text ≠ "") (hnws : ∀ c ∈ text.toList, isWhitespaceChar c = false)
    (hq : text.toList.head? ≠ some '"') :
    tokenize_from_source path text = .ok [atomToken ⟨path, 1, 1⟩ text] ∧
    ((∃ n, atomToken ⟨path, 1, 1⟩ text = Token.number ⟨path, 1, 1⟩ n) ↔
      (is_number text = true ∧ ∃ n, to_numeric text = some n)) ∧
    (is_number text = true → to_numeric text = Option.none →
      atomToken ⟨path, 1, 1⟩ text = Token.word ⟨path, 1, 1⟩ text) := by
  refine ⟨?_, ?_, ?_⟩
  · obtain ⟨data⟩ := text
    have hdata : data ≠ [] := by
      intro h
      exact hne (by rw [h])
    cases data with
    | nil => exact absurd rfl hdata
    | cons c0 cs =>
      have hc0ws : isWhitespaceChar c0 = false := hnws c0 (by simp)
      have hc0q : c0 ≠ '"' := by
        intro h
        exact hq (by simp [h, String.toList])
      obtain ⟨endLoc, htake⟩ :=
        takeUntilWhitespace_no_ws (c0 :: cs) ⟨path, 1, 1⟩ hnws
      show tokenizeGo ((c0 :: cs).length + 1) ⟨c0 :: cs, ⟨path, 1, 1⟩⟩ = _
      rw [show (c0 :: cs).length + 1 = cs.length + 1 + 1 by simp]
      rw [tokenizeGo]
      simp only [SourceBuffer.peekNext, hc0ws, Bool.false_eq_true, if_false,
        if_neg hc0q, processUntilWhitespace, htake]
      rw [tokenizeGo]
      rfl
  · constructor
    · rintro ⟨n, hn⟩
      by_cases hisnum : is_number text = true
      · refine ⟨hisnum, ?_⟩
        unfold atomToken at hn
        rw [if_pos hisnum] at hn
        cases htn : to_numeric text with
        | none => rw [htn] at hn; exact absurd hn (by simp)
        | some m => exact ⟨m, rfl⟩
      · unfold atomToken at hn
        rw [if_neg hisnum] at hn
        exact absurd hn (by simp)
    · rintro ⟨hin, n, hn⟩
      refine ⟨n, ?_⟩
      unfold atomToken
      rw [if_pos hin, hn]
  · intro hin htn
    unfold atomToken
    rw [if_pos hin, htn]

/-- Witness for `scanner_atom_classification` at the atom `0xzz`, which
passes the numeric shape test (a `0x` prefix) but fails the numeric
parse, and is therefore scanned as a `Word` token. -/
theorem scanner_atom_classification_witness :
    tokenize_from_source "t" "0xzz" = .ok [atomToken ⟨"t", 1, 1⟩ "0xzz"] ∧
    is_number "0xzz" = true ∧ to_numeric "0xzz" = Option.none ∧
    atomToken ⟨"t", 1, 1⟩ "0xzz" = Token.word ⟨"t", 1, 1⟩ "0xzz" := by
  have h := scanner_atom_classification "t" "0xzz" (by decide)
    (by decide) (by decide)
  exact ⟨h.1, by decide, by decide, h.2.2 (by decide) (by decide)⟩

/-- In-range indexing ignores an appended tail. -/
theorem getElem?_append_left_of_lt {α : Type} {l t : List α} {i : Nat}
    (h : i < l.length) : (l ++ t)[i]? = l[i]? := by
  rw [List.getElem?_append, if_pos h]

/-- Heap extension is reflexive. -/
theorem heapExtends_refl (H : Heap) : H.Extends H :=
  ⟨⟨[], by simp⟩, ⟨[], by simp⟩, ⟨[], by simp⟩, ⟨[], by simp⟩, rfl⟩

/-- Heap extension is transitive. -/
theorem heapExtends_trans {H1 H2 H3 : Heap} (h12 : H2.Extends H1)
    (h23 : H3.Extends H2) : H3.Extends H1 := by
  obtain ⟨⟨t1, e1⟩, ⟨t2, e2⟩, ⟨t3, e3⟩, ⟨t4, e4⟩, e5⟩ := h12
  obtain ⟨⟨u1, f1⟩, ⟨u2, f2⟩, ⟨u3, f3⟩, ⟨u4, f4⟩, f5⟩ := h23
  refine ⟨⟨t1 ++ u1, ?_⟩, ⟨t2 ++ u2, ?_⟩, ⟨t3 ++ u3, ?_⟩, ⟨t4 ++ u4, ?_⟩, ?_⟩ <;>
    simp [f1, e1, f2, e2, f3, e3, f4, e4, f5, e5]

/-- Extension does not shrink any arena. -/
theorem heapExtends_sizeAt_le {H H2 : Heap} (h : H2.Extends H) (k : Arena) :
    H.sizeAt k ≤ H2.sizeAt k := by
  obtain ⟨⟨t1, e1⟩, ⟨t2, e2⟩, ⟨t3, e3⟩, ⟨t4, e4⟩, e5⟩ := h
  cases k <;> simp [Heap.sizeAt, e1, e2, e3, e4, e5]

/-- Extension preserves in-range vector cells. -/
theorem heapExtends_vecs_get {H H2 : Heap} (h : H2.Extends H) {i : Nat}
    (hi : i < H.vecs.length) : H2.vecs[i]? = H.vecs[i]? := by
  obtain ⟨⟨t1, e1⟩, _, _, _, _⟩ := h
  rw [e1, getElem?_append_left_of_lt hi]

/-- Extension preserves in-range hash cells. -/
theorem heapExtends_hashes_get {H H2 : Heap} (h : H2.Extends H) {i : Nat}
    (hi : i < H.hashes.length) : H2.hashes[i]? = H.hashes[i]? := by
  obtain ⟨_, ⟨t2, e2⟩, _, _, _⟩ := h
  rw [e2, getElem?_append_left_of_lt hi]

/-- Extension preserves in-range data object cells. -/
theorem heapExtends_objs_get {H H2 : Heap} (h : H2.Extends H) {i : Nat}
    (hi : i < H.objs.length) : H2.objs[i]? = H.objs[i]? := by
  obtain ⟨_, _, ⟨t3, e3⟩, _, _⟩ := h
  rw [e3, getElem?_append_left_of_lt hi]

/-- Extension preserves in-range byte buffer cells. -/
theorem heapExtends_bufs_get {H H2 : Heap} (h : H2.Extends H) {i : Nat}
    (hi : i < H.bufs.length) : H2.bufs[i]? = H.bufs[i]? := by
  obtain ⟨_, _, _, ⟨t4, e4⟩, _⟩ := h
  rw [e4, getElem?_append_left_of_lt hi]

/-- Extension preserves definition cells. -/
theorem heapExtends_defs_get {H H2 : Heap} (h : H2.Extends H) (i : Nat) :
    H2.defs[i]? = H.defs[i]? := by
  obtain ⟨_, _, _, _, e5⟩ := h
  rw [e5]

/-- Extension preserves the stored values of in-range cells. -/
theorem heapExtends_cellValues {H H2 : Heap} (h : H2.Extends H) (a : Addr)
    (ha : a.2 < H.sizeAt a.1) : H2.cellValues a = H.cellValues a := by
  obtain ⟨k, i⟩ := a
  cases k with
  | vecs => simp only [Heap.cellValues]; rw [heapExtends_vecs_get h ha]
  | hashes => simp only [Heap.cellValues]; rw [heapExtends_hashes_get h ha]
  | objs => simp only [Heap.cellValues]; rw [heapExtends_objs_get h ha]
  | bufs => rfl
  | defs => simp only [Heap.cellValues]; rw [heapExtends_defs_get h i]

/-- Extension preserves the referenced addresses of in-range cells. -/
theorem heapExtends_cellAddrs {H H2 : Heap} (h : H2.Extends H) (a : Addr)
    (ha : a.2 < H.sizeAt a.1) : H2.cellAddrs a = H.cellAddrs a := by
  obtain ⟨k, i⟩ := a
  unfold Heap.cellAddrs
  rw [heapExtends_cellValues h (k, i) ha]
  cases k with
  | objs =>
      have ha' : i < H.objs.length := ha
      change ((H.cellValues (Arena.objs, i)).flatMap HValue.rootAddrs ++
          match H2.objs[i]? with
          | some o => [(Arena.defs, o.definitionPtr)]
          | none => []) =
        ((H.cellValues (Arena.objs, i)).flatMap HValue.rootAddrs ++
          match H.objs[i]? with
          | some o => [(Arena.defs, o.definitionPtr)]
          | none => [])
      rw [heapExtends_objs_get h ha']
  | vecs => rfl
  | hashes => rfl
  | bufs => rfl
  | defs => rfl

/-- In a well-formed heap, every address reachable from a value with
in-range roots is in range. -/
theorem reach_lt_of_wf {H : Heap} {v : HValue} {a : Addr} (hwf : H.WF)
    (hroots : ∀ b ∈ v.rootAddrs, b.2 < H.sizeAt b.1) (h : Reach H v a) :
    a.2 < H.sizeAt a.1 := by
  induction h with
  | root hmem => exact hroots _ hmem
  | step _ hmem _ => exact hwf _ _ hmem

/-- Reachability from a value with in-range roots is invariant under heap
extension. -/
theorem reach_extends_iff {H H2 : Heap} {v : HValue} (hx : H2.Extends H)
    (hwf : H.WF) (hroots : ∀ b ∈ v.rootAddrs, b.2 < H.sizeAt b.1) (a : Addr) :
    Reach H2 v a ↔ Reach H v a := by
  constructor
  · intro h
    induction h with
    | root hmem => exact .root hmem
    | step _ hmem ih =>
      exact .step ih
        (by rwa [heapExtends_cellAddrs hx _ (reach_lt_of_wf hwf hroots ih)] at hmem)
  · intro h
    induction h with
    | root hmem => exact .root hmem
    | step hr hmem ih =>
      refine .step ih ?_
      rw [heapExtends_cellAddrs hx _ (reach_lt_of_wf hwf hroots hr)]
      exact hmem

/-- A pointwise strengthening of the element comparison lifts through
`listValueEqWith`. -/
theorem listValueEqWith_mono {eqv eqv2 : HValue → HValue → Option Bool}
    (h : ∀ x y r, eqv x y = some r → eqv2 x y = some r) :
    ∀ xs ys r, listValueEqWith eqv xs ys = some r →
      listValueEqWith eqv2 xs ys = some r := by
  intro xs
  induction xs with
  | nil =>
    intro ys r hr
    cases ys with
    | nil => exact hr
    | cons y ys => exact hr
  | cons x xs ih =>
    intro ys r hr
    cases ys with
    | nil => exact hr
    | cons y ys =>
      cases he : eqv x y with
      | none => rw [listValueEqWith, he] at hr; exact Option.noConfusion hr
      | some r1 =>
        rw [listValueEqWith, he] at hr
        rw [listValueEqWith, h x y r1 he]
        have hr' : (if r1 = true then listValueEqWith eqv xs ys else some false) = some r := hr
        show (if r1 = true then listValueEqWith eqv2 xs ys else some false) = some r
        cases r1 with
        | false => rw [if_neg (by decide)] at hr' ⊢; exact hr'
        | true => rw [if_pos rfl] at hr' ⊢; exact ih ys r hr'

/-- A pointwise strengthening of the key comparison lifts through
`hashGetWith`. -/
theorem hashGetWith_mono {eqv eqv2 : HValue → HValue → Option Bool}
    (h : ∀ x y r, eqv x y = some r → eqv2 x y = some r) :
    ∀ entries key w, hashGetWith eqv entries key = some w →
      hashGetWith eqv2 entries key = some w := by
  intro entries
  induction entries with
  | nil => intro key w hr; exact hr
  | cons kv rest ih =>
    obtain ⟨k, v⟩ := kv
    intro key w hr
    cases he : eqv k key with
    | none => rw [hashGetWith, he] at hr; exact Option.noConfusion hr
    | some r1 =>
      rw [hashGetWith, he] at hr
      rw [hashGetWith, h k key r1 he]
      have hr' : (if r1 = true then some (some v) else hashGetWith eqv rest key) = some w := hr
      show (if r1 = true then some (some v) else hashGetWith eqv2 rest key) = some w
      cases r1 with
      | false => rw [if_neg (by decide)] at hr' ⊢; exact ih key w hr'
      | true => rw [if_pos rfl] at hr' ⊢; exact hr'

/-- A pointwise strengthening of the value comparison lifts through
`hashSubsetEqWith`. -/
theorem hashSubsetEqWith_mono {eqv eqv2 : HValue → HValue → Option Bool}
    (h : ∀ x y r, eqv x y = some r → eqv2 x y = some r) :
    ∀ xs ys r, hashSubsetEqWith eqv xs ys = some r →
      hashSubsetEqWith eqv2 xs ys = some r := by
  intro xs
  induction xs with
  | nil => intro ys r hr; exact hr
  | cons kv rest ih =>
    obtain ⟨k, v⟩ := kv
    intro ys r hr
    cases hg : hashGetWith eqv ys k with
    | none => rw [hashSubsetEqWith, hg] at hr; exact Option.noConfusion hr
    | some ow =>
      rw [hashSubsetEqWith, hg] at hr
      rw [hashSubsetEqWith, hashGetWith_mono h ys k ow hg]
      cases ow with
      | none => exact hr
      | some w =>
        cases he : eqv w v with
        | none =>
          have hr' : (match eqv w v with
            | Option.none => Option.none
            | some r => if r then hashSubsetEqWith eqv rest ys else some false) = some r := hr
          rw [he] at hr'
          exact Option.noConfusion hr'
        | some r1 =>
          have hr' : (match eqv w v with
            | Option.none => Option.none
            | some r => if r then hashSubsetEqWith eqv rest ys else some false) = some r := hr
          rw [he] at hr'
          show (match eqv2 w v with
            | Option.none => Option.none
            | some r => if r then hashSubsetEqWith eqv2 rest ys else some false) = some r
          rw [h w v r1 he]
          have hr2 : (if r1 = true then hashSubsetEqWith eqv rest ys else some false) = some r := hr'
          show (if r1 = true then hashSubsetEqWith eqv2 rest ys else some false) = some r
          cases r1 with
          | false => rw [if_neg (by decide)] at hr2 ⊢; exact hr2
          | true => rw [if_pos rfl] at hr2 ⊢; exact ih ys r hr2

/-- A pointwise strengthening of the field comparison lifts through
`dataFieldsEqWith`. -/
theorem dataFieldsEqWith_mono {eqv eqv2 : HValue → HValue → Option Bool}
    (h : ∀ x y r, eqv x y = some r → eqv2 x y = some r) :
    ∀ xs ys r, dataFieldsEqWith eqv xs ys = some r →
      dataFieldsEqWith eqv2 xs ys = some r := by
  intro xs
  induction xs with
  | nil => intro ys r hr; exact hr
  | cons x xs ih =>
    intro ys r hr
    cases ys with
    | nil => exact Option.noConfusion hr
    | cons y ys =>
      cases he : eqv x y with
      | none => rw [dataFieldsEqWith, he] at hr; exact Option.noConfusion hr
      | some r1 =>
        rw [dataFieldsEqWith, he] at hr
        rw [dataFieldsEqWith, h x y r1 he]
        have hr' : (if r1 = true then dataFieldsEqWith eqv xs ys else some false) = some r := hr
        show (if r1 = true then dataFieldsEqWith eqv2 xs ys else some false) = some r
        cases r1 with
        | false => rw [if_neg (by decide)] at hr' ⊢; exact hr'
        | true => rw [if_pos rfl] at hr' ⊢; exact ih ys r hr'

/-- A pointwise strengthening of the operand comparison lifts through
`opEqWith`. -/
theorem opEqWith_mono {eqv eqv2 : HValue → HValue → Option Bool}
    (h : ∀ x y r, eqv x y = some r → eqv2 x y = some r)
    (i j : Op) (r : Bool) (hr : opEqWith eqv i j = some r) :
    opEqWith eqv2 i j = some r := by
  cases i <;> cases j <;> first | exact hr | exact h _ _ r hr

/-- A pointwise strengthening of the operand comparison lifts through
`instrEqWith`. -/
theorem instrEqWith_mono {eqv eqv2 : HValue → HValue → Option Bool}
    (h : ∀ x y r, eqv x y = some r → eqv2 x y = some r)
    (i j : Instr) (r : Bool) (hr : instrEqWith eqv i j = some r) :
    instrEqWith eqv2 i j = some r := by
  unfold instrEqWith at hr ⊢
  by_cases hij : i.1 = j.1
  · rw [if_pos hij] at hr ⊢; exact opEqWith_mono h _ _ r hr
  · rw [if_neg hij] at hr ⊢; exact hr

/-- A pointwise strengthening of the operand comparison lifts through
`instrListEqWith`. -/
theorem instrListEqWith_mono {eqv eqv2 : HValue → HValue → Option Bool}
    (h : ∀ x y r, eqv x y = some r → eqv2 x y = some r) :
    ∀ xs ys r, instrListEqWith eqv xs ys = some r →
      instrListEqWith eqv2 xs ys = some r := by
  intro xs
  induction xs with
  | nil =>
    intro ys r hr
    cases ys with
    | nil => exact hr
    | cons y ys => exact hr
  | cons x xs ih =>
    intro ys r hr
    cases ys with
    | nil => exact hr
    | cons y ys =>
      cases he : instrEqWith eqv x y with
      | none => rw [instrListEqWith, he] at hr; exact Option.noConfusion hr
      | some r1 =>
        rw [instrListEqWith, he] at hr
        rw [instrListEqWith, instrEqWith_mono h x y r1 he]
        have hr' : (if r1 = true then instrListEqWith eqv xs ys else some false) = some r := hr
        show (if r1 = true then instrListEqWith eqv2 xs ys else some false) = some r
        cases r1 with
        | false => rw [if_neg (by decide)] at hr' ⊢; exact hr'
        | true => rw [if_pos rfl] at hr' ⊢; exact ih ys r hr'

/-- Unfolding of `valueEq` at two vector references. -/
theorem valueEq_vec_eq (fuel : Nat) (H : Heap) (i j : Nat) :
    valueEq (fuel + 1) H (.vec i) (.vec j) =
      match H.vecs[i]?, H.vecs[j]? with
      | some xs, some ys =>
        if xs.length = ys.length then listValueEqWith (valueEq fuel H) xs ys
        else some false
      | _, _ => Option.none := rfl

/-- Unfolding of `valueEq` at two data object references. -/
theorem valueEq_obj_eq (fuel : Nat) (H : Heap) (i j : Nat) :
    valueEq (fuel + 1) H (.dataObject i) (.dataObject j) =
      match H.objs[i]?, H.objs[j]? with
      | some ox, some oy =>
        match H.defs[ox.definitionPtr]?, H.defs[oy.definitionPtr]? with
        | some dx, some dy =>
          if dx.name ≠ dy.name then some false
          else dataFieldsEqWith (valueEq fuel H) ox.fields oy.fields
        | _, _ => Option.none
      | _, _ => Option.none := rfl

/-- Unfolding of `valueEq` at two hash map references. -/
theorem valueEq_hash_eq (fuel : Nat) (H : Heap) (i j : Nat) :
    valueEq (fuel + 1) H (.hashMap i) (.hashMap j) =
      match H.hashes[i]?, H.hashes[j]? with
      | some hx, some hy => hashSubsetEqWith (valueEq fuel H) hx hy
      | _, _ => Option.none := rfl

/-- Unfolding of `valueEq` at two byte buffer references. -/
theorem valueEq_buf_eq (fuel : Nat) (H : Heap) (i j : Nat) :
    valueEq (fuel + 1) H (.byteBuffer i) (.byteBuffer j) =
      match H.bufs[i]?, H.bufs[j]? with
      | some bx, some bz =>
        some (bx.buffer == bz.buffer && bx.currentPosition == bz.currentPosition)
      | _, _ => Option.none := rfl

/-- Unfolding of `valueEq` at two code blocks. -/
theorem valueEq_code_eq (fuel : Nat) (H : Heap) (cx cy : ByteCode) :
    valueEq (fuel + 1) H (.code cx) (.code cy) =
      (if cx.length = cy.length then instrListEqWith (valueEq fuel H) cx cy
       else some false) := rfl

/-- Membership of a lookup result forces the index in range. -/
theorem lt_length_of_getElem?_eq_some {α : Type} {l : List α} {i : Nat} {a : α}
    (h : l[i]? = some a) : i < l.length := by
  by_contra hlt
  rw [List.getElem?_eq_none (Nat.le_of_not_lt hlt)] at h
  exact Option.noConfusion h

/-- The frame step of `valueEq` at two vector references. -/
theorem valueEq_frame_vec {fuel : Nat} {H H2 : Heap} (hx : H2.Extends H)
    (ih : ∀ x y r, valueEq fuel H x y = some r → valueEq fuel H2 x y = some r)
    {i j : Nat} {r : Bool} (hr : valueEq (fuel + 1) H (.vec i) (.vec j) = some r) :
    valueEq (fuel + 1) H2 (.vec i) (.vec j) = some r := by
  rw [valueEq_vec_eq] at hr ⊢
  cases hxi : H.vecs[i]? with
  | none =>
    rw [hxi] at hr
    cases hxj : H.vecs[j]? with
    | none => rw [hxj] at hr; exact Option.noConfusion hr
    | some ys => rw [hxj] at hr; exact Option.noConfusion hr
  | some xs =>
    rw [hxi] at hr
    cases hxj : H.vecs[j]? with
    | none => rw [hxj] at hr; exact Option.noConfusion hr
    | some ys =>
      rw [hxj] at hr
      rw [heapExtends_vecs_get hx (lt_length_of_getElem?_eq_some hxi),
        heapExtends_vecs_get hx (lt_length_of_getElem?_eq_some hxj), hxi, hxj]
      have hr' :
          (if xs.length = ys.length then listValueEqWith (valueEq fuel H) xs ys
           else some false) = some r := hr
      show (if xs.length = ys.length then listValueEqWith (valueEq fuel H2) xs ys
           else some false) = some r
      by_cases hlen : xs.length = ys.length
      · rw [if_pos hlen] at hr' ⊢
        exact listValueEqWith_mono ih xs ys r hr'
      · rw [if_neg hlen] at hr' ⊢; exact hr'

/-- The frame step of `valueEq` at two data object references. -/
theorem valueEq_frame_obj {fuel : Nat} {H H2 : Heap} (hx : H2.Extends H)
    (ih : ∀ x y r, valueEq fuel H x y = some r → valueEq fuel H2 x y = some r)
    {i j : Nat} {r : Bool}
    (hr : valueEq (fuel + 1) H (.dataObject i) (.dataObject j) = some r) :
    valueEq (fuel + 1) H2 (.dataObject i) (.dataObject j) = some r := by
  rw [valueEq_obj_eq] at hr ⊢
  cases hxi : H.objs[i]? with
  | none =>
    rw [hxi] at hr
    cases hxj : H.objs[j]? with
    | none => rw [hxj] at hr; exact Option.noConfusion hr
    | some oy => rw [hxj] at hr; exact Option.noConfusion hr
  | some ox =>
    rw [hxi] at hr
    cases hxj : H.objs[j]? with
    | none => rw [hxj] at hr; exact Option.noConfusion hr
    | some oy =>
      rw [hxj] at hr
      rw [heapExtends_objs_get hx (lt_length_of_getElem?_eq_some hxi),
        heapExtends_objs_get hx (lt_length_of_getElem?_eq_some hxj), hxi, hxj]
      have hr' :
          (match H.defs[ox.definitionPtr]?, H.defs[oy.definitionPtr]? with
           | some dx, some dy =>
             if dx.name ≠ dy.name then some false
             else dataFieldsEqWith (valueEq fuel H) ox.fields oy.fields
           | _, _ => Option.none) = some r := hr
      show (match H2.defs[ox.definitionPtr]?, H2.defs[oy.definitionPtr]? with
           | some dx, some dy =>
             if dx.name ≠ dy.name then some false
             else dataFieldsEqWith (valueEq fuel H2) ox.fields oy.fields
           | _, _ => Option.none) = some r
      rw [heapExtends_defs_get hx ox.definitionPtr, heapExtends_defs_get hx oy.definitionPtr]
      cases hdi : H.defs[ox.definitionPtr]? with
      | none =>
        rw [hdi] at hr'
        cases hdj : H.defs[oy.definitionPtr]? with
        | none => rw [hdj] at hr'; exact Option.noConfusion hr'
        | some dy => rw [hdj] at hr'; exact Option.noConfusion hr'
      | some dx =>
        rw [hdi] at hr'
        cases hdj : H.defs[oy.definitionPtr]? with
        | none => rw [hdj] at hr'; exact Option.noConfusion hr'
        | some dy =>
          rw [hdj] at hr'
          have hr2 :
              (if dx.name ≠ dy.name then some false
               else dataFieldsEqWith (valueEq fuel H) ox.fields oy.fields) = some r := hr'
          show (if dx.name ≠ dy.name then some false
               else dataFieldsEqWith (valueEq fuel H2) ox.fields oy.fields) = some r
          by_cases hname : dx.name ≠ dy.name
          · rw [if_pos hname] at hr2 ⊢; exact hr2
          · rw [if_neg hname] at hr2 ⊢
            exact dataFieldsEqWith_mono ih ox.fields oy.fields r hr2

/-- The frame step of `valueEq` at two hash map references. -/
theorem valueEq_frame_hash {fuel : Nat} {H H2 : Heap} (hx : H2.Extends H)
    (ih : ∀ x y r, valueEq fuel H x y = some r → valueEq fuel H2 x y = some r)
    {i j : Nat} {r : Bool}
    (hr : valueEq (fuel + 1) H (.hashMap i) (.hashMap j) = some r) :
    valueEq (fuel + 1) H2 (.hashMap i) (.hashMap j) = some r := by
  rw [valueEq_hash_eq] at hr ⊢
  cases hxi : H.hashes[i]? with
  | none =>
    rw [hxi] at hr
    cases hxj : H.hashes[j]? with
    | none => rw [hxj] at hr; exact Option.noConfusion hr
    | some hy => rw [hxj] at hr; exact Option.noConfusion hr
  | some hx1 =>
    rw [hxi] at hr
    cases hxj : H.hashes[j]? with
    | none => rw [hxj] at hr; exact Option.noConfusion hr
    | some hy =>
      rw [hxj] at hr
      rw [heapExtends_hashes_get hx (lt_length_of_getElem?_eq_some hxi),
        heapExtends_hashes_get hx (lt_length_of_getElem?_eq_some hxj), hxi, hxj]
      exact hashSubsetEqWith_mono ih hx1 hy r hr

/-- The frame step of `valueEq` at two byte buffer references. -/
theorem valueEq_frame_buf {fuel : Nat} {H H2 : Heap} (hx : H2.Extends H)
    {i j : Nat} {r : Bool}
    (hr : valueEq (fuel + 1) H (.byteBuffer i) (.byteBuffer j) = some r) :
    valueEq (fuel + 1) H2 (.byteBuffer i) (.byteBuffer j) = some r := by
  rw [valueEq_buf_eq] at hr ⊢
  cases hxi : H.bufs[i]? with
  | none =>
    rw [hxi] at hr
    cases hxj : H.bufs[j]? with
    | none => rw [hxj] at hr; exact Option.noConfusion hr
    | some bz => rw [hxj] at hr; exact Option.noConfusion hr
  | some bx =>
    rw [hxi] at hr
    cases hxj : H.bufs[j]? with
    | none => rw [hxj] at hr; exact Option.noConfusion hr
    | some bz =>
      rw [hxj] at hr
      rw [heapExtends_bufs_get hx (lt_length_of_getElem?_eq_some hxi),
        heapExtends_bufs_get hx (lt_length_of_getElem?_eq_some hxj), hxi, hxj]
      exact hr

/-- A positive `valueEq` verdict relative to a heap survives any extension
of that heap: extensions only append fresh cells and never change the
cells the comparison visits. -/
theorem valueEq_frame : ∀ (fuel : Nat) {H H2 : Heap}, H2.Extends H →
    ∀ (x y : HValue) (r : Bool), valueEq fuel H x y = some r →
      valueEq fuel H2 x y = some r := by
  intro fuel
  induction fuel with
  | zero => intro H H2 _ x y r hr; exact Option.noConfusion hr
  | succ fuel ih =>
    intro H H2 hx x y r hr
    cases x <;> cases y <;>
      first
        | exact hr
        | exact valueEq_frame_vec hx (fun a b s => ih hx a b s) hr
        | exact valueEq_frame_obj hx (fun a b s => ih hx a b s) hr
        | exact valueEq_frame_hash hx (fun a b s => ih hx a b s) hr
        | exact valueEq_frame_buf hx hr
        | (rw [valueEq_code_eq] at hr ⊢
           rename_i cx cy
           by_cases hlen : cx.length = cy.length
           · rw [if_pos hlen] at hr ⊢
             exact instrListEqWith_mono (fun a b s => ih hx a b s) cx cy r hr
           · rw [if_neg hlen] at hr ⊢; exact hr)

/-- For two scalar values the coercing equality consults neither the heap
nor the recursion fuel. -/
theorem valueEq_scalar_stable {a b : HValue} (ha : a.isScalar = true)
    (hb : b.isScalar = true) {fuel : Nat} {H : Heap} :
    valueEq (fuel + 1) H a b = valueEq 1 Heap.empty a b := by
  cases a <;> cases b <;>
    first
      | rfl
      | (simp only [HValue.isScalar] at ha; exact Bool.noConfusion ha)
      | (simp only [HValue.isScalar] at hb; exact Bool.noConfusion hb)

/-- The coercing equality is total on two scalar values: every branch it
can reach there produces a verdict. -/
theorem valueEq_scalar_total {a b : HValue} (ha : a.isScalar = true)
    (hb : b.isScalar = true) :
    ∃ r, valueEq 1 Heap.empty a b = some r := by
  rcases a with _ | i | f | ab | as | ia | iha | ioa | iba | t | c <;>
    rcases b with _ | j | g | bb | bs | jb | jhb | job | jbb | u | d <;>
      try exact ⟨_, rfl⟩
  all_goals try (rcases t with ⟨lt, nt⟩ | ⟨lt, st⟩ | ⟨lt, wt⟩ <;> try exact ⟨_, rfl⟩)
  all_goals try (rcases u with ⟨lu, nu⟩ | ⟨lu, su⟩ | ⟨lu, wu⟩ <;> try exact ⟨_, rfl⟩)
  all_goals try (rcases nt with i2 | f2 <;> try exact ⟨_, rfl⟩)
  all_goals try (rcases nu with i3 | f3 <;> try exact ⟨_, rfl⟩)
  all_goals
    first
      | (simp only [HValue.isScalar] at ha; exact Bool.noConfusion ha)
      | (simp only [HValue.isScalar] at hb; exact Bool.noConfusion hb)

/-- The coercing equality affirms `v == v` for a scalar value that is
neither a NaN float nor a number token. -/
theorem valueEq_scalar_refl {a : HValue} (ha : a.isScalar = true)
    (hr : a.reflEqOk = true) (fuel : Nat) (H : Heap) :
    valueEq (fuel + 1) H a a = some true := by
  cases a with
  | none => rfl
  | int i =>
    show some (i == i) = some true
    simp
  | float f =>
    show numericValueEq (.float f) (.float f) = some true
    cases f with
    | nan => simp [HValue.reflEqOk] at hr
    | inf n =>
      show some (F64.feq (.inf n) (.inf n)) = some true
      simp [F64.feq]
    | num q =>
      show some (F64.feq (.num q) (.num q)) = some true
      simp [F64.feq]
  | bool b =>
    show some ((HValue.bool b).getBoolVal == (HValue.bool b).getBoolVal) = some true
    simp
  | str s =>
    show some (s == s) = some true
    simp
  | token t =>
    cases t with
    | number l n => simp [HValue.reflEqOk] at hr
    | string l v =>
      show some (v == v) = some true
      simp
    | word l w =>
      show some (w == w) = some true
      simp
  | vec i => simp [HValue.isScalar] at ha
  | hashMap i => simp [HValue.isScalar] at ha
  | dataObject i => simp [HValue.isScalar] at ha
  | byteBuffer i => simp [HValue.isScalar] at ha
  | code c => simp [HValue.isScalar] at ha

/-- `deep_clone` of a scalar value, when it returns at all, returns the
value itself over the unchanged heap. -/
theorem deepClone_scalar_eq {a : HValue} (ha : a.isScalar = true)
    {fuel : Nat} {H : Heap} {p : HValue × Heap}
    (h : deepClone fuel H a = some p) : p = (a, H) := by
  cases fuel with
  | zero => exact Option.noConfusion h
  | succ g =>
    cases a <;>
      first
        | exact (Option.some.inj h).symm
        | (simp only [HValue.isScalar] at ha; exact Bool.noConfusion ha)

/-- Appending one element and indexing at the old length. -/
theorem getElem?_concat_length {α : Type} : ∀ (l : List α) (x : α),
    (l ++ [x])[l.length]? = some x := by
  intro l x
  induction l with
  | nil => rfl
  | cons y l ih => simpa using ih

/-- Pushing a vector cell extends the heap. -/
theorem pushVec_extends (H : Heap) (cell : List HValue) :
    (H.pushVec cell).Extends H :=
  ⟨⟨[cell], rfl⟩, ⟨[], by simp [Heap.pushVec]⟩, ⟨[], by simp [Heap.pushVec]⟩,
    ⟨[], by simp [Heap.pushVec]⟩, rfl⟩

/-- Pushing a hash cell extends the heap. -/
theorem pushHash_extends (H : Heap) (cell : List (HValue × HValue)) :
    (H.pushHash cell).Extends H :=
  ⟨⟨[], by simp [Heap.pushHash]⟩, ⟨[cell], rfl⟩, ⟨[], by simp [Heap.pushHash]⟩,
    ⟨[], by simp [Heap.pushHash]⟩, rfl⟩

/-- Pushing a byte buffer cell extends the heap. -/
theorem pushBuf_extends (H : Heap) (cell : ByteBuffer) :
    (H.pushBuf cell).Extends H :=
  ⟨⟨[], by simp [Heap.pushBuf]⟩, ⟨[], by simp [Heap.pushBuf]⟩,
    ⟨[], by simp [Heap.pushBuf]⟩, ⟨[cell], rfl⟩, rfl⟩

/-- A dangling address stores no values. -/
theorem cellValues_of_out_of_range {H : Heap} {a : Addr}
    (h : H.sizeAt a.1 ≤ a.2) : H.cellValues a = [] := by
  obtain ⟨k, i⟩ := a
  cases k <;>
    simp_all [Heap.cellValues, Heap.sizeAt, List.getElem?_eq_none]

/-- A dangling address references no addresses. -/
theorem cellAddrs_of_out_of_range {H : Heap} {a : Addr}
    (h : H.sizeAt a.1 ≤ a.2) : H.cellAddrs a = [] := by
  obtain ⟨k, i⟩ := a
  unfold Heap.cellAddrs
  rw [cellValues_of_out_of_range h]
  cases k <;> simp_all [Heap.sizeAt, List.getElem?_eq_none]

/-- A heap extension whose fresh region is closed preserves
well-formedness. -/
theorem wf_of_extends {H H1 : Heap} (hwf : H.WF) (hx : H1.Extends H)
    (hf : FreshClosed H H1) : H1.WF := by
  intro a b hb
  by_cases hlt : a.2 < H.sizeAt a.1
  · rw [heapExtends_cellAddrs hx a hlt] at hb
    exact lt_of_lt_of_le (hwf a b hb) (heapExtends_sizeAt_le hx b.1)
  · by_cases hlt1 : a.2 < H1.sizeAt a.1
    · exact (hf a (Nat.le_of_not_lt hlt) hlt1 b hb).2
    · rw [cellAddrs_of_out_of_range (Nat.le_of_not_lt hlt1)] at hb
      cases hb

/-- Closure of the fresh region composes along a chain of extensions. -/
theorem freshClosed_trans {H H1 H2 : Heap} (hx1 : H1.Extends H)
    (hx2 : H2.Extends H1) (f1 : FreshClosed H H1) (f2 : FreshClosed H1 H2) :
    FreshClosed H H2 := by
  intro a ha1 ha2 b hb
  by_cases hlt : a.2 < H1.sizeAt a.1
  · rw [heapExtends_cellAddrs hx2 a hlt] at hb
    obtain ⟨hbf, hbr⟩ := f1 a ha1 hlt b hb
    exact ⟨hbf, lt_of_lt_of_le hbr (heapExtends_sizeAt_le hx2 b.1)⟩
  · obtain ⟨hbf, hbr⟩ := f2 a (Nat.le_of_not_lt hlt) ha2 b hb
    exact ⟨le_trans (heapExtends_sizeAt_le hx1 b.1) hbf, hbr⟩

/-- The fresh region of a heap over itself is empty, hence closed. -/
theorem freshClosed_refl (H : Heap) : FreshClosed H H := by
  intro a ha1 ha2 b hb
  exact absurd ha2 (Nat.not_lt_of_le ha1)

/-- The cell a vector push creates references exactly the roots of its
stored values. -/
theorem cellAddrs_pushVec_new (H0 : Heap) (ys : List HValue) :
    (H0.pushVec ys).cellAddrs (Arena.vecs, H0.vecs.length) =
      ys.flatMap HValue.rootAddrs := by
  unfold Heap.cellAddrs Heap.cellValues
  simp [Heap.pushVec, getElem?_concat_length]

/-- The cell a hash push creates references exactly the roots of its keys
and values. -/
theorem cellAddrs_pushHash_new (H0 : Heap) (kvs : List (HValue × HValue)) :
    (H0.pushHash kvs).cellAddrs (Arena.hashes, H0.hashes.length) =
      (kvs.flatMap fun kv => [kv.1, kv.2]).flatMap HValue.rootAddrs := by
  unfold Heap.cellAddrs Heap.cellValues
  simp [Heap.pushHash, getElem?_concat_length]

/-- The cell a byte buffer push creates references no addresses. -/
theorem cellAddrs_pushBuf_new (H0 : Heap) (cell : ByteBuffer) :
    (H0.pushBuf cell).cellAddrs (Arena.bufs, H0.bufs.length) = [] := rfl

/-- Pushing a vector cell whose values' roots are fresh and in range
keeps the fresh region closed. -/
theorem freshClosed_pushVec {H H0 : Heap} {ys : List HValue}
    (hf : FreshClosed H H0)
    (hys : ∀ y ∈ ys, ∀ b ∈ y.rootAddrs, H.sizeAt b.1 ≤ b.2 ∧ b.2 < H0.sizeAt b.1) :
    FreshClosed H (H0.pushVec ys) := by
  intro a ha1 ha2 b hb
  by_cases hlt : a.2 < H0.sizeAt a.1
  · rw [heapExtends_cellAddrs (pushVec_extends H0 ys) a hlt] at hb
    obtain ⟨hbf, hbr⟩ := hf a ha1 hlt b hb
    exact ⟨hbf, lt_of_lt_of_le hbr (heapExtends_sizeAt_le (pushVec_extends H0 ys) b.1)⟩
  · obtain ⟨k, i⟩ := a
    cases k with
    | vecs =>
      have ha2' : i < H0.vecs.length + 1 := by
        simpa [Heap.pushVec, Heap.sizeAt] using ha2
      have hi : i = H0.vecs.length :=
        Nat.le_antisymm (Nat.lt_succ_iff.mp ha2') (Nat.le_of_not_lt hlt)
      subst hi
      rw [cellAddrs_pushVec_new H0 ys] at hb
      obtain ⟨y, hy, hb'⟩ := List.mem_flatMap.mp hb
      obtain ⟨hbf, hbr⟩ := hys y hy b hb'
      exact ⟨hbf, lt_of_lt_of_le hbr (heapExtends_sizeAt_le (pushVec_extends H0 ys) b.1)⟩
    | hashes => exact absurd ha2 hlt
    | objs => exact absurd ha2 hlt
    | bufs => exact absurd ha2 hlt
    | defs => exact absurd ha2 hlt

/-- Pushing a hash cell whose entries' roots are fresh and in range keeps
the fresh region closed. -/
theorem freshClosed_pushHash {H H0 : Heap} {kvs : List (HValue × HValue)}
    (hf : FreshClosed H H0)
    (hkvs : ∀ kv ∈ kvs, (∀ b ∈ (kv.1 : HValue).rootAddrs,
        H.sizeAt b.1 ≤ b.2 ∧ b.2 < H0.sizeAt b.1) ∧
      (∀ b ∈ (kv.2 : HValue).rootAddrs, H.sizeAt b.1 ≤ b.2 ∧ b.2 < H0.sizeAt b.1)) :
    FreshClosed H (H0.pushHash kvs) := by
  intro a ha1 ha2 b hb
  by_cases hlt : a.2 < H0.sizeAt a.1
  · rw [heapExtends_cellAddrs (pushHash_extends H0 kvs) a hlt] at hb
    obtain ⟨hbf, hbr⟩ := hf a ha1 hlt b hb
    exact ⟨hbf, lt_of_lt_of_le hbr (heapExtends_sizeAt_le (pushHash_extends H0 kvs) b.1)⟩
  · obtain ⟨k, i⟩ := a
    cases k with
    | hashes =>
      have ha2' : i < H0.hashes.length + 1 := by
        simpa [Heap.pushHash, Heap.sizeAt] using ha2
      have hi : i = H0.hashes.length :=
        Nat.le_antisymm (Nat.lt_succ_iff.mp ha2') (Nat.le_of_not_lt hlt)
      subst hi
      rw [cellAddrs_pushHash_new H0 kvs] at hb
      obtain ⟨y, hy, hb'⟩ := List.mem_flatMap.mp hb
      obtain ⟨kv, hkv, hy'⟩ := List.mem_flatMap.mp hy
      obtain ⟨hbf, hbr⟩ : H.sizeAt b.1 ≤ b.2 ∧ b.2 < H0.sizeAt b.1 := by
        simp only [List.mem_cons, List.mem_singleton] at hy'
        rcases hy' with h1 | h1 | h1
        · exact (hkvs kv hkv).1 b (h1 ▸ hb')
        · exact (hkvs kv hkv).2 b (h1 ▸ hb')
        · cases h1
      exact ⟨hbf, lt_of_lt_of_le hbr (heapExtends_sizeAt_le (pushHash_extends H0 kvs) b.1)⟩
    | vecs => exact absurd ha2 hlt
    | objs => exact absurd ha2 hlt
    | bufs => exact absurd ha2 hlt
    | defs => exact absurd ha2 hlt

/-- Pushing a byte buffer cell keeps the fresh region closed. -/
theorem freshClosed_pushBuf {H H0 : Heap} {cell : ByteBuffer}
    (hf : FreshClosed H H0) : FreshClosed H (H0.pushBuf cell) := by
  intro a ha1 ha2 b hb
  by_cases hlt : a.2 < H0.sizeAt a.1
  · rw [heapExtends_cellAddrs (pushBuf_extends H0 cell) a hlt] at hb
    obtain ⟨hbf, hbr⟩ := hf a ha1 hlt b hb
    exact ⟨hbf, lt_of_lt_of_le hbr (heapExtends_sizeAt_le (pushBuf_extends H0 cell) b.1)⟩
  · obtain ⟨k, i⟩ := a
    cases k with
    | bufs =>
      have ha2' : i < H0.bufs.length + 1 := by
        simpa [Heap.pushBuf, Heap.sizeAt] using ha2
      have hi : i = H0.bufs.length :=
        Nat.le_antisymm (Nat.lt_succ_iff.mp ha2') (Nat.le_of_not_lt hlt)
      subst hi
      rw [cellAddrs_pushBuf_new H0 cell] at hb
      cases hb
    | vecs => exact absurd ha2 hlt
    | hashes => exact absurd ha2 hlt
    | objs => exact absurd ha2 hlt
    | defs => exact absurd ha2 hlt

/-- A root of a stored value is referenced by the storing cell. -/
theorem mem_cellAddrs_of_root {H : Heap} {c : Addr} {x : HValue}
    (hx : x ∈ H.cellValues c) {b : Addr} (hb : b ∈ x.rootAddrs) :
    b ∈ H.cellAddrs c := by
  unfold Heap.cellAddrs
  exact List.mem_append_left _ (List.mem_flatMap.mpr ⟨x, hx, hb⟩)

/-- Reachability from a stored value factors through reachability from the
value storing it. -/
theorem reach_of_cellValue {H : Heap} {v : HValue} {c : Addr} {x : HValue}
    {a : Addr} (hrc : Reach H v c) (hx : x ∈ H.cellValues c)
    (h : Reach H x a) : Reach H v a := by
  induction h with
  | root hmem => exact .step hrc (mem_cellAddrs_of_root hx hmem)
  | step hr hmem ih => exact .step ih hmem

/-- In a well-formed heap the roots of any stored value are in range. -/
theorem child_roots_in_range {H : Heap} {c : Addr} {x : HValue}
    (hwf : H.WF) (hx : x ∈ H.cellValues c) :
    ∀ b ∈ x.rootAddrs, b.2 < H.sizeAt b.1 :=
  fun b hb => hwf c b (mem_cellAddrs_of_root hx hb)

/-- Clone safety passes to every value stored in a reachable cell. -/
theorem cloneSafe_of_cellValue {H : Heap} {v : HValue} {c : Addr} {x : HValue}
    (hsafe : CloneSafe H v) (hrc : Reach H v c) (hx : x ∈ H.cellValues c) :
    CloneSafe H x := by
  refine ⟨hsafe.2.1 c hrc x hx, ?_, ?_⟩
  · intro a hra y hy
    exact hsafe.2.1 a (reach_of_cellValue hrc hx hra) y hy
  · intro i hri cell hcell
    exact hsafe.2.2 i (reach_of_cellValue hrc hx hri) cell hcell

/-- Clone safety survives heap extension. -/
theorem cloneSafe_extends {H H2 : Heap} {x : HValue} (hx : H2.Extends H)
    (hwf : H.WF) (hroots : ∀ b ∈ x.rootAddrs, b.2 < H.sizeAt b.1)
    (hs : CloneSafe H x) : CloneSafe H2 x := by
  refine ⟨hs.1, ?_, ?_⟩
  · intro a hra y hy
    have hra' : Reach H x a := (reach_extends_iff hx hwf hroots a).mp hra
    have halt : a.2 < H.sizeAt a.1 := reach_lt_of_wf hwf hroots hra'
    rw [heapExtends_cellValues hx a halt] at hy
    exact hs.2.1 a hra' y hy
  · intro i hri cell hcell
    have hri' : Reach H x (Arena.hashes, i) :=
      (reach_extends_iff hx hwf hroots _).mp hri
    have hlt : i < H.hashes.length := reach_lt_of_wf hwf hroots hri'
    rw [heapExtends_hashes_get hx hlt] at hcell
    exact hs.2.2 i hri' cell hcell

/-- Every key of a well-formed hash cell is scalar and self-equal. -/
theorem pairwiseKeysOk_mem : ∀ {l : List (HValue × HValue)}, pairwiseKeysOk l →
    ∀ {kv : HValue × HValue}, kv ∈ l →
      (kv.1 : HValue).isScalar = true ∧ valueEq 1 Heap.empty kv.1 kv.1 = some true := by
  intro l
  induction l with
  | nil => intro _ kv hkv; cases hkv
  | cons p rest ih =>
    obtain ⟨k, v⟩ := p
    intro hp kv hkv
    obtain ⟨⟨hks, hkr, _⟩, hrest⟩ := hp
    rcases List.mem_cons.mp hkv with h | h
    · subst h; exact ⟨hks, hkr⟩
    · exact ih hrest h

/-- Looking up a key of a well-formed hash cell finds exactly the value
its own entry binds. -/
theorem hashGetWith_self {g : Nat} {H : Heap} :
    ∀ (pre suf : List (HValue × HValue)) (k v : HValue),
      pairwiseKeysOk (pre ++ (k, v) :: suf) →
      hashGetWith (valueEq (g + 1) H) (pre ++ (k, v) :: suf) k = some (some v) := by
  intro pre
  induction pre with
  | nil =>
    intro suf k v hp
    obtain ⟨⟨hks, hkr, _⟩, _⟩ := hp
    show hashGetWith (valueEq (g + 1) H) ((k, v) :: suf) k = some (some v)
    rw [hashGetWith, valueEq_scalar_stable hks hks, hkr]
    rfl
  | cons kv0 pre ih =>
    obtain ⟨k0, v0⟩ := kv0
    intro suf k v hp
    obtain ⟨⟨h0s, h0r, h0ne⟩, hrest⟩ := hp
    have hkmem : ((k, v) : HValue × HValue) ∈ pre ++ (k, v) :: suf := by simp
    have hne := (h0ne (k, v) hkmem).1
    have hks := (pairwiseKeysOk_mem hrest hkmem).1
    obtain ⟨r, hr⟩ := valueEq_scalar_total h0s hks
    have hrf : r = false := by
      cases r with
      | true => exact absurd hr hne
      | false => rfl
    subst hrf
    show hashGetWith (valueEq (g + 1) H) ((k0, v0) :: (pre ++ (k, v) :: suf)) k
      = some (some v)
    rw [hashGetWith, valueEq_scalar_stable h0s hks, hr]
    exact ih suf k v hrest

/-- An element on the left of a `Forall₂` has a related partner on the
right. -/
theorem forall₂_mem_left {α β : Type} {R : α → β → Prop} :
    ∀ {xs : List α} {ys : List β}, List.Forall₂ R xs ys →
      ∀ {p : α}, p ∈ xs → ∃ q ∈ ys, R p q := by
  intro xs ys h
  induction h with
  | nil => intro p hp; cases hp
  | cons hR hrest ih =>
    intro p hp
    rcases List.mem_cons.mp hp with h1 | h1
    · subst h1; exact ⟨_, List.mem_cons_self _ _, hR⟩
    · obtain ⟨q, hq, hRq⟩ := ih h1
      exact ⟨q, List.mem_cons_of_mem _ hq, hRq⟩

/-- Keys aligned entry-by-entry with a well-formed hash cell form a
well-formed hash cell themselves. -/
theorem pairwiseKeysOk_of_keys_aligned :
    ∀ {xs ys : List (HValue × HValue)},
      List.Forall₂ (fun p q => (p.1 : HValue) = q.1) xs ys →
      pairwiseKeysOk ys → pairwiseKeysOk xs := by
  intro xs ys h
  induction h with
  | nil => intro _; trivial
  | cons hR hrest ih =>
    rename_i p q xs' ys'
    intro hp
    obtain ⟨kq, vq⟩ := q
    obtain ⟨kp, vp⟩ := p
    obtain ⟨⟨hks, hkr, hkne⟩, hrest'⟩ := hp
    have hkey : kp = kq := hR
    subst hkey
    refine ⟨⟨hks, hkr, ?_⟩, ih hrest'⟩
    intro kv hkv
    obtain ⟨kv', hkv', hkey'⟩ := forall₂_mem_left hrest hkv
    have : (kv.1 : HValue) = kv'.1 := hkey'
    rw [this]
    exact hkne kv' hkv'

/-- Elements pairwise accepted by the comparison make the list comparison
succeed. -/
theorem listValueEqWith_of_forall₂ {eqv : HValue → HValue → Option Bool} :
    ∀ {xs ys : List HValue}, List.Forall₂ (fun x y => eqv x y = some true) xs ys →
      listValueEqWith eqv xs ys = some true := by
  intro xs ys h
  induction h with
  | nil => rfl
  | cons hR hrest ih =>
    rw [listValueEqWith, hR]
    exact ih

/-- Every entry of a list aligned with a well-formed hash cell is found by
key lookup in that cell, bound to its aligned partner's value. -/
theorem hashGetWith_aligned {g : Nat} {H : Heap}
    {R : HValue × HValue → HValue × HValue → Prop}
    (hRkey : ∀ p q, R p q → (p.1 : HValue) = q.1) :
    ∀ {xs ys : List (HValue × HValue)} (pre : List (HValue × HValue)),
      List.Forall₂ R xs ys → pairwiseKeysOk (pre ++ ys) →
      ∀ p ∈ xs, ∃ q, R p q ∧
        hashGetWith (valueEq (g + 1) H) (pre ++ ys) p.1 = some (some q.2) := by
  intro xs ys pre h
  induction h generalizing pre with
  | nil => intro _ p hp; cases hp
  | cons hR hrest ih =>
    rename_i x y xs' ys'
    intro hpair p hp
    rcases List.mem_cons.mp hp with h1 | h1
    · subst h1
      refine ⟨y, hR, ?_⟩
      have hkey : (p.1 : HValue) = y.1 := hRkey p y hR
      rw [hkey]
      have hpair' : pairwiseKeysOk (pre ++ (y.1, y.2) :: ys') := by
        rw [Prod.mk.eta]; exact hpair
      exact hashGetWith_self pre ys' y.1 y.2 hpair'
    · have hpair' : pairwiseKeysOk ((pre ++ [y]) ++ ys') := by
        rw [List.append_assoc, List.singleton_append]; exact hpair
      obtain ⟨q, hq, hget⟩ := ih (pre ++ [y]) hpair' p h1
      refine ⟨q, hq, ?_⟩
      rw [List.append_assoc, List.singleton_append] at hget
      exact hget

/-- A scalar value references no heap cells. -/
theorem scalar_rootAddrs {a : HValue} (ha : a.isScalar = true) :
    a.rootAddrs = [] := by
  cases a <;> first | rfl | exact Bool.noConfusion ha

/-- Unfolding of `deepClone` at a vector reference. -/
theorem deepClone_vec_eq (fuel : Nat) (H : Heap) (a : Nat) :
    deepClone (fuel + 1) H (.vec a) =
      match H.vecs[a]? with
      | some xs =>
        match cloneListWith (fun h x => deepClone fuel h x) H xs with
        | some (ys, H1) => some (.vec H1.vecs.length, H1.pushVec ys)
        | Option.none => Option.none
      | Option.none => Option.none := rfl

/-- Unfolding of `deepClone` at a hash map reference. -/
theorem deepClone_hash_eq (fuel : Nat) (H : Heap) (a : Nat) :
    deepClone (fuel + 1) H (.hashMap a) =
      match H.hashes[a]? with
      | some kvs =>
        match clonePairsWith (fun h x => deepClone fuel h x) H kvs with
        | some (kvs1, H1) => some (.hashMap H1.hashes.length, H1.pushHash kvs1)
        | Option.none => Option.none
      | Option.none => Option.none := rfl

/-- Unfolding of `deepClone` at a byte buffer reference. -/
theorem deepClone_buf_eq (fuel : Nat) (H : Heap) (a : Nat) :
    deepClone (fuel + 1) H (.byteBuffer a) =
      match H.bufs[a]? with
      | some b => some (.byteBuffer H.bufs.length,
          H.pushBuf ⟨b.buffer, b.currentPosition⟩)
      | Option.none => Option.none := rfl

/-- The `collect`ed element-wise clone loop: given the contract for one
`deep_clone` call, the loop extends the heap, keeps the fresh region
closed, allocates all clone roots freshly, and produces elements equal to
the originals in both orders. -/
theorem cloneListWith_spec {fuel : Nat}
    (IH : ∀ {H : Heap} {v v' : HValue} {H' : Heap}, H.WF →
      (∀ b ∈ v.rootAddrs, b.2 < H.sizeAt b.1) → CloneSafe H v →
      deepClone fuel H v = some (v', H') → DeepCloneOk fuel H v v' H')
    {Hbase : Heap} (hwfb : Hbase.WF) :
    ∀ (xs : List HValue) (H0 : Heap) (ys : List HValue) (H1 : Heap),
      H0.Extends Hbase → FreshClosed Hbase H0 →
      (∀ x ∈ xs, (∀ b ∈ x.rootAddrs, b.2 < Hbase.sizeAt b.1) ∧ CloneSafe Hbase x) →
      cloneListWith (fun h x => deepClone fuel h x) H0 xs = some (ys, H1) →
      H1.Extends H0 ∧ FreshClosed Hbase H1 ∧
      (∀ y ∈ ys, ∀ b ∈ y.rootAddrs, Hbase.sizeAt b.1 ≤ b.2 ∧ b.2 < H1.sizeAt b.1) ∧
      List.Forall₂ (fun y x => valueEq fuel H1 y x = some true ∧
        valueEq fuel H1 x y = some true) ys xs := by
  intro xs
  induction xs with
  | nil =>
    intro H0 ys H1 hx0 hf0 _ hcl
    have hp := Option.some.inj hcl
    have hys : ys = [] := (congrArg Prod.fst hp).symm
    subst hys
    have hH1 : H0 = H1 := congrArg Prod.snd hp
    subst hH1
    exact ⟨heapExtends_refl H0, hf0, fun y hy => absurd hy (List.not_mem_nil y),
      List.Forall₂.nil⟩
  | cons x xs ih =>
    intro H0 ys H1 hx0 hf0 hxs hcl
    cases hdx : deepClone fuel H0 x with
    | none => rw [cloneListWith, hdx] at hcl; exact Option.noConfusion hcl
    | some p =>
      obtain ⟨y, Hy⟩ := p
      rw [cloneListWith, hdx] at hcl
      have hcl2 : (match cloneListWith (fun h x => deepClone fuel h x) Hy xs with
        | some (zs, H2) => some (y :: zs, H2)
        | Option.none => Option.none) = some (ys, H1) := hcl
      cases hrest : cloneListWith (fun h x => deepClone fuel h x) Hy xs with
      | none => rw [hrest] at hcl2; exact Option.noConfusion hcl2
      | some q =>
        obtain ⟨ys', H1'⟩ := q
        rw [hrest] at hcl2
        have hp := Option.some.inj hcl2
        have hys : ys = y :: ys' := (congrArg Prod.fst hp).symm
        subst hys
        have hH1 : H1' = H1 := congrArg Prod.snd hp
        subst hH1
        have hwf0 : H0.WF := wf_of_extends hwfb hx0 hf0
        obtain ⟨hxr, hxs0⟩ := hxs x (List.mem_cons_self x xs)
        have hxr0 : ∀ b ∈ x.rootAddrs, b.2 < H0.sizeAt b.1 := fun b hb =>
          lt_of_lt_of_le (hxr b hb) (heapExtends_sizeAt_le hx0 b.1)
        have hsafe0 : CloneSafe H0 x := cloneSafe_extends hx0 hwfb hxr hxs0
        have hd := IH hwf0 hxr0 hsafe0 hdx
        unfold DeepCloneOk at hd
        obtain ⟨hxy, hyroots, hfy, heq1, heq2⟩ := hd
        have hfby : FreshClosed Hbase Hy := freshClosed_trans hx0 hxy hf0 hfy
        have hxby : Hy.Extends Hbase := heapExtends_trans hx0 hxy
        obtain ⟨hx1, hf1, hyroots1, hfa⟩ :=
          ih Hy ys' H1' hxby hfby (fun z hz => hxs z (List.mem_cons_of_mem x hz)) hrest
        refine ⟨heapExtends_trans hxy hx1, hf1, ?_, ?_⟩
        · intro z hz b hb
          rcases List.mem_cons.mp hz with h1 | h1
          · subst h1
            obtain ⟨hbf, hbr⟩ := hyroots b hb
            exact ⟨le_trans (le_trans (heapExtends_sizeAt_le hx0 b.1)
                (Nat.le_refl _)) (le_trans (Nat.le_refl _) hbf),
              lt_of_lt_of_le hbr (heapExtends_sizeAt_le hx1 b.1)⟩
          · exact hyroots1 z h1 b hb
        · exact List.Forall₂.cons
            ⟨valueEq_frame fuel hx1 y x true heq1, valueEq_frame fuel hx1 x y true heq2⟩
            hfa

/-- The entry-wise clone loop of `ValueHash::deep_clone`: scalar keys copy
to themselves, values clone under the one-call contract, and each output
entry aligns with its input entry. -/
theorem clonePairsWith_spec {fuel : Nat}
    (IH : ∀ {H : Heap} {v v' : HValue} {H' : Heap}, H.WF →
      (∀ b ∈ v.rootAddrs, b.2 < H.sizeAt b.1) → CloneSafe H v →
      deepClone fuel H v = some (v', H') → DeepCloneOk fuel H v v' H')
    {Hbase : Heap} (hwfb : Hbase.WF) :
    ∀ (kvs : List (HValue × HValue)) (H0 : Heap)
      (kvs1 : List (HValue × HValue)) (H1 : Heap),
      H0.Extends Hbase → FreshClosed Hbase H0 →
      (∀ kv ∈ kvs, (kv.1 : HValue).isScalar = true ∧
        (∀ b ∈ (kv.2 : HValue).rootAddrs, b.2 < Hbase.sizeAt b.1) ∧
        CloneSafe Hbase kv.2) →
      clonePairsWith (fun h x => deepClone fuel h x) H0 kvs = some (kvs1, H1) →
      H1.Extends H0 ∧ FreshClosed Hbase H1 ∧
      (∀ kv ∈ kvs1, ∀ b ∈ (kv.2 : HValue).rootAddrs,
        Hbase.sizeAt b.1 ≤ b.2 ∧ b.2 < H1.sizeAt b.1) ∧
      List.Forall₂ (fun p q => (p.1 : HValue) = q.1 ∧
        valueEq fuel H1 p.2 q.2 = some true ∧
        valueEq fuel H1 q.2 p.2 = some true) kvs1 kvs := by
  intro kvs
  induction kvs with
  | nil =>
    intro H0 kvs1 H1 hx0 hf0 _ hcl
    have hp := Option.some.inj hcl
    have hks : kvs1 = [] := (congrArg Prod.fst hp).symm
    subst hks
    have hH1 : H0 = H1 := congrArg Prod.snd hp
    subst hH1
    exact ⟨heapExtends_refl H0, hf0, fun kv hkv => absurd hkv (List.not_mem_nil kv),
      List.Forall₂.nil⟩
  | cons kv rest ih =>
    obtain ⟨k, v⟩ := kv
    intro H0 kvs1 H1 hx0 hf0 hkvs hcl
    obtain ⟨hks, hvr, hvs⟩ := hkvs (k, v) (List.mem_cons_self _ _)
    cases hdk : deepClone fuel H0 k with
    | none => rw [clonePairsWith, hdk] at hcl; exact Option.noConfusion hcl
    | some pk =>
      have hpk : pk = (k, H0) := deepClone_scalar_eq hks hdk
      subst hpk
      rw [clonePairsWith, hdk] at hcl
      have hcl2 : (match deepClone fuel H0 v with
        | some (v1, H2) =>
          match clonePairsWith (fun h x => deepClone fuel h x) H2 rest with
          | some (rest1, H3) => some ((k, v1) :: rest1, H3)
          | Option.none => Option.none
        | Option.none => Option.none) = some (kvs1, H1) := hcl
      cases hdv : deepClone fuel H0 v with
      | none => rw [hdv] at hcl2; exact Option.noConfusion hcl2
      | some pv =>
        obtain ⟨v1, Hv⟩ := pv
        rw [hdv] at hcl2
        have hcl3 : (match clonePairsWith (fun h x => deepClone fuel h x) Hv rest with
          | some (rest1, H3) => some ((k, v1) :: rest1, H3)
          | Option.none => Option.none) = some (kvs1, H1) := hcl2
        cases hrest : clonePairsWith (fun h x => deepClone fuel h x) Hv rest with
        | none => rw [hrest] at hcl3; exact Option.noConfusion hcl3
        | some q =>
          obtain ⟨rest1, H1'⟩ := q
          rw [hrest] at hcl3
          have hp := Option.some.inj hcl3
          have hks1 : kvs1 = (k, v1) :: rest1 := (congrArg Prod.fst hp).symm
          subst hks1
          have hH1 : H1' = H1 := congrArg Prod.snd hp
          subst hH1
          have hwf0 : H0.WF := wf_of_extends hwfb hx0 hf0
          have hvr0 : ∀ b ∈ v.rootAddrs, b.2 < H0.sizeAt b.1 := fun b hb =>
            lt_of_lt_of_le (hvr b hb) (heapExtends_sizeAt_le hx0 b.1)
          have hsafe0 : CloneSafe H0 v := cloneSafe_extends hx0 hwfb hvr hvs
          have hd := IH hwf0 hvr0 hsafe0 hdv
          unfold DeepCloneOk at hd
          obtain ⟨hxv, hv1roots, hfv, heq1, heq2⟩ := hd
          have hfbv : FreshClosed Hbase Hv := freshClosed_trans hx0 hxv hf0 hfv
          have hxbv : Hv.Extends Hbase := heapExtends_trans hx0 hxv
          obtain ⟨hx1, hf1, hroots1, hfa⟩ :=
            ih Hv rest1 H1' hxbv hfbv
              (fun z hz => hkvs z (List.mem_cons_of_mem _ hz)) hrest
          refine ⟨heapExtends_trans hxv hx1, hf1, ?_, ?_⟩
          · intro z hz b hb
            rcases List.mem_cons.mp hz with h1 | h1
            · subst h1
              obtain ⟨hbf, hbr⟩ := hv1roots b hb
              exact ⟨le_trans (heapExtends_sizeAt_le hx0 b.1) hbf,
                lt_of_lt_of_le hbr (heapExtends_sizeAt_le hx1 b.1)⟩
            · exact hroots1 z h1 b hb
          · exact List.Forall₂.cons
              ⟨rfl, valueEq_frame fuel hx1 v1 v true heq1,
                valueEq_frame fuel hx1 v v1 true heq2⟩
              hfa

/-- Transposing a `Forall₂` while weakening its relation. -/
theorem forall₂_swap {α β : Type} {R : α → β → Prop} {S : β → α → Prop}
    (h : ∀ a b, R a b → S b a) :
    ∀ {xs : List α} {ys : List β}, List.Forall₂ R xs ys → List.Forall₂ S ys xs := by
  intro xs ys hf
  induction hf with
  | nil => exact .nil
  | cons hR _ ih => exact .cons (h _ _ hR) ih

/-- The `deep_clone` contract: under clone safety, a successful clone
extends the heap by a closed fresh region holding the clone and compares
equal to the original in both orders. -/
theorem deepClone_spec : ∀ (fuel : Nat) {H : Heap} {v v' : HValue} {H' : Heap},
    H.WF → (∀ b ∈ v.rootAddrs, b.2 < H.sizeAt b.1) → CloneSafe H v →
    deepClone fuel H v = some (v', H') → DeepCloneOk fuel H v v' H' := by
  intro fuel
  induction fuel with
  | zero => intro H v v' H' _ _ _ h; exact Option.noConfusion h
  | succ fuel ih =>
    intro H v v' H' hwf hroots hsafe hclone
    have scalarCase : v.isScalar = true → DeepCloneOk (fuel + 1) H v v' H' := by
      intro hs
      have hp := deepClone_scalar_eq hs hclone
      have hv' : v' = v := congrArg Prod.fst hp
      subst hv'
      have hH' : H' = H := congrArg Prod.snd hp
      subst hH'
      unfold DeepCloneOk
      refine ⟨heapExtends_refl _, ?_, freshClosed_refl _, ?_, ?_⟩
      · intro b hb; rw [scalar_rootAddrs hs] at hb; cases hb
      · exact valueEq_scalar_refl hs hsafe.1.2 fuel _
      · exact valueEq_scalar_refl hs hsafe.1.2 fuel _
    unfold DeepCloneOk
    cases v with
    | none => exact scalarCase rfl
    | int i => exact scalarCase rfl
    | float f => exact scalarCase rfl
    | bool b => exact scalarCase rfl
    | str s => exact scalarCase rfl
    | token t => exact scalarCase rfl
    | dataObject a => exact Bool.noConfusion hsafe.1.1
    | code c => exact Bool.noConfusion hsafe.1.1
    | vec a =>
      have hamem : ((Arena.vecs, a) : Addr) ∈ (HValue.vec a).rootAddrs := by
        simp [HValue.rootAddrs]
      have ha : a < H.vecs.length := hroots (Arena.vecs, a) hamem
      rw [deepClone_vec_eq] at hclone
      cases hxs : H.vecs[a]? with
      | none => rw [hxs] at hclone; exact Option.noConfusion hclone
      | some xs =>
        rw [hxs] at hclone
        have hclone2 : (match cloneListWith (fun h x => deepClone fuel h x) H xs with
          | some (ys, H1) => some (HValue.vec H1.vecs.length, H1.pushVec ys)
          | Option.none => Option.none) = some (v', H') := hclone
        cases hcl : cloneListWith (fun h x => deepClone fuel h x) H xs with
        | none => rw [hcl] at hclone2; exact Option.noConfusion hclone2
        | some q =>
          obtain ⟨ys, H1⟩ := q
          rw [hcl] at hclone2
          have hp := Option.some.inj hclone2
          have hv' : v' = .vec H1.vecs.length := (congrArg Prod.fst hp).symm
          subst hv'
          have hH' : H1.pushVec ys = H' := congrArg Prod.snd hp
          subst hH'
          have hreach : Reach H (.vec a) (Arena.vecs, a) := .root hamem
          have hcv : ∀ x ∈ xs, x ∈ H.cellValues (Arena.vecs, a) := by
            intro x hx
            simp only [Heap.cellValues, hxs, Option.getD_some]
            exact hx
          have hchild : ∀ x ∈ xs,
              (∀ b ∈ x.rootAddrs, b.2 < H.sizeAt b.1) ∧ CloneSafe H x :=
            fun x hx => ⟨child_roots_in_range hwf (hcv x hx),
              cloneSafe_of_cellValue hsafe hreach (hcv x hx)⟩
          obtain ⟨hx1, hf1, hyroots, hfa⟩ :=
            cloneListWith_spec ih hwf xs H ys H1 (heapExtends_refl H)
              (freshClosed_refl H) hchild hcl
          have hx2 : (H1.pushVec ys).Extends H1 := pushVec_extends H1 ys
          have hxH2 : (H1.pushVec ys).Extends H := heapExtends_trans hx1 hx2
          have hlen : ys.length = xs.length := hfa.length_eq
          have h1 : (H1.pushVec ys).vecs[H1.vecs.length]? = some ys :=
            getElem?_concat_length H1.vecs ys
          have h2 : (H1.pushVec ys).vecs[a]? = some xs := by
            rw [heapExtends_vecs_get hxH2 ha]; exact hxs
          refine ⟨hxH2, ?_, freshClosed_pushVec hf1 hyroots, ?_, ?_⟩
          · intro b hb
            have hb' : b = (Arena.vecs, H1.vecs.length) := by
              simpa [HValue.rootAddrs] using hb
            subst hb'
            exact ⟨heapExtends_sizeAt_le hx1 Arena.vecs,
              by simp [Heap.pushVec, Heap.sizeAt]⟩
          · rw [valueEq_vec_eq, h1, h2]
            show (if ys.length = xs.length
              then listValueEqWith (valueEq fuel (H1.pushVec ys)) ys xs
              else some false) = some true
            rw [if_pos hlen]
            exact listValueEqWith_of_forall₂
              (hfa.imp fun y x hpq => valueEq_frame fuel hx2 y x true hpq.1)
          · rw [valueEq_vec_eq, h2, h1]
            show (if xs.length = ys.length
              then listValueEqWith (valueEq fuel (H1.pushVec ys)) xs ys
              else some false) = some true
            rw [if_pos hlen.symm]
            exact listValueEqWith_of_forall₂
              (forall₂_swap (fun y x hpq => valueEq_frame fuel hx2 x y true hpq.2) hfa)
    | hashMap a =>
      have hamem : ((Arena.hashes, a) : Addr) ∈ (HValue.hashMap a).rootAddrs := by
        simp [HValue.rootAddrs]
      have ha : a < H.hashes.length := hroots (Arena.hashes, a) hamem
      rw [deepClone_hash_eq] at hclone
      cases hxs : H.hashes[a]? with
      | none => rw [hxs] at hclone; exact Option.noConfusion hclone
      | some kvs =>
        rw [hxs] at hclone
        have hclone2 : (match clonePairsWith (fun h x => deepClone fuel h x) H kvs with
          | some (kvs1, H1) => some (HValue.hashMap H1.hashes.length, H1.pushHash kvs1)
          | Option.none => Option.none) = some (v', H') := hclone
        cases hcl : clonePairsWith (fun h x => deepClone fuel h x) H kvs with
        | none => rw [hcl] at hclone2; exact Option.noConfusion hclone2
        | some q =>
          obtain ⟨kvs1, H1⟩ := q
          rw [hcl] at hclone2
          have hp := Option.some.inj hclone2
          have hv' : v' = .hashMap H1.hashes.length := (congrArg Prod.fst hp).symm
          subst hv'
          have hH' : H1.pushHash kvs1 = H' := congrArg Prod.snd hp
          subst hH'
          have hreach : Reach H (.hashMap a) (Arena.hashes, a) := .root hamem
          have hpair : pairwiseKeysOk kvs := hsafe.2.2 a hreach kvs hxs
          have hcvv : ∀ kv ∈ kvs, (kv.2 : HValue) ∈ H.cellValues (Arena.hashes, a) := by
            intro kv hkv
            simp only [Heap.cellValues, hxs, Option.getD_some]
            exact List.mem_flatMap.mpr ⟨kv, hkv, by simp⟩
          have hentry : ∀ kv ∈ kvs, (kv.1 : HValue).isScalar = true ∧
              (∀ b ∈ (kv.2 : HValue).rootAddrs, b.2 < H.sizeAt b.1) ∧
              CloneSafe H kv.2 := by
            intro kv hkv
            exact ⟨(pairwiseKeysOk_mem hpair hkv).1,
              child_roots_in_range hwf (hcvv kv hkv),
              cloneSafe_of_cellValue hsafe hreach (hcvv kv hkv)⟩
          obtain ⟨hx1, hf1, hvroots, hfa⟩ :=
            clonePairsWith_spec ih hwf kvs H kvs1 H1 (heapExtends_refl H)
              (freshClosed_refl H) hentry hcl
          have hx2 : (H1.pushHash kvs1).Extends H1 := pushHash_extends H1 kvs1
          have hxH2 : (H1.pushHash kvs1).Extends H := heapExtends_trans hx1 hx2
          have hkeys : List.Forall₂ (fun p q => (p.1 : HValue) = q.1) kvs1 kvs :=
            hfa.imp (fun p q hpq => hpq.1)
          have hscalar1 : ∀ kv ∈ kvs1, (kv.1 : HValue).isScalar = true := by
            intro kv hkv
            obtain ⟨q, hq, hkey⟩ := forall₂_mem_left hkeys hkv
            rw [hkey]
            exact (hentry q hq).1
          have hkv1roots : ∀ kv ∈ kvs1,
              (∀ b ∈ (kv.1 : HValue).rootAddrs,
                H.sizeAt b.1 ≤ b.2 ∧ b.2 < H1.sizeAt b.1) ∧
              (∀ b ∈ (kv.2 : HValue).rootAddrs,
                H.sizeAt b.1 ≤ b.2 ∧ b.2 < H1.sizeAt b.1) := by
            intro kv hkv
            refine ⟨?_, hvroots kv hkv⟩
            intro b hb
            rw [scalar_rootAddrs (hscalar1 kv hkv)] at hb
            cases hb
          have h1 : (H1.pushHash kvs1).hashes[H1.hashes.length]? = some kvs1 :=
            getElem?_concat_length H1.hashes kvs1
          have h2 : (H1.pushHash kvs1).hashes[a]? = some kvs := by
            rw [heapExtends_hashes_get hxH2 ha]; exact hxs
          refine ⟨hxH2, ?_, freshClosed_pushHash hf1 hkv1roots, ?_, ?_⟩
          · intro b hb
            have hb' : b = (Arena.hashes, H1.hashes.length) := by
              simpa [HValue.rootAddrs] using hb
            subst hb'
            exact ⟨heapExtends_sizeAt_le hx1 Arena.hashes,
              by simp [Heap.pushHash, Heap.sizeAt]⟩
          · rw [valueEq_hash_eq, h1, h2]
            show hashSubsetEqWith (valueEq fuel (H1.pushHash kvs1)) kvs1 kvs = some true
            cases kvs with
            | nil => cases hfa; rfl
            | cons kv0 rest0 =>
              cases fuel with
              | zero =>
                exfalso
                obtain ⟨k0, v0⟩ := kv0
                simp [clonePairsWith, deepClone] at hcl
              | succ g =>
                rw [hashSubsetEqWith_eq_true_iff]
                intro p hp
                have hfa2 : List.Forall₂ (fun p q => (p.1 : HValue) = q.1 ∧
                    valueEq (g + 1) (H1.pushHash kvs1) p.2 q.2 = some true ∧
                    valueEq (g + 1) (H1.pushHash kvs1) q.2 p.2 = some true)
                    kvs1 (kv0 :: rest0) :=
                  hfa.imp (fun p q hpq => ⟨hpq.1,
                    valueEq_frame (g + 1) hx2 p.2 q.2 true hpq.2.1,
                    valueEq_frame (g + 1) hx2 q.2 p.2 true hpq.2.2⟩)
                obtain ⟨q, hRq, hget⟩ :=
                  hashGetWith_aligned (fun p q h => h.1) [] hfa2 hpair p hp
                exact ⟨q.2, hget, hRq.2.2⟩
          · rw [valueEq_hash_eq, h2, h1]
            show hashSubsetEqWith (valueEq fuel (H1.pushHash kvs1)) kvs kvs1 = some true
            cases kvs with
            | nil => cases hfa; rfl
            | cons kv0 rest0 =>
              cases fuel with
              | zero =>
                exfalso
                obtain ⟨k0, v0⟩ := kv0
                simp [clonePairsWith, deepClone] at hcl
              | succ g =>
                rw [hashSubsetEqWith_eq_true_iff]
                intro p hp
                have hpair1 : pairwiseKeysOk kvs1 :=
                  pairwiseKeysOk_of_keys_aligned hkeys hpair
                have hflip : List.Forall₂ (fun p q => (p.1 : HValue) = q.1 ∧
                    valueEq (g + 1) (H1.pushHash kvs1) q.2 p.2 = some true)
                    (kv0 :: rest0) kvs1 :=
                  forall₂_swap (fun p q hpq => ⟨hpq.1.symm,
                    valueEq_frame (g + 1) hx2 p.2 q.2 true hpq.2.1⟩) hfa
                obtain ⟨q, hRq, hget⟩ :=
                  hashGetWith_aligned (fun p q h => h.1) [] hflip hpair1 p hp
                exact ⟨q.2, hget, hRq.2⟩
    | byteBuffer a =>
      have hamem : ((Arena.bufs, a) : Addr) ∈ (HValue.byteBuffer a).rootAddrs := by
        simp [HValue.rootAddrs]
      have ha : a < H.bufs.length := hroots (Arena.bufs, a) hamem
      rw [deepClone_buf_eq] at hclone
      cases hbb : H.bufs[a]? with
      | none => rw [hbb] at hclone; exact Option.noConfusion hclone
      | some b =>
        rw [hbb] at hclone
        have hp := Option.some.inj hclone
        have hv' : v' = .byteBuffer H.bufs.length := (congrArg Prod.fst hp).symm
        subst hv'
        have hH' : H.pushBuf ⟨b.buffer, b.currentPosition⟩ = H' := congrArg Prod.snd hp
        subst hH'
        have hx2 : (H.pushBuf ⟨b.buffer, b.currentPosition⟩).Extends H :=
          pushBuf_extends H _
        have h1 : (H.pushBuf ⟨b.buffer, b.currentPosition⟩).bufs[H.bufs.length]? =
            some ⟨b.buffer, b.currentPosition⟩ := getElem?_concat_length H.bufs _
        have h2 : (H.pushBuf ⟨b.buffer, b.currentPosition⟩).bufs[a]? = some b := by
          rw [heapExtends_bufs_get hx2 ha]; exact hbb
        refine ⟨hx2, ?_, freshClosed_pushBuf (freshClosed_refl H), ?_, ?_⟩
        · intro c hc
          have hc' : c = (Arena.bufs, H.bufs.length) := by
            simpa [HValue.rootAddrs] using hc
          subst hc'
          exact ⟨Nat.le_refl _, by simp [Heap.pushBuf, Heap.sizeAt]⟩
        · rw [valueEq_buf_eq, h1, h2]
          show some ((b.buffer == b.buffer) && (b.currentPosition == b.currentPosition))
            = some true
          simp
        · rw [valueEq_buf_eq, h2, h1]
          show some ((b.buffer == b.buffer) && (b.currentPosition == b.currentPosition))
            = some true
          simp

/-- Setting a list index leaves every other index unchanged. -/
theorem getElem?_set_ne_aux {α : Type} : ∀ (l : List α) (i j : Nat) (x : α), j ≠ i →
    (l.set i x)[j]? = l[j]? := by
  intro l
  induction l with
  | nil => intro i j x h; simp
  | cons a l ih =>
    intro i j x h
    cases i with
    | zero =>
      cases j with
      | zero => exact absurd rfl h
      | succ j => simp [List.set]
    | succ i =>
      cases j with
      | zero => simp [List.set]
      | succ j =>
        simp only [List.set, List.getElem?_cons_succ]
        exact ih i j x (fun he => h (by rw [he]))

/-- A cell update does not change any arena's size. -/
theorem applyUpdate_sizeAt (H : Heap) (u : CellUpdate) (k : Arena) :
    (H.applyUpdate u).sizeAt k = H.sizeAt k := by
  cases u <;> cases k <;> simp [Heap.applyUpdate, Heap.sizeAt]

/-- A cell update leaves the values of every other cell unchanged. -/
theorem applyUpdate_cellValues_ne {H : Heap} {u : CellUpdate} {a : Addr}
    (h : a ≠ u.addr) : (H.applyUpdate u).cellValues a = H.cellValues a := by
  obtain ⟨k, i⟩ := a
  cases u with
  | vec j cell =>
    cases k with
    | vecs =>
      have hij : i ≠ j := fun he => h (by rw [he]; rfl)
      simp only [Heap.applyUpdate, Heap.cellValues]
      rw [getElem?_set_ne_aux H.vecs j i cell hij]
    | hashes => rfl
    | objs => rfl
    | bufs => rfl
    | defs => rfl
  | hash j cell =>
    cases k with
    | hashes =>
      have hij : i ≠ j := fun he => h (by rw [he]; rfl)
      simp only [Heap.applyUpdate, Heap.cellValues]
      rw [getElem?_set_ne_aux H.hashes j i cell hij]
    | vecs => rfl
    | objs => rfl
    | bufs => rfl
    | defs => rfl
  | obj j cell =>
    cases k with
    | objs =>
      have hij : i ≠ j := fun he => h (by rw [he]; rfl)
      simp only [Heap.applyUpdate, Heap.cellValues]
      rw [getElem?_set_ne_aux H.objs j i cell hij]
    | vecs => rfl
    | hashes => rfl
    | bufs => rfl
    | defs => rfl
  | buf j cell =>
    cases k with
    | bufs => rfl
    | vecs => rfl
    | hashes => rfl
    | objs => rfl
    | defs => rfl

/-- A cell update leaves the referenced addresses of every other cell
unchanged. -/
theorem applyUpdate_cellAddrs_ne {H : Heap} {u : CellUpdate} {a : Addr}
    (h : a ≠ u.addr) : (H.applyUpdate u).cellAddrs a = H.cellAddrs a := by
  unfold Heap.cellAddrs
  rw [applyUpdate_cellValues_ne h]
  obtain ⟨k, i⟩ := a
  cases k with
  | objs =>
    cases u with
    | obj j cell =>
      have hij : i ≠ j := fun he => h (by rw [he]; rfl)
      have hobj : (H.applyUpdate (CellUpdate.obj j cell)).objs[i]? = H.objs[i]? := by
        simp only [Heap.applyUpdate]
        exact getElem?_set_ne_aux H.objs j i cell hij
      change ((H.cellValues (Arena.objs, i)).flatMap HValue.rootAddrs ++
          match (H.applyUpdate (CellUpdate.obj j cell)).objs[i]? with
          | some o => [(Arena.defs, o.definitionPtr)]
          | none => []) =
        ((H.cellValues (Arena.objs, i)).flatMap HValue.rootAddrs ++
          match H.objs[i]? with
          | some o => [(Arena.defs, o.definitionPtr)]
          | none => [])
      rw [hobj]
    | vec j cell => rfl
    | hash j cell => rfl
    | buf j cell => rfl
  | vecs => rfl
  | hashes => rfl
  | bufs => rfl
  | defs => rfl

/-- Updating a cell no value of `w` reaches does not change what `w`
reaches. -/
theorem reach_applyUpdate_iff {H : Heap} {w : HValue} {u : CellUpdate}
    (hnr : ¬ Reach H w u.addr) (a : Addr) :
    Reach (H.applyUpdate u) w a ↔ Reach H w a := by
  constructor
  · intro h
    induction h with
    | root hmem => exact .root hmem
    | step hr hmem ih =>
      have hne : _ ≠ u.addr := fun he => hnr (he ▸ ih)
      exact .step ih (by rwa [applyUpdate_cellAddrs_ne hne] at hmem)
  · intro h
    induction h with
    | root hmem => exact .root hmem
    | step hr hmem ih =>
      have hne : _ ≠ u.addr := fun he => hnr (he ▸ hr)
      refine .step ih ?_
      rw [applyUpdate_cellAddrs_ne hne]
      exact hmem

/-- Every address reachable from a value rooted in the fresh region of a
closed extension stays in the fresh region. -/
theorem reach_fresh {H H' : Heap} {v' : HValue}
    (hroots : ∀ b ∈ v'.rootAddrs, H.sizeAt b.1 ≤ b.2 ∧ b.2 < H'.sizeAt b.1)
    (hf : FreshClosed H H') {a : Addr} (h : Reach H' v' a) :
    H.sizeAt a.1 ≤ a.2 ∧ a.2 < H'.sizeAt a.1 := by
  induction h with
  | root hmem => exact hroots _ hmem
  | step hr hmem ih => exact hf _ ih.1 ih.2 _ hmem

/-- **C4** (corrected).  For a clone-safe value — one whose reachable
graph contains no `Code` or `DataObject` part, no NaN float or number
token, and only well-formed hash keys — a successful `deep_clone` yields
a value equal to the original under the coercing value equality (in both
argument orders), whose transitive reference graph is disjoint from the
original's; consequently mutating any cell reachable from the clone
leaves every cell reachable from the original (and its reachable set)
unchanged, and vice versa. -/
theorem deep_clone_equal_and_disjoint (fuel : Nat) (H : Heap) (v v' : HValue)
    (H' : Heap) (hwf : H.WF)
    (hroots : ∀ b ∈ v.rootAddrs, b.2 < H.sizeAt b.1)
    (hsafe : CloneSafe H v)
    (hclone : deepClone fuel H v = some (v', H')) :
    valueEq fuel H' v' v = some true ∧ valueEq fuel H' v v' = some true ∧
    (∀ a, Reach H' v' a → ¬ Reach H' v a) ∧
    (∀ u : CellUpdate, Reach H' v' u.addr → ∀ a, Reach H' v a →
      (H'.applyUpdate u).cellValues a = H'.cellValues a ∧
      (Reach (H'.applyUpdate u) v a ↔ Reach H' v a)) ∧
    (∀ u : CellUpdate, Reach H' v u.addr → ∀ a, Reach H' v' a →
      (H'.applyUpdate u).cellValues a = H'.cellValues a ∧
      (Reach (H'.applyUpdate u) v' a ↔ Reach H' v' a)) := by
  have hd := deepClone_spec fuel hwf hroots hsafe hclone
  unfold DeepCloneOk at hd
  obtain ⟨hx, hroots', hf, heq1, heq2⟩ := hd
  have holdv : ∀ a, Reach H' v a → a.2 < H.sizeAt a.1 := fun a h =>
    reach_lt_of_wf hwf hroots ((reach_extends_iff hx hwf hroots a).mp h)
  have hdisj : ∀ a, Reach H' v' a → ¬ Reach H' v a := by
    intro a h1 h2
    exact Nat.not_lt_of_le (reach_fresh hroots' hf h1).1 (holdv a h2)
  refine ⟨heq1, heq2, hdisj, ?_, ?_⟩
  · intro u hu a ha
    have hnr : ¬ Reach H' v u.addr := hdisj u.addr hu
    exact ⟨applyUpdate_cellValues_ne (fun he => hnr (he ▸ ha)),
      reach_applyUpdate_iff hnr a⟩
  · intro u hu a ha
    have hnr : ¬ Reach H' v' u.addr := fun h2 => hdisj u.addr h2 hu
    exact ⟨applyUpdate_cellValues_ne (fun he => hnr (he ▸ ha)),
      reach_applyUpdate_iff hnr a⟩

/-- **C4**: the original unconditional claim fails.  A NaN float
deep-clones to itself but is unequal to itself under the coercing
equality (`NaN != NaN`); and a `Code` value is cloned shallowly
(`value.clone()` on the instruction list), so the clone is the very same
value and reaches the very same vector cell, making the two reference
graphs share an address instead of being disjoint. -/
theorem deep_clone_counterexample :
    (deepClone 1 Heap.empty (.float .nan) = some (.float .nan, Heap.empty) ∧
      valueEq 1 Heap.empty (.float .nan) (.float .nan) = some false) ∧
    (deepClone 1 codeShareHeap codeShareVal = some (codeShareVal, codeShareHeap) ∧
      Reach codeShareHeap codeShareVal (Arena.vecs, 0)) := by
  refine ⟨⟨rfl, rfl⟩, ⟨rfl, ?_⟩⟩
  refine Reach.root ?_
  show (Arena.vecs, 0) ∈ codeShareVal.rootAddrs
  simp [codeShareVal, HValue.rootAddrs, instrListRootAddrs]

/-- Closed instance of the corrected deep-clone claim: cloning the vector
value `Vec 0` over a one-cell heap allocates cell 1 and the clone
compares equal to the original. -/
theorem deep_clone_equal_and_disjoint_witness :
    deepClone 2 cloneWitnessHeap (.vec 0) =
      some (.vec 1, cloneWitnessHeap.pushVec [.int 1]) ∧
    valueEq 2 (cloneWitnessHeap.pushVec [.int 1]) (.vec 1) (.vec 0) = some true := by
  constructor
  · rfl
  · refine (deep_clone_equal_and_disjoint 2 cloneWitnessHeap (.vec 0) (.vec 1)
      (cloneWitnessHeap.pushVec [.int 1]) ?_ ?_ ?_ rfl).1
    · intro a b hb
      obtain ⟨k, i⟩ := a
      cases k with
      | vecs =>
        cases i with
        | zero =>
          simp [Heap.cellAddrs, Heap.cellValues, cloneWitnessHeap,
            HValue.rootAddrs] at hb
        | succ n => simp [Heap.cellAddrs, Heap.cellValues, cloneWitnessHeap] at hb
      | hashes => simp [Heap.cellAddrs, Heap.cellValues, cloneWitnessHeap] at hb
      | objs => simp [Heap.cellAddrs, Heap.cellValues, cloneWitnessHeap] at hb
      | bufs => simp [Heap.cellAddrs, Heap.cellValues, cloneWitnessHeap] at hb
      | defs => simp [Heap.cellAddrs, Heap.cellValues, cloneWitnessHeap] at hb
    · intro b hb
      simp only [HValue.rootAddrs, List.mem_singleton] at hb
      subst hb
      show (0 : Nat) < cloneWitnessHeap.sizeAt Arena.vecs
      decide
    · refine ⟨⟨rfl, rfl⟩, ?_, ?_⟩
      · intro a _ x hx
        obtain ⟨k, i⟩ := a
        cases k with
        | vecs =>
          cases i with
          | zero =>
            simp [Heap.cellValues, cloneWitnessHeap] at hx
            subst hx
            exact ⟨rfl, rfl⟩
          | succ n => simp [Heap.cellValues, cloneWitnessHeap] at hx
        | hashes => simp [Heap.cellValues, cloneWitnessHeap] at hx
        | objs => simp [Heap.cellValues, cloneWitnessHeap] at hx
        | bufs => simp [Heap.cellValues, cloneWitnessHeap] at hx
        | defs => simp [Heap.cellValues, cloneWitnessHeap] at hx
      · intro i _ cell hcell
        simp [cloneWitnessHeap] at hcell

/-- **C1**: the claimed behaviour fails in the code.  Executing the
balanced block `MarkContext; DefVariable "x"; ReleaseContext` from the
initial state succeeds without any error, yet afterwards the dictionary
still resolves `x` and both the dictionary and the variable list still
hold the extra context frame: the `ReleaseContext` arm of `execute_code`
only decrements the invocation's context counter and never calls
`release_context()`, so the frames pushed by `MarkContext` survive the
(balanced) block and its definitions stay reachable. -/
theorem release_context_leaves_definitions_reachable :
    ∃ s2, execute_code 1 4 "c1" c1Code initialExecState = ExecOutcome.ok s2 ∧
      (s2.dictionary.tryGet "x").isSome = true ∧
      s2.dictionary.stack.length = 2 ∧
      s2.variableList.listStack.length = 2 := by
  refine ⟨_, rfl, rfl, rfl, rfl⟩

/-- **C2**.  When the instruction at the program counter yields a script
error, one loop step of `execute_code` behaves as specified: with a
non-empty catch stack exactly the newest catch index is popped, the
error's display string is pushed onto the data stack, and execution
resumes at that index (`pc := index - 1` before the unconditional
increment); with an empty catch stack, the pushed call frame (when one
was pushed) is popped, the contexts still open are released without
surfacing a new error, and the original error is returned. -/
theorem error_propagation (dcFuel fuel : Nat) (name : String) (code : ByteCode)
    (pc contexts : Nat) (pushed : Bool) (loops : List (Nat × Nat))
    (catches : List Nat) (s : ExecState) (instr : Instr) (e : ScriptError)
    (s2 : ExecState)
    (hinstr : code[pc]? = some instr)
    (hstep : execInstr dcFuel pc instr.2 contexts loops catches
      (locUpdate name instr.1 pushed s).1 = InstrOut.fail e s2) :
    (∀ c cs, catches = c :: cs → 0 < c →
      execCodeLoop dcFuel name code (fuel + 1) pc contexts pushed loops catches s =
        execCodeLoop dcFuel name code fuel ((c - 1) + 1) contexts
          (locUpdate name instr.1 pushed s).2 loops cs
          (s2.push (.str e.toDisplayString))) ∧
    (catches = [] → (locUpdate name instr.1 pushed s).2 = false →
      ∀ s4, releaseN contexts s2 = some s4 →
        execCodeLoop dcFuel name code (fuel + 1) pc contexts pushed loops catches s =
          ExecOutcome.err e s4) ∧
    (catches = [] → (locUpdate name instr.1 pushed s).2 = true →
      ∀ ci rest, s2.callStack = ci :: rest →
        ∀ s4, releaseN contexts { s2 with callStack := rest } = some s4 →
          execCodeLoop dcFuel name code (fuel + 1) pc contexts pushed loops catches s =
            ExecOutcome.err e s4) := by
  refine ⟨?_, ?_, ?_⟩
  · intro c cs hc hpos
    subst hc
    rw [execCodeLoop]
    simp only [hinstr, hstep]
    rw [if_neg (Nat.pos_iff_ne_zero.mp hpos)]
  · intro hc hpu
    subst hc
    intro s4 hrel
    rw [execCodeLoop]
    simp only [hinstr, hstep, hpu, Bool.false_eq_true, if_false, hrel]
  · intro hc hpu ci rest hcs s4 hrel
    subst hc
    rw [execCodeLoop]
    simp only [hinstr, hstep, hpu, if_true, hcs, hrel]

/-- Closed instance of the error-propagation step: an `UnmarkLoopExit`
with no marked loop errors, and with catch index 2 on the catch stack the
loop pops it, pushes the error string, and resumes at index 2. -/
theorem error_propagation_witness :
    execCodeLoop 1 "w" [(Option.none, OpShape.unmarkLoopExit)] 1 0 0 false [] [2]
      initialExecState =
    execCodeLoop 1 "w" [(Option.none, OpShape.unmarkLoopExit)] 0 2 0 false [] []
      (initialExecState.push
        (.str (ScriptError.toDisplayString
          (initialExecState.mkError "Unbalanced loop exit marker.")))) := by
  exact (error_propagation 1 0 "w" [(Option.none, OpShape.unmarkLoopExit)] 0 0 false
    [] [2] initialExecState (Option.none, OpShape.unmarkLoopExit)
    (initialExecState.mkError "Unbalanced loop exit marker.") initialExecState
    rfl rfl).1 2 [] rfl (by decide)

end RSorth
